import Mathlib

/-!
# mkfilter: FIR kernel synthesis

A shallow embedding of the filter-synthesis core of `mkfilter`
(`audiobuf.c`, `tools.c`, `make.c`, `wantcurve.c`) and of the scan of
`smoothresponse.c`, in exact arithmetic.

* Samples live in a linearly ordered field `K` (the rationals for evaluation,
  the reals for the mathematical statements); `float`/`double` rounding is not
  modelled. Division is the division of the field, for which `x / 0 = 0`; a
  statement that depends on a quotient says that the divisor is not zero.
* `int` lengths are natural numbers (a negative size makes `malloc` fail, which
  is fatal); the sample rate is an integer.
* A C array is the list of its allocated cells; `len` is stored next to it as in
  `struct audiobuf`, so `len` may be smaller than the allocation (`convolve`,
  `make_bandstop2`). A read `a[i]` is `a.getD i 0` and lies inside the
  allocation whenever `len <= a.length`, which the statements assume where they
  need it.
* A fatal exit (`assert`, `err`) is the value `none`.
* Library functions that are not part of the sources (`sinf`, `cosf`, the
  kissfft transforms) are collected in `Env`. The transforms are the exact
  discrete Fourier transform, forward with the twiddle factor `w` and inverse
  with its conjugate and without the factor `1/n`. The double-precision
  functions of `frequency_power` and `make_bandstopdeep` are collected in
  `Libm`, and `strtof` and `strtol` of the curve reader in `Libc`.
* A text is the list of its characters, followed by the terminating NUL; a
  read position is an index into it.
-/

namespace Mkfilter

open Finset

/-! ## Complex samples of the FFT library -/

/-- Complex number of the FFT library: `typedef struct { float r; float i; } kiss_fft_cpx;`. -/
@[ext]
structure kiss_fft_cpx (K : Type) where
  r : K
  i : K
deriving DecidableEq

namespace kiss_fft_cpx

variable {K : Type}

section ring
variable [CommRing K]

instance instZero : Zero (kiss_fft_cpx K) := ⟨⟨0, 0⟩⟩
instance instOne : One (kiss_fft_cpx K) := ⟨⟨1, 0⟩⟩
instance instAdd : Add (kiss_fft_cpx K) := ⟨fun a b => ⟨a.r + b.r, a.i + b.i⟩⟩
instance instNeg : Neg (kiss_fft_cpx K) := ⟨fun a => ⟨-a.r, -a.i⟩⟩
instance instSub : Sub (kiss_fft_cpx K) := ⟨fun a b => ⟨a.r - b.r, a.i - b.i⟩⟩
/-- Complex product, as written out in `convolve`:
`re = ar*br - ai*bi`, `im = ar*bi + ai*br`. -/
instance instMul : Mul (kiss_fft_cpx K) :=
  ⟨fun a b => ⟨a.r * b.r - a.i * b.i, a.r * b.i + a.i * b.r⟩⟩

/-- A real sample seen as a complex one. -/
def ofReal (x : K) : kiss_fft_cpx K := ⟨x, 0⟩

/-- Complex conjugate. -/
def conj (a : kiss_fft_cpx K) : kiss_fft_cpx K := ⟨a.r, -a.i⟩

/-- Squared modulus. -/
def normSq (a : kiss_fft_cpx K) : K := a.r * a.r + a.i * a.i

@[simp] theorem zero_r : (0 : kiss_fft_cpx K).r = 0 := rfl
@[simp] theorem zero_i : (0 : kiss_fft_cpx K).i = 0 := rfl
@[simp] theorem one_r : (1 : kiss_fft_cpx K).r = 1 := rfl
@[simp] theorem one_i : (1 : kiss_fft_cpx K).i = 0 := rfl
@[simp] theorem add_r (a b : kiss_fft_cpx K) : (a + b).r = a.r + b.r := rfl
@[simp] theorem add_i (a b : kiss_fft_cpx K) : (a + b).i = a.i + b.i := rfl
@[simp] theorem neg_r (a : kiss_fft_cpx K) : (-a).r = -a.r := rfl
@[simp] theorem neg_i (a : kiss_fft_cpx K) : (-a).i = -a.i := rfl
@[simp] theorem sub_r (a b : kiss_fft_cpx K) : (a - b).r = a.r - b.r := rfl
@[simp] theorem sub_i (a b : kiss_fft_cpx K) : (a - b).i = a.i - b.i := rfl
@[simp] theorem mul_r (a b : kiss_fft_cpx K) : (a * b).r = a.r * b.r - a.i * b.i := rfl
@[simp] theorem mul_i (a b : kiss_fft_cpx K) : (a * b).i = a.r * b.i + a.i * b.r := rfl
@[simp] theorem ofReal_r (x : K) : (ofReal x).r = x := rfl
@[simp] theorem ofReal_i (x : K) : (ofReal x).i = 0 := rfl
@[simp] theorem conj_r (a : kiss_fft_cpx K) : (conj a).r = a.r := rfl
@[simp] theorem conj_i (a : kiss_fft_cpx K) : (conj a).i = -a.i := rfl

instance instCommRing : CommRing (kiss_fft_cpx K) where
  add_assoc a b c := by ext <;> simp [add_assoc]
  zero_add a := by ext <;> simp
  add_zero a := by ext <;> simp
  add_comm a b := by ext <;> simp [add_comm]
  nsmul := nsmulRec
  zsmul := zsmulRec
  neg_add_cancel a := by ext <;> simp
  sub_eq_add_neg a b := by ext <;> simp [sub_eq_add_neg]
  mul_assoc a b c := by ext <;> simp <;> ring
  one_mul a := by ext <;> simp
  mul_one a := by ext <;> simp
  left_distrib a b c := by ext <;> simp <;> ring
  right_distrib a b c := by ext <;> simp <;> ring
  zero_mul a := by ext <;> simp
  mul_zero a := by ext <;> simp
  mul_comm a b := by ext <;> simp <;> ring

end ring

end kiss_fft_cpx

/-! ## External libraries -/

/-- Functions that the program takes from libraries outside the sources:
`sinf`/`cosf` of the C math library, and the kissfft real transform, given by
its twiddle factor `twiddle n` (the `n`-th root of unity `exp(-2*pi*i/n)`) and
by `kiss_fftr_next_fast_size_real`. -/
structure Env (K : Type) where
  sinf : K → K
  cosf : K → K
  twiddle : ℕ → kiss_fft_cpx K
  next_fast_size_real : ℕ → ℕ

section fft
variable {K : Type} [CommRing K]

/-- Modelled from the spec: the bin `k` of the spectrum that a stored half
spectrum of `nfft/2+1` bins stands for; bins above `nfft/2` are the conjugates
of their mirror images (Hermitian symmetry of a real signal). -/
def hermitian (nfft : ℕ) (freqdata : List (kiss_fft_cpx K)) (k : ℕ) : kiss_fft_cpx K :=
  if k ≤ nfft / 2 then freqdata.getD k 0 else kiss_fft_cpx.conj (freqdata.getD (nfft - k) 0)

/-- Modelled from the spec: bin `k` of the exact discrete Fourier transform of
the `nfft` real samples `x 0, ..., x (nfft-1)` with twiddle factor `w`, that is
`sum_j x[j] * w^(j*k)`. -/
def dft (w : kiss_fft_cpx K) (nfft : ℕ) (x : ℕ → K) (k : ℕ) : kiss_fft_cpx K :=
  ∑ j ∈ range nfft, kiss_fft_cpx.ofReal (x j) * w ^ (j * k)

/-- Modelled from the spec: `kiss_fftr`, the forward real transform of kissfft
(its source is not part of the sources), as the exact discrete Fourier
transform of `nfft` real samples with twiddle factor `w`; it produces the
`nfft/2+1` bins `0, ..., nfft/2`. -/
def kiss_fftr (w : kiss_fft_cpx K) (nfft : ℕ) (timedata : List K) : List (kiss_fft_cpx K) :=
  (List.range (nfft / 2 + 1)).map (dft w nfft fun j => timedata.getD j 0)

/-- Modelled from the spec: `kiss_fftri`, the inverse real transform of kissfft,
as the exact inverse discrete Fourier transform without the `1/nfft` factor
(`convolve` and `make_custom` divide by `fftsize` themselves): it consumes
`nfft/2+1` bins and produces the `nfft` real samples
`Re (sum_k F[k] * conj(w)^(n*k))`. -/
def kiss_fftri (w : kiss_fft_cpx K) (nfft : ℕ) (freqdata : List (kiss_fft_cpx K)) : List K :=
  (List.range nfft).map fun n =>
    (∑ k ∈ range nfft, hermitian nfft freqdata k * kiss_fft_cpx.conj w ^ (n * k)).r

end fft

/-! ## Arrays and loops -/

section arrays
variable {α : Type}

/-- The loop `for (int i = 0; i < n; i++) a[i] = f(i, a[i]);` over the cells of
an array (a cell outside the allocation is not touched). -/
def forEachIdx (n : ℕ) (f : ℕ → α → α) (a : List α) : List α :=
  (List.range n).foldl (fun a i => match a[i]? with
    | some x => a.set i (f i x)
    | none => a) a

/-- Writing the values `xs` to the cells `0, 1, ...` of the allocated array
`mem`: the allocation keeps its size. -/
def memWrite (mem xs : List α) : List α :=
  xs.take mem.length ++ mem.drop xs.length

end arrays

/-! ## audiobuf.h, audiobuf.c -/

/-- Tag `enum audiobuf_type` of the authoritative representation. -/
inductive audiobuf_type where
  | audiobuf_td
  | audiobuf_fd
deriving DecidableEq

/-- Record `struct audiobuf`. `td` is the allocated time array (never `NULL`:
every constructor of the program allocates it), `fd` the frequency array seen
as complex bins (`none` is `NULL`), `len` the length in time samples. -/
structure audiobuf (K : Type) where
  td : List K
  fd : Option (List (kiss_fft_cpx K))
  len : ℕ
  type : audiobuf_type
  sr : ℤ

open audiobuf_type

section audiobuf_c
variable {K : Type} [CommRing K]

/-- The call `convert_buf(buf, audiobuf_td)`: nothing when the buffer is in the
time domain, else the inverse transform of the `len/2+1` bins into `td`. This
is the path of `convert_buf` that `expand_buf` calls; it never calls back. -/
def convert_buf_td (env : Env K) (buf : audiobuf K) : audiobuf K :=
  if buf.type = audiobuf_td then buf
  else
    { buf with
      td := memWrite buf.td (kiss_fftri (env.twiddle buf.len) buf.len (buf.fd.getD []))
      type := audiobuf_td }

/-- Function `expand_buf`: converts to the time domain and grows the time array
with zeros to the next fast transform size of `max(len, minsize)`. -/
def expand_buf (env : Env K) (buf : audiobuf K) (minsize : ℕ) : audiobuf K :=
  let buf := convert_buf_td env buf
  let oldsize := buf.len
  let newsize := env.next_fast_size_real (if oldsize > minsize then oldsize else minsize)
  if newsize > oldsize then
    { buf with
      td := buf.td.take oldsize ++ List.replicate (newsize - oldsize) 0
      len := newsize }
  else buf

/-- Function `convert_buf`. Towards the frequency domain the buffer is first
expanded, the frequency array is allocated when it is `NULL` (and only then),
and the forward transform of the `len` samples is written to it. -/
def convert_buf (env : Env K) (buf : audiobuf K) (target : audiobuf_type) : audiobuf K :=
  if buf.type = target then buf
  else
    match target with
    | audiobuf_fd =>
      let buf := expand_buf env buf 0
      let fd := match buf.fd with
        | none => List.replicate (buf.len / 2 + 1) 0
        | some fd => fd
      { buf with
        fd := some (memWrite fd (kiss_fftr (env.twiddle buf.len) buf.len buf.td))
        type := audiobuf_fd }
    | audiobuf_td =>
      { buf with
        td := memWrite buf.td (kiss_fftri (env.twiddle buf.len) buf.len (buf.fd.getD []))
        type := audiobuf_td }

/-- Function `add_buf(dst, summand)`; the result is `dst`. -/
def add_buf (env : Env K) (dst summand : audiobuf K) : audiobuf K :=
  let dst := convert_buf env dst audiobuf_td
  let summand := convert_buf env summand audiobuf_td
  { dst with td := forEachIdx dst.len (fun i x => x + summand.td.getD i 0) dst.td }

end audiobuf_c

/-! ## tools.h, tools.c -/

/-- Window kinds, `enum window`. -/
inductive window where
  | window_blackman
  | window_hamming
  | window_barlett
  | window_hanning
  | window_rectangular
deriving DecidableEq

open window

section tools_c
variable {K : Type} [LinearOrderedField K]

/-- Constant `#define PI 3.1415926535897932384626433832795028841971693993`. -/
def PI : K := 3.1415926535897932384626433832795028841971693993

/-- Function `apply_window`: multiplies sample `i` by the coefficient of the
window kind, with `l = buf->len`. -/
def apply_window (env : Env K) (buf : audiobuf K) (type : window) : audiobuf K :=
  let buf := convert_buf env buf audiobuf_td
  let l : K := (buf.len : K)
  match type with
  | window_blackman =>
    { buf with td := forEachIdx buf.len (fun i x =>
        x * (0.42 - 0.5 * env.cosf (2 * PI * (i : K) / l)
              + 0.08 * env.cosf (4 * PI * (i : K) / l))) buf.td }
  | window_hamming =>
    { buf with td := forEachIdx buf.len (fun i x =>
        x * (0.54 - 0.46 * env.cosf (2 * PI * (i : K) / l))) buf.td }
  | window_barlett =>
    { buf with td := forEachIdx buf.len (fun i x =>
        x * (1.0 - |1.0 - (i : K) / l * 2.0|)) buf.td }
  | window_hanning =>
    { buf with td := forEachIdx buf.len (fun i x =>
        x * (0.5 - 0.5 * env.cosf (2 * PI * (i : K) / l))) buf.td }
  | window_rectangular => buf

/-- The coefficient by which `apply_window` multiplies sample `i` of a buffer
of length `len`. -/
def window_coeff (env : Env K) (type : window) (len i : ℕ) : K :=
  match type with
  | window_blackman =>
    0.42 - 0.5 * env.cosf (2 * PI * (i : K) / (len : K))
      + 0.08 * env.cosf (4 * PI * (i : K) / (len : K))
  | window_hamming => 0.54 - 0.46 * env.cosf (2 * PI * (i : K) / (len : K))
  | window_barlett => 1.0 - |1.0 - (i : K) / (len : K) * 2.0|
  | window_hanning => 0.5 - 0.5 * env.cosf (2 * PI * (i : K) / (len : K))
  | window_rectangular => 1

/-- The size after `if ( size % 2 == 0 ) size++;` (`make_sinc`, `make_custom`). -/
def odd_size (size : ℕ) : ℕ := if size % 2 = 0 then size + 1 else size

/-- Function `make_sinc`: the size is forced odd, `fc = freq/sr`,
`center = size/2`, and sample `i` is `2*PI*fc` at the center and
`sinf(2*PI*fc*(i-center))/(i-center)` elsewhere. -/
def make_sinc (env : Env K) (sr : ℤ) (freq : K) (size : ℕ) : audiobuf K :=
  let size := odd_size size
  let fc : K := freq / (sr : K)
  let center := size / 2
  { td := (List.range size).map fun i =>
      if i = center then 2 * PI * fc
      else env.sinf (2 * PI * fc * (((i : ℤ) - (center : ℤ) : ℤ) : K))
            / (((i : ℤ) - (center : ℤ) : ℤ) : K)
    fd := none
    len := size
    type := audiobuf_td
    sr := sr }

/-- Function `spectral_inversion_td`: negates every sample, then adds 1 to the
sample at `len/2`. -/
def spectral_inversion_td (env : Env K) (buf : audiobuf K) : audiobuf K :=
  let buf := convert_buf env buf audiobuf_td
  let td := forEachIdx buf.len (fun _ x => -x) buf.td
  { buf with td := td.set (buf.len / 2) (td.getD (buf.len / 2) 0 + 1) }

/-- The first loop of `normalize_dc`: `total = 0; for i < len: total += td[i]`. -/
def dc_total (buf : audiobuf K) : K :=
  (List.range buf.len).foldl (fun total i => total + buf.td.getD i 0) 0

/-- Function `normalize_dc`: divides every sample by the sum of the samples.
The quotient is that of the field `K`, which is the `float` quotient only for a
non-zero sum; for a sum of zero the samples that the C function leaves are
those of `normalize_dc_float` below. -/
def normalize_dc (env : Env K) (buf : audiobuf K) : audiobuf K :=
  let buf := convert_buf env buf audiobuf_td
  let total := dc_total buf
  { buf with td := forEachIdx buf.len (fun _ x => x / total) buf.td }

/-- Function `convolve`. `none` is the failed `assert(a->sr == b->sr)`. The
transform size `1 << (int)ceil(log2(a->len + b->len))` is the least power of
two that is at least `a->len + b->len` (for `a->len + b->len >= 1`; every
buffer that the program builds has at least one sample). -/
def convolve (env : Env K) (a b : audiobuf K) : Option (audiobuf K) :=
  let a := convert_buf env a audiobuf_td
  let b := convert_buf env b audiobuf_td
  if a.sr ≠ b.sr then none
  else
    let fftsize := 1 <<< Nat.clog 2 (a.len + b.len)
    let samp := (List.range fftsize).map fun i => if i < a.len then a.td.getD i 0 else 0
    let afft := kiss_fftr (env.twiddle fftsize) fftsize samp
    let samp := (List.range fftsize).map fun i => if i < b.len then b.td.getD i 0 else 0
    let bfft := kiss_fftr (env.twiddle fftsize) fftsize samp
    let afft := (List.range (fftsize / 2 + 1)).map fun i =>
      let re := (afft.getD i 0).r * (bfft.getD i 0).r - (afft.getD i 0).i * (bfft.getD i 0).i
      let im := (afft.getD i 0).r * (bfft.getD i 0).i + (afft.getD i 0).i * (bfft.getD i 0).r
      (⟨re, im⟩ : kiss_fft_cpx K)
    let samp := kiss_fftri (env.twiddle fftsize) fftsize afft
    let samp := forEachIdx fftsize (fun _ x => x / (fftsize : K)) samp
    some { td := samp, fd := none, sr := a.sr, len := a.len + b.len, type := audiobuf_td }

/-- The zero-padded copy `samp[i] = i < len ? td[i] : 0` that `convolve` transforms. -/
def padded (buf : audiobuf K) (i : ℕ) : K := if i < buf.len then buf.td.getD i 0 else 0

/-- The direct (non-FFT) linear convolution of the `a.len` samples of `a` with
the `b.len` samples of `b`: output sample `k` is the sum over `j` of
`a[j] * b[k-j]`, over the `j` for which both indices lie inside their operand. -/
def direct_convolution (a b : audiobuf K) (k : ℕ) : K :=
  ∑ j ∈ range a.len, if j ≤ k ∧ k - j < b.len then a.td.getD j 0 * b.td.getD (k - j) 0 else 0

end tools_c

/-! ## make.c -/

section make_c
variable {K : Type} [LinearOrderedField K]

/-- Function `make_lowpass`: sinc, window, `normalize_dc`. -/
def make_lowpass (env : Env K) (sr : ℤ) (freq : K) (len : ℕ) (window : window) : audiobuf K :=
  let buf := make_sinc env sr freq len
  let buf := apply_window env buf window
  let buf := normalize_dc env buf
  buf

/-- Function `make_highpass`: sinc, window, `normalize_dc`, spectral inversion. -/
def make_highpass (env : Env K) (sr : ℤ) (freq : K) (len : ℕ) (window : window) : audiobuf K :=
  let buf := make_sinc env sr freq len
  let buf := apply_window env buf window
  let buf := normalize_dc env buf
  let buf := spectral_inversion_td env buf
  buf

/-- Function `make_bandpass2`: the highpass at `freqlow` convolved with the
lowpass at `freqhi`, both of length `len/2`. -/
def make_bandpass2 (env : Env K) (sr : ℤ) (freqlow freqhi : K) (len : ℕ) (window : window) :
    Option (audiobuf K) :=
  let l2 := len / 2
  let hp := make_highpass env sr freqlow l2 window
  let lp := make_lowpass env sr freqhi l2 window
  convolve env hp lp

/-- Function `make_bandstop2`: `make_bandpass2`, then `buf->len--`, then
spectral inversion. -/
def make_bandstop2 (env : Env K) (sr : ℤ) (freqlow freqhi : K) (len : ℕ) (window : window) :
    Option (audiobuf K) :=
  (make_bandpass2 env sr freqlow freqhi len window).map fun buf =>
    let buf := { buf with len := buf.len - 1 }
    spectral_inversion_td env buf

/-- The buffer `lp` of `make_bandstop` right after `add_buf(lp, hp)`, that is
immediately before the final `normalize_dc(lp)`. -/
def make_bandstop_added (env : Env K) (sr : ℤ) (freqlow freqhi : K) (len : ℕ)
    (window : window) : audiobuf K :=
  let hp := make_highpass env sr freqhi len window
  let lp := make_lowpass env sr freqlow len window
  add_buf env lp hp

/-- Function `make_bandstop`: for `freqlow == freqhi` the result of
`make_bandstop2`, else highpass plus lowpass, renormalized. -/
def make_bandstop (env : Env K) (sr : ℤ) (freqlow freqhi : K) (len : ℕ) (window : window) :
    Option (audiobuf K) :=
  if freqlow = freqhi then make_bandstop2 env sr freqlow freqhi len window
  else
    let lp := make_bandstop_added env sr freqlow freqhi len window
    some (normalize_dc env lp)

/-- Function `make_bandpass`: `make_bandstop`, then spectral inversion. -/
def make_bandpass (env : Env K) (sr : ℤ) (freqlow freqhi : K) (len : ℕ) (window : window) :
    Option (audiobuf K) :=
  (make_bandstop env sr freqlow freqhi len window).map fun buf =>
    spectral_inversion_td env buf

end make_c

/-! ## tools.c, make.c: the depth search -/

/-- The double-precision functions of the C math library that `frequency_power`
and `make_bandstopdeep` call: `cos`, `sin`, `sqrt`, `log`. -/
structure Libm (K : Type) where
  cos : K → K
  sin : K → K
  sqrt : K → K
  log : K → K

section deep
variable {K : Type} [LinearOrderedField K]

/-- Function `frequency_power`: the modulus of the correlation sum
`sum_i td[i] * (cos(PI*2*i*freq/sr), sin(PI*2*i*freq/sr))`. -/
def frequency_power (env : Env K) (lm : Libm K) (buf : audiobuf K) (freq : K) : K :=
  let buf := convert_buf env buf audiobuf_td
  let re := (List.range buf.len).foldl
    (fun re i => re + buf.td.getD i 0 * lm.cos (PI * 2 * (i : K) * freq / (buf.sr : K))) 0
  let im := (List.range buf.len).foldl
    (fun im i => im + buf.td.getD i 0 * lm.sin (PI * 2 * (i : K) * freq / (buf.sr : K))) 0
  lm.sqrt (re * re + im * im)

/-- A time-domain buffer of length 1 whose only tap is 1. -/
def one_tap_unit (buf : audiobuf K) : Prop :=
  buf.type = audiobuf_td ∧ buf.len = 1 ∧ buf.td.getD 0 0 = 1

/-- The local variables of `make_bandstopdeep` at the test of its `while` loop. -/
structure deep_state (K : Type) where
  width : K
  step : K
  buf : audiobuf K
  power : K
  lastdir : ℤ
  dir : ℤ

/-- What a run of `make_bandstopdeep` has come to: back at the loop test with a
state, returned (`st.buf` is the returned buffer), or ended by a fatal exit
inside `make_bandstop`. -/
inductive deep_outcome (K : Type) where
  | running (st : deep_state K)
  | returned (st : deep_state K)
  | aborted

/-- The initial width `double width = sr/1000;`: the quotient of two `int`s. -/
def deep_width0 (sr : ℤ) : K := ((Int.tdiv sr 1000 : ℤ) : K)

/-- The initial step `double step = width/3;`. -/
def deep_step0 (sr : ℤ) : K := deep_width0 sr / 3

/-- The statements of `make_bandstopdeep` before its loop. -/
def deep_init (env : Env K) (lm : Libm K) (sr : ℤ) (freq : K) (len : ℕ) (window : window) :
    deep_outcome K :=
  let width : K := deep_width0 sr
  let step : K := deep_step0 sr
  match make_bandstop env sr (freq - width) (freq + width) len window with
  | none => deep_outcome.aborted
  | some buf =>
    let power := frequency_power env lm buf freq
    deep_outcome.running
      { width := width, step := step, buf := buf, power := power, lastdir := 0, dir := 0 }

/-- The loop test `fabs(log(power) - log(depth)) > 0.01 && step > 0.00000001`. -/
def deep_test (lm : Libm K) (depth : K) (st : deep_state K) : Prop :=
  |lm.log st.power - lm.log depth| > 0.01 ∧ st.step > 0.00000001

instance deep_test_decidable (lm : Libm K) (depth : K) (st : deep_state K) :
    Decidable (deep_test lm depth st) := by
  unfold deep_test; infer_instance

/-- The clamped width
`(freq < sr/2-freq ? freq : sr/2-freq) - sr/100000.0` of the guard. -/
def deep_clamp_width (sr : ℤ) (freq : K) : K :=
  (if freq < ((Int.tdiv sr 2 : ℤ) : K) - freq then freq else ((Int.tdiv sr 2 : ℤ) : K) - freq)
    - (sr : K) / 100000.0

/-- One pass through the body of the `while` loop of `make_bandstopdeep`. -/
def deep_body (env : Env K) (lm : Libm K) (sr : ℤ) (freq depth : K) (len : ℕ)
    (window : window) (st : deep_state K) : deep_outcome K :=
  let width := if st.power < depth then st.width - st.step else st.width + st.step
  let dir : ℤ := if st.power < depth then -1 else 1
  let step := if st.lastdir ≠ 0 ∧ dir ≠ st.lastdir then st.step * 0.5 else st.step
  let low := freq - width
  let hi := freq + width
  if low < 0 ∨ hi > ((Int.tdiv sr 2 : ℤ) : K) then
    let width := deep_clamp_width sr freq
    match make_bandstop env sr (freq - width) (freq + width) len window with
    | none => deep_outcome.aborted
    | some buf => deep_outcome.returned { st with width := width, step := step, dir := dir, buf := buf }
  else
    match make_bandstop env sr (freq - width) (freq + width) len window with
    | none => deep_outcome.aborted
    | some buf =>
      let power := frequency_power env lm buf freq
      deep_outcome.running
        { width := width, step := step, buf := buf, power := power, lastdir := dir, dir := dir }

/-- The `while` loop of `make_bandstopdeep`, run for at most `fuel` tests of its
condition; `none` when it is still running after that. -/
def deep_loop (env : Env K) (lm : Libm K) (sr : ℤ) (freq depth : K) (len : ℕ)
    (window : window) : ℕ → deep_state K → Option (deep_outcome K)
  | 0, _ => none
  | fuel + 1, st =>
    if deep_test lm depth st then
      match deep_body env lm sr freq depth len window st with
      | deep_outcome.running st1 => deep_loop env lm sr freq depth len window fuel st1
      | r => some r
    else some (deep_outcome.returned st)

/-- Function `make_bandstopdeep`, with at most `fuel` tests of the loop
condition: `none` when the loop is still running after them, else how the call
ended; the returned buffer is `st.buf`. -/
def make_bandstopdeep (env : Env K) (lm : Libm K) (sr : ℤ) (freq depth : K) (len : ℕ)
    (window : window) (fuel : ℕ) : Option (deep_outcome K) :=
  match deep_init env lm sr freq len window with
  | deep_outcome.running st => deep_loop env lm sr freq depth len window fuel st
  | r => some r

end deep

/-! ## wantcurve.h -/

/-- Record `struct wantpoint`. -/
structure wantpoint (K : Type) where
  freq : K
  power : K

/-- Record `struct wantcurve`; the points are `pts[0], ..., pts[ct-1]`. -/
structure wantcurve (K : Type) where
  pts : List (wantpoint K)
  ct : ℕ
  sr : ℤ
  has_sr : Bool

/-! ## make.c: make_custom -/

/-- The cells that `malloc` hands to `make_custom`, as they are before the
function writes to them: `malloc` does not initialise memory. -/
structure malloc_cells (K : Type) where
  fft_in : ℕ → kiss_fft_cpx K
  audio : ℕ → K

section custom
variable {K : Type} [LinearOrderedField K]

/-- Modelled from the spec: `kiss_fft` of kissfft with the inverse flag, as the
exact inverse discrete Fourier transform of `nfft` complex bins without the
factor `1/nfft`: output `n` is `sum_k fin[k] * conj(w)^(n*k)`. -/
def kiss_fft_inverse (w : kiss_fft_cpx K) (nfft : ℕ) (fin : List (kiss_fft_cpx K)) :
    List (kiss_fft_cpx K) :=
  (List.range nfft).map fun n =>
    ∑ k ∈ range nfft, fin.getD k 0 * kiss_fft_cpx.conj w ^ (n * k)

/-- The access `curve->pts[k]`; `none` when `k` is not below `ct`. -/
def pts_at (curve : wantcurve K) (k : ℕ) : Option (wantpoint K) :=
  if k < curve.ct then curve.pts[k]? else none

/-- The frequency of bin `i` in `make_custom`: `f = (float)i/fftsize*sr`, then
`if ( f > sr/2 ) f = sr-f`, with the `int` quotient `sr/2`. -/
def bin_freq (sr : ℤ) (fftsize i : ℕ) : K :=
  let f : K := (i : K) / (fftsize : K) * (sr : K)
  if f > ((Int.tdiv sr 2 : ℤ) : K) then (sr : K) - f else f

/-- The loop `while ( curve->pts[pti+1].freq < f ) pti++;`: the final `pti`, or
`none` when it reads a point outside `pts[0..ct)`. -/
def advance_pti (curve : wantcurve K) (f : K) (pti : ℕ) : Option ℕ :=
  if pti + 1 < curve.ct then
    match curve.pts[pti + 1]? with
    | none => none
    | some p => if p.freq < f then advance_pti curve f (pti + 1) else some pti
  else none
termination_by curve.ct - pti

/-- The body of the loop over the bins in `make_custom` for a bin of frequency
`f`, entered with the cursor `pti`: the value stored in `in[i].r` and the cursor
afterwards, or `none` when a point outside `pts[0..ct)` is read. -/
def custom_bin (curve : wantcurve K) (f : K) (pti : ℕ) : Option (K × ℕ) :=
  match pts_at curve 0 with
  | none => none
  | some first =>
    if f < first.freq then some (first.power, pti)
    else
      match pts_at curve (curve.ct - 1) with
      | none => none
      | some last =>
        if last.freq < f then some (last.power, pti)
        else
          match advance_pti curve f pti with
          | none => none
          | some pti =>
            match pts_at curve pti, pts_at curve (pti + 1) with
            | some low, some hi =>
              let p0 := (f - low.freq) / (hi.freq - low.freq)
              some (p0 * hi.power + (1 - p0) * low.power, pti)
            | _, _ => none

/-- The piecewise-linear interpolation of sorted control points at `f`, in the
words of the specification: the power of the first point before the first
point, the power of the last point after the last one, otherwise the linear
interpolation between the two neighbouring points that bracket `f`. -/
def piecewise_linear (pts : List (wantpoint K)) (f : K) : Option K :=
  match pts.head?, pts.getLast? with
  | some first, some last =>
    if f < first.freq then some first.power
    else if last.freq < f then some last.power
    else
      ((pts.zip pts.tail).find? fun p => decide (p.1.freq ≤ f ∧ f ≤ p.2.freq)).map fun p =>
        let p0 := (f - p.1.freq) / (p.2.freq - p.1.freq)
        p0 * p.2.power + (1 - p0) * p.1.power
  | _, _ => none

/-- The transform size `1 << (int)(ceil(log2(len))+1)` of `make_custom`. -/
def custom_fftsize (len : ℕ) : ℕ := 1 <<< (Nat.clog 2 len + 1)

/-- The array `in` that `make_custom` passes to the inverse transform (`len` is
already odd): the loop `for i < len: in[i].i = 0`, then the loop over the
`fftsize` bins that sets `in[i].r`. -/
def custom_spectrum (cells : malloc_cells K) (sr : ℤ) (curve : wantcurve K) (len : ℕ) :
    Option (List (kiss_fft_cpx K)) :=
  let fftsize := custom_fftsize len
  let in0 := (List.range fftsize).map cells.fft_in
  let in1 := forEachIdx len (fun _ c => (⟨c.r, 0⟩ : kiss_fft_cpx K)) in0
  ((List.range fftsize).foldl (fun acc i =>
    match acc with
    | none => none
    | some (fin, pti) =>
      match custom_bin curve (bin_freq sr fftsize i) pti with
      | none => none
      | some (v, pti) => some (fin.set i ⟨v, (fin.getD i 0).i⟩, pti))
    (some (in1, 0))).map Prod.fst

/-- The buffer of `make_custom` before `apply_window`: the samples
`audio[i] = out[fftsize+i-center].r / fftsize` and
`audio[i+center] = out[i].r / fftsize` for `i < center`. -/
def custom_kernel (env : Env K) (cells : malloc_cells K) (sr : ℤ) (curve : wantcurve K)
    (len : ℕ) : Option (audiobuf K) :=
  let len := odd_size len
  let fftsize := custom_fftsize len
  match custom_spectrum cells sr curve len with
  | none => none
  | some fin =>
    let out := kiss_fft_inverse (env.twiddle fftsize) fftsize fin
    let audio := (List.range len).map cells.audio
    let center := len / 2
    let audio := forEachIdx center
      (fun i _ => (out.getD (fftsize + i - center) 0).r / (fftsize : K)) audio
    let audio := (List.range center).foldl
      (fun a i => a.set (i + center) ((out.getD i 0).r / (fftsize : K))) audio
    some { td := audio, len := len, fd := none, sr := sr, type := audiobuf_td }

/-- Function `make_custom`; `none` when the interpolation reads a point outside
`pts[0..ct)`. -/
def make_custom (env : Env K) (cells : malloc_cells K) (sr : ℤ) (curve : wantcurve K)
    (len : ℕ) (window : window) : Option (audiobuf K) :=
  (custom_kernel env cells sr curve len).map fun buf => apply_window env buf window

end custom

/-! ## tools.c: normalize_peak_if_clipped -/

section peak
variable {K : Type} [LinearOrderedField K]

/-- The first loop of `normalize_peak_if_clipped`:
`max = 0; for i < len: if ( max < fabsf(td[i]) ) max = fabsf(td[i])`. -/
def peak_max (buf : audiobuf K) : K :=
  (List.range buf.len).foldl
    (fun max i => if max < |buf.td.getD i 0| then |buf.td.getD i 0| else max) 0

/-- Function `normalize_peak_if_clipped`: when the maximum absolute sample
exceeds 1, every sample is divided by it. The second component is the scale
`1/max` of the warning written to `stderr`, `none` when nothing is written. -/
def normalize_peak_if_clipped (env : Env K) (buf : audiobuf K) : audiobuf K × Option K :=
  let buf := convert_buf env buf audiobuf_td
  let max := peak_max buf
  if max > 1 then
    ({ buf with td := forEachIdx buf.len (fun _ x => x / max) buf.td }, some (1 / max))
  else (buf, none)

end peak

/-! ## audiobuf.h: the size of the frequency array -/

/-- The invariant that `audiobuf.h` states for `struct audiobuf`: "when type=fd,
*fd has length len/2+1 complex points". -/
def fd_sized {K : Type} (buf : audiobuf K) : Prop :=
  buf.type = audiobuf_fd → ∃ fd, buf.fd = some fd ∧ fd.length = buf.len / 2 + 1

/-! ## wantcurve.c -/

/-- Functions of the C library that `read_wantcurve_from_string` calls on the
text from the read position on: `strtof` and `strtol` (base 10), each given by
the value that it returns and the number of characters that it consumes. The
type `K` of the `float` values is arbitrary: it is taken as `cfloat K` below
where the values `+inf`, `-inf` and NaN, which `strtof` returns for texts such
as `+inf` and `+nan`, are to be told from the numbers. -/
structure Libc (K : Type) where
  strtof : List Char → K × ℕ
  strtol : List Char → ℤ × ℕ

/-- The character `*s` at position `s` of the C string `str`, whose characters
are followed by the terminating NUL. -/
def char_at (str : List Char) (s : ℕ) : Char := str.getD s (Char.ofNat 0)

/-- Function `isspace` of the C library in the "C" locale: space, `\t`, `\n`,
`\v`, `\f`, `\r`. -/
def isspace (c : Char) : Bool :=
  c == ' ' || c == '\t' || c == '\n' || c == Char.ofNat 11 || c == Char.ofNat 12 || c == '\r'

/-- The number of characters that a loop `while ( *s && p(*s) ) s++;` passes
over when the text from `s` on is `l`. -/
def skip_count (p : Char → Bool) : List Char → ℕ
  | [] => 0
  | c :: cs => if c != Char.ofNat 0 && p c then skip_count p cs + 1 else 0

/-- The position after a loop `while ( *s && p(*s) ) s++;` entered at `s`. -/
def skip_while (p : Char → Bool) (str : List Char) (s : ℕ) : ℕ :=
  s + skip_count p (str.drop s)

/-- The position after the statements
`while ( *s && *s != '\n' && *s != '\r' && *s != ',' ) s++; s++;`
that leave an entry of the text. -/
def skip_entry (str : List Char) (s : ℕ) : ℕ :=
  skip_while (fun c => c != '\n' && c != '\r' && c != ',') str s + 1

/-- The test `(*s >= '0' && *s <= '9') || *s == '+' || *s == '-' || *s == '.'`. -/
def number_start (c : Char) : Bool :=
  (decide ('0' ≤ c) && decide (c ≤ '9')) || c == '+' || c == '-' || c == '.'

section wantcurve_c
variable {K : Type}

/-- The first loop of `read_wantcurve_from_string`, which looks for
`SAMPLERATE=` followed by a digit: the fields `sr` and `has_sr` after it. -/
def read_samplerate (lc : Libc K) (str : List Char) (s : ℕ) (sr : ℤ) (has_sr : Bool) :
    ℤ × Bool :=
  if s < str.length then
    if str.length - s ≤ 11 then (sr, has_sr)
    else if (str.drop s).take 11 = ['S', 'A', 'M', 'P', 'L', 'E', 'R', 'A', 'T', 'E', '='] then
      if decide ('0' ≤ char_at str (s + 11)) && decide (char_at str (s + 11) ≤ '9') then
        read_samplerate lc str (s + 11 + (lc.strtol (str.drop (s + 11))).2 + 1)
          (lc.strtol (str.drop (s + 11))).1 true
      else read_samplerate lc str (s + 11 + 1) sr has_sr
    else read_samplerate lc str (s + 1) sr has_sr
  else (sr, has_sr)
termination_by str.length - s

/-- The second loop of `read_wantcurve_from_string`, entered at position `s`
with the points `pts` read so far: the points `pts[0..ct)` after it, in the
order of the text. -/
def read_points (lc : Libc K) (str : List Char) (s : ℕ) (pts : List (wantpoint K)) :
    List (wantpoint K) :=
  if s < str.length then
    if char_at str s == '#' || char_at str s == ';' then
      read_points lc str (skip_entry str s) pts
    else if !number_start (char_at str (skip_while isspace str s)) then
      read_points lc str (skip_entry str (skip_while isspace str s)) pts
    else
      let s1 := skip_while isspace str s
      let freq := (lc.strtof (str.drop s1)).1
      let s2 := skip_while (fun c => isspace c || c == '=') str (s1 + (lc.strtof (str.drop s1)).2)
      if !number_start (char_at str s2) then
        read_points lc str (skip_entry str s2) pts
      else
        let power := (lc.strtof (str.drop s2)).1
        read_points lc str (skip_entry str (s2 + (lc.strtof (str.drop s2)).2))
          (pts ++ [⟨freq, power⟩])
  else pts
termination_by str.length - s
decreasing_by
  all_goals simp only [skip_entry, skip_while]
  all_goals omega

/-- The inner loop of the insertion sort and the store after it:
`while ( j > 0 && pts[j-1].freq > this.freq ) { j--; pts[j+1] = pts[j]; }
pts[j] = this;` entered with `j`. -/
def sort_insert [LT K] [DecidableRel (fun a b : K => a < b)] (this : wantpoint K) :
    ℕ → List (wantpoint K) → List (wantpoint K)
  | 0, pts => pts.set 0 this
  | j + 1, pts =>
    match pts[j]? with
    | some p =>
      if p.freq > this.freq then sort_insert this j (pts.set (j + 1) p)
      else pts.set (j + 1) this
    | none => pts.set (j + 1) this

/-- The body of the outer loop of the insertion sort for `i = k + 1`:
`int j = i; wantpoint this = pts[i];`, the inner loop and `pts[j] = this;`. -/
def sort_step [LT K] [DecidableRel (fun a b : K => a < b)] (pts : List (wantpoint K))
    (k : ℕ) : List (wantpoint K) :=
  match pts[k + 1]? with
  | some this => sort_insert this (k + 1) pts
  | none => pts

/-- The insertion sort by frequency of `read_wantcurve_from_string`:
`for (int i = 1; i < ct; i++) { ... }`. -/
def sort_points [LT K] [DecidableRel (fun a b : K => a < b)] (ct : ℕ)
    (pts : List (wantpoint K)) : List (wantpoint K) :=
  (List.range (ct - 1)).foldl sort_step pts

/-- Function `read_wantcurve_from_string` on the text `str`; `sr0` is the
content of the field `sr` of the `malloc`ed structure, which the function
leaves as it is when the text declares no sample rate. `none` is the fatal exit
`errx(1, "Wantcurve appears to be empty.")`. -/
def read_wantcurve_from_string [LT K] [DecidableRel (fun a b : K => a < b)] (lc : Libc K)
    (sr0 : ℤ) (str : List Char) : Option (wantcurve K) :=
  let srs := read_samplerate lc str 0 sr0 false
  let pts := read_points lc str 0 []
  let ct := pts.length
  let pts := sort_points ct pts
  if ct = 0 then none
  else some { pts := pts, ct := ct, sr := srs.1, has_sr := srs.2 }

end wantcurve_c

/-! ## make.c: the passes of the depth search -/

section deep_passes
variable {K : Type} [LinearOrderedField K]

/-- The states at the loop test of `make_bandstopdeep` during `n` passes through
the loop body that start at the test with the state `st`, first to last;
`none` when the loop is left (by its test, by the return of the guard or by a
fatal exit) before the `n` passes are done. -/
def deep_trace (env : Env K) (lm : Libm K) (sr : ℤ) (freq depth : K) (len : ℕ)
    (window : window) : ℕ → deep_state K → Option (List (deep_state K))
  | 0, st => some [st]
  | n + 1, st =>
    if deep_test lm depth st then
      match deep_body env lm sr freq depth len window st with
      | deep_outcome.running st1 =>
        (deep_trace env lm sr freq depth len window n st1).map fun tr => st :: tr
      | _ => none
    else none

end deep_passes

/-! ## smoothresponse.c -/

/-- Record `struct pt` of `smoothresponse.c`. -/
structure pt (K : Type) where
  freq : K
  amp : K

/-- The variables `sum`, `from` and `to` of step 3 of `process` (the fields
`from_` and `to_`). -/
structure scan_state (K : Type) where
  sum : K
  from_ : ℕ
  to_ : ℕ

section smoothresponse_c
variable {K : Type} [LinearOrderedField K]

/-- The read `pts[k]` of the array of the `at = pts.length` points (a cell
behind them is `(0, 0)` here; step 3 reads none when `at >= 1`). -/
def pt_at (pts : List (pt K)) (k : ℕ) : pt K := pts.getD k ⟨0, 0⟩

/-- The loop `while ( at-1 > to+1 && pts[to].freq < topf ) sum += pts[to++].amp;`
of `process`: `sum` and `to` after it. -/
def scan_to (pts : List (pt K)) (topf : K) (sum : K) (to_ : ℕ) : K × ℕ :=
  if pts.length - 1 > to_ + 1 ∧ (pt_at pts to_).freq < topf then
    scan_to pts topf (sum + (pt_at pts to_).amp) (to_ + 1)
  else (sum, to_)
termination_by pts.length - to_

/-- The loop
`while ( at-1 > from+1 && pts[from].freq < botf ) sum -= pts[from++].amp;`
of `process`: `sum` and `from` after it. -/
def scan_from (pts : List (pt K)) (botf : K) (sum : K) (from_ : ℕ) : K × ℕ :=
  if pts.length - 1 > from_ + 1 ∧ (pt_at pts from_).freq < botf then
    scan_from pts botf (sum - (pt_at pts from_).amp) (from_ + 1)
  else (sum, from_)
termination_by pts.length - from_

/-- The body of the `for` loop of step 3 of `process` for the index `i`, up to
its `fprintf`: the variables `sum`, `from`, `to` at the print. -/
def scan_step (pts : List (pt K)) (width : K) (st : scan_state K) (i : ℕ) : scan_state K :=
  let topf := (pt_at pts i).freq * (1 + width)
  let botf := (pt_at pts i).freq / (1 + width)
  let up := scan_to pts topf st.sum st.to_
  let down := scan_from pts botf up.1 st.from_
  { sum := down.1, from_ := down.2, to_ := up.2 }

/-- The `for` loop of step 3 of `process` over the indices `is`, entered with
the variables `st`: the variables at each print. -/
def scan_states (pts : List (pt K)) (width : K) : List ℕ → scan_state K → List (scan_state K)
  | [], _ => []
  | i :: rest, st =>
    scan_step pts width st i :: scan_states pts width rest (scan_step pts width st i)

/-- Step 3 of function `process` on the array `pts` that the steps 1 and 2
leave (the points read, sorted by `qsort`): the variables `sum`, `from`, `to`
at the print for each `i < at`, from `sum = pts[0].amp; from = 0; to = 0`. -/
def process_states (pts : List (pt K)) (width : K) : List (scan_state K) :=
  scan_states pts width (List.range pts.length) ⟨(pt_at pts 0).amp, 0, 0⟩

/-- Step 3 of function `process`: the lines that it prints, `pts[i].freq` and
`sum/(to-from+1)` for each `i < at`. -/
def process (pts : List (pt K)) (width : K) : List (K × K) :=
  ((List.range pts.length).zip (process_states pts width)).map fun p =>
    ((pt_at pts p.1).freq, p.2.sum / ((((p.2.to_ : ℤ) - (p.2.from_ : ℤ) + 1 : ℤ)) : K))

/-- In the words of the specification: the arithmetic mean of the amplitudes of
the run `pts[from..to]`, both ends included. -/
def run_mean (pts : List (pt K)) (from_ to_ : ℕ) : K :=
  (∑ k ∈ Finset.Icc from_ to_, (pt_at pts k).amp) / ((to_ + 1 - from_ : ℕ) : K)

end smoothresponse_c

/-! ## `float` values that are not numbers -/

/-- A `float` value in exact arithmetic: a number of `K`, or one of the values
`+inf`, `-inf` and NaN, which a division by zero and `strtof` can give. -/
inductive cfloat (K : Type) where
  | num (x : K)
  | pinf
  | ninf
  | nan
deriving DecidableEq

namespace cfloat

section order
variable {K : Type} [LinearOrder K]

/-- The comparison `a < b` of two `float`s; it is false when one is NaN. -/
def lt : cfloat K → cfloat K → Prop
  | num x, num y => x < y
  | num _, pinf => True
  | ninf, num _ => True
  | ninf, pinf => True
  | _, _ => False

/-- The comparison `a <= b` of two `float`s; it is false when one is NaN. -/
def le : cfloat K → cfloat K → Prop
  | num x, num y => x ≤ y
  | num _, pinf => True
  | ninf, num _ => True
  | ninf, pinf => True
  | pinf, pinf => True
  | ninf, ninf => True
  | _, _ => False

instance instLT : LT (cfloat K) := ⟨lt⟩
instance instLE : LE (cfloat K) := ⟨le⟩

instance decidableLT : DecidableRel (fun a b : cfloat K => a < b) := fun a b => by
  cases a <;> cases b <;> simp only [LT.lt, lt] <;> infer_instance

end order

end cfloat

section float_quotient
variable {K : Type} [LinearOrderedField K]

/-- The `float` quotient `x / total` of two numbers: the quotient of the field
for `total != 0`, and for `total == 0` the value `+inf`, `-inf` or NaN by the
sign of `x` (the zero is `+0`: a sum that starts from `float total = 0` is
never `-0`). -/
def float_div (x total : K) : cfloat K :=
  if total = 0 then
    if 0 < x then cfloat.pinf else if x < 0 then cfloat.ninf else cfloat.nan
  else cfloat.num (x / total)

/-- The samples `td[0..len)` that `normalize_dc` leaves, as `float` values:
`normalize_dc` with the quotient `buf->td[i] /= total` taken as the `float`
quotient, so that a sum of zero gives `+inf`, `-inf` and NaN. -/
def normalize_dc_float (env : Env K) (buf : audiobuf K) : List (cfloat K) :=
  let buf := convert_buf env buf audiobuf_td
  let total := dc_total buf
  (List.range buf.len).map fun i => float_div (buf.td.getD i 0) total

end float_quotient

/-! ## An environment for evaluation -/

/-- An environment over the rationals, on which every definition can be
evaluated: `sinf` and `cosf` are the small-angle approximations `x` and
`1 - x^2/2`, the twiddle factors are the exact roots of unity of the orders
2 and 4 (`-1` and `-i`; no other order above 1 has a rational one), and the
next fast size is the next even number. -/
def envQ : Env ℚ where
  sinf x := x
  cosf x := 1 - x ^ 2 / 2
  twiddle n := if n = 2 then ⟨-1, 0⟩ else if n = 4 then ⟨0, -1⟩ else 1
  next_fast_size_real n := 2 * ((n + 1) / 2)

/-- Double-precision functions over the rationals for evaluation: `cos`, `sin`
and `log` are their first Taylor polynomials at 0, 0 and 1, and `sqrt` is one
Newton step from 1; they are exact at `cos 0`, `sin 0`, `log 1`, `sqrt 1`. -/
def libmQ : Libm ℚ where
  cos x := 1 - x ^ 2 / 2
  sin x := x
  sqrt x := (x + 1) / 2
  log x := x - 1

/-- The value and the length of the run of decimal digits at the start of a
text, after the digits of value `v`. -/
def digits_value : List Char → ℕ → ℕ × ℕ
  | [], v => (v, 0)
  | c :: cs, v =>
    if '0' ≤ c ∧ c ≤ '9' then
      ((digits_value cs (10 * v + (c.toNat - 48))).1, (digits_value cs (10 * v + (c.toNat - 48))).2 + 1)
    else (v, 0)

/-- Conversions `strtof` and `strtol` for evaluation: they read an unsigned
run of decimal digits (no sign, fraction or exponent) and consume nothing when
the text does not start with a digit. -/
def libcQ : Libc ℚ where
  strtof l := (((digits_value l 0).1 : ℚ), (digits_value l 0).2)
  strtol l := (((digits_value l 0).1 : ℤ), (digits_value l 0).2)

/-- Conversions `strtof` and `strtol` with `float` values for evaluation:
`strtof` reads the four characters `+nan` or `-nan` as the NaN, and otherwise
an unsigned run of decimal digits as in `libcQ`. -/
def libcF : Libc (cfloat ℚ) where
  strtof l :=
    if l.take 4 = ['+', 'n', 'a', 'n'] ∨ l.take 4 = ['-', 'n', 'a', 'n'] then (cfloat.nan, 4)
    else (cfloat.num ((digits_value l 0).1 : ℚ), (digits_value l 0).2)
  strtol l := (((digits_value l 0).1 : ℤ), (digits_value l 0).2)

/-- The complex samples over the reals, seen as complex numbers. -/
def toComplex : kiss_fft_cpx ℝ →+* ℂ where
  toFun z := ⟨z.r, z.i⟩
  map_one' := rfl
  map_zero' := rfl
  map_mul' a b := by apply Complex.ext <;> simp
  map_add' a b := by apply Complex.ext <;> simp

/-! ## Lemmas on loops and arrays -/

section loops
variable {α : Type}

theorem forEachIdx_zero (f : ℕ → α → α) (a : List α) : forEachIdx 0 f a = a := by
  simp [forEachIdx]

theorem forEachIdx_succ (n : ℕ) (f : ℕ → α → α) (a : List α) :
    forEachIdx (n + 1) f a =
      match (forEachIdx n f a)[n]? with
      | some x => (forEachIdx n f a).set n (f n x)
      | none => forEachIdx n f a := by
  unfold forEachIdx
  rw [List.range_succ, List.foldl_append]
  rfl

theorem length_forEachIdx (n : ℕ) (f : ℕ → α → α) (a : List α) :
    (forEachIdx n f a).length = a.length := by
  induction n with
  | zero => simp [forEachIdx_zero]
  | succ n ih => rw [forEachIdx_succ]; split <;> simp [ih]

theorem getElem?_forEachIdx (n : ℕ) (f : ℕ → α → α) (a : List α) (j : ℕ) :
    (forEachIdx n f a)[j]? = if j < n then a[j]?.map (f j) else a[j]? := by
  induction n with
  | zero => simp [forEachIdx_zero]
  | succ n ih =>
    rw [forEachIdx_succ]
    split
    · next x hx =>
      rw [List.getElem?_set]
      by_cases hj : n = j
      · subst hj
        have hlt : n < (forEachIdx n f a).length := by
          by_contra h
          rw [List.getElem?_eq_none (not_lt.mp h)] at hx
          exact Option.noConfusion hx
        rw [ih] at hx
        simp only [lt_irrefl, if_false] at hx
        simp [hlt, hx]
      · have : (j < n + 1) = (j < n) := by
          apply propext; omega
        simp only [hj, if_false, this]
        exact ih
    · next hx =>
      by_cases hj : n = j
      · subst hj
        rw [hx]
        rw [ih] at hx
        simp at hx
        simp [List.getElem?_eq_none hx]
      · have : (j < n + 1) = (j < n) := by
          apply propext; omega
        simp only [this]
        exact ih

theorem getD_forEachIdx (n : ℕ) (f : ℕ → α → α) (a : List α) (j : ℕ) (d : α) :
    (forEachIdx n f a).getD j d =
      if j < n ∧ j < a.length then f j (a.getD j d) else a.getD j d := by
  rw [List.getD_eq_getElem?_getD, getElem?_forEachIdx, List.getD_eq_getElem?_getD]
  by_cases hn : j < n
  · by_cases hl : j < a.length
    · simp [hn, hl]
    · simp [hn, hl, List.getElem?_eq_none (not_lt.mp hl)]
  · simp [hn]

theorem forEachIdx_id (n : ℕ) (f : ℕ → α → α) (a : List α) (hf : ∀ i x, f i x = x) :
    forEachIdx n f a = a := by
  apply List.ext_getElem?
  intro j
  rw [getElem?_forEachIdx]
  split
  · cases h : a[j]? <;> simp [hf]
  · rfl

theorem memWrite_of_length_le (mem xs : List α) (h : xs.length ≤ mem.length) :
    memWrite mem xs = xs ++ mem.drop xs.length := by
  unfold memWrite
  rw [List.take_of_length_le h]

end loops

/-! ## Lemmas on buffers and kernels -/

section buffers
variable {K : Type} [LinearOrderedField K]

theorem foldl_add_eq_sum (g : ℕ → K) (n : ℕ) :
    (List.range n).foldl (fun total i => total + g i) 0 = ∑ i ∈ range n, g i := by
  induction n with
  | zero => simp
  | succ n ih => rw [List.range_succ, List.foldl_append, ih, Finset.sum_range_succ]; rfl

theorem dc_total_eq_sum (buf : audiobuf K) :
    dc_total buf = ∑ i ∈ range buf.len, buf.td.getD i 0 :=
  foldl_add_eq_sum _ _

theorem convert_buf_td_self (env : Env K) (buf : audiobuf K) (h : buf.type = audiobuf_td) :
    convert_buf env buf audiobuf_td = buf := by
  simp [convert_buf, h]

/-- Samples of `spectral_inversion_td` on a time-domain buffer. -/
theorem spectral_inversion_td_getD (env : Env K) (buf : audiobuf K)
    (htd : buf.type = audiobuf_td) (hwf : buf.len ≤ buf.td.length) (hlen : 1 ≤ buf.len)
    (i : ℕ) (hi : i < buf.len) :
    (spectral_inversion_td env buf).td.getD i 0 =
      if i = buf.len / 2 then 1 - buf.td.getD i 0 else -buf.td.getD i 0 := by
  have hc : buf.len / 2 < buf.len := Nat.div_lt_self (by omega) (by norm_num)
  simp only [spectral_inversion_td, convert_buf_td_self env buf htd]
  rw [List.getD_eq_getElem?_getD, List.getElem?_set]
  by_cases h : buf.len / 2 = i
  · subst h
    have h2 : buf.len / 2 < buf.td.length := by omega
    rw [if_pos rfl, if_pos (by rw [length_forEachIdx]; exact h2), Option.getD_some,
      getD_forEachIdx, if_pos ⟨hc, h2⟩, if_pos rfl]
    ring
  · have h' : ¬ i = buf.len / 2 := fun e => h e.symm
    simp only [h, h', if_false]
    rw [← List.getD_eq_getElem?_getD, getD_forEachIdx]
    have h2 : i < buf.td.length := by omega
    simp [hi, h2]

theorem spectral_inversion_td_len (env : Env K) (buf : audiobuf K)
    (htd : buf.type = audiobuf_td) : (spectral_inversion_td env buf).len = buf.len := by
  simp [spectral_inversion_td, convert_buf_td_self env buf htd]

theorem spectral_inversion_td_sr (env : Env K) (buf : audiobuf K)
    (htd : buf.type = audiobuf_td) : (spectral_inversion_td env buf).sr = buf.sr := by
  simp [spectral_inversion_td, convert_buf_td_self env buf htd]

theorem spectral_inversion_td_type (env : Env K) (buf : audiobuf K)
    (htd : buf.type = audiobuf_td) : (spectral_inversion_td env buf).type = audiobuf_td := by
  simp [spectral_inversion_td, convert_buf_td_self env buf htd, htd]

theorem spectral_inversion_td_length (env : Env K) (buf : audiobuf K)
    (htd : buf.type = audiobuf_td) :
    (spectral_inversion_td env buf).td.length = buf.td.length := by
  simp [spectral_inversion_td, convert_buf_td_self env buf htd, length_forEachIdx]

theorem normalize_dc_getD (env : Env K) (buf : audiobuf K)
    (htd : buf.type = audiobuf_td) (hwf : buf.len ≤ buf.td.length) (i : ℕ) (hi : i < buf.len) :
    (normalize_dc env buf).td.getD i 0 =
      buf.td.getD i 0 / ∑ j ∈ range buf.len, buf.td.getD j 0 := by
  simp only [normalize_dc, convert_buf_td_self env buf htd]
  rw [getD_forEachIdx, if_pos ⟨hi, by omega⟩, dc_total_eq_sum]

theorem normalize_dc_len (env : Env K) (buf : audiobuf K)
    (htd : buf.type = audiobuf_td) : (normalize_dc env buf).len = buf.len := by
  simp [normalize_dc, convert_buf_td_self env buf htd]

theorem normalize_dc_sr (env : Env K) (buf : audiobuf K)
    (htd : buf.type = audiobuf_td) : (normalize_dc env buf).sr = buf.sr := by
  simp [normalize_dc, convert_buf_td_self env buf htd]

theorem normalize_dc_type (env : Env K) (buf : audiobuf K)
    (htd : buf.type = audiobuf_td) : (normalize_dc env buf).type = audiobuf_td := by
  simp [normalize_dc, convert_buf_td_self env buf htd, htd]

theorem normalize_dc_length (env : Env K) (buf : audiobuf K)
    (htd : buf.type = audiobuf_td) :
    (normalize_dc env buf).td.length = buf.td.length := by
  simp [normalize_dc, convert_buf_td_self env buf htd, length_forEachIdx]

/-- After `normalize_dc` the samples of a buffer with non-zero sum add up to 1. -/
theorem normalize_dc_sum (env : Env K) (buf : audiobuf K)
    (htd : buf.type = audiobuf_td) (hwf : buf.len ≤ buf.td.length)
    (hsum : ∑ j ∈ range buf.len, buf.td.getD j 0 ≠ 0) :
    ∑ i ∈ range (normalize_dc env buf).len, (normalize_dc env buf).td.getD i 0 = 1 := by
  rw [normalize_dc_len env buf htd]
  rw [Finset.sum_congr rfl (fun i hi =>
    normalize_dc_getD env buf htd hwf i (Finset.mem_range.mp hi))]
  rw [← Finset.sum_div, div_self hsum]

theorem apply_window_len (env : Env K) (buf : audiobuf K) (w : window)
    (htd : buf.type = audiobuf_td) : (apply_window env buf w).len = buf.len := by
  cases w <;> simp [apply_window, convert_buf_td_self env buf htd]

theorem apply_window_sr (env : Env K) (buf : audiobuf K) (w : window)
    (htd : buf.type = audiobuf_td) : (apply_window env buf w).sr = buf.sr := by
  cases w <;> simp [apply_window, convert_buf_td_self env buf htd]

theorem apply_window_type (env : Env K) (buf : audiobuf K) (w : window)
    (htd : buf.type = audiobuf_td) : (apply_window env buf w).type = audiobuf_td := by
  cases w <;> simp [apply_window, convert_buf_td_self env buf htd, htd]

theorem apply_window_length (env : Env K) (buf : audiobuf K) (w : window)
    (htd : buf.type = audiobuf_td) :
    (apply_window env buf w).td.length = buf.td.length := by
  cases w <;> simp [apply_window, convert_buf_td_self env buf htd, length_forEachIdx]

theorem make_sinc_len (env : Env K) (sr : ℤ) (freq : K) (size : ℕ) :
    (make_sinc env sr freq size).len = odd_size size := rfl

theorem make_sinc_length (env : Env K) (sr : ℤ) (freq : K) (size : ℕ) :
    (make_sinc env sr freq size).td.length = odd_size size := by
  simp [make_sinc]

theorem make_sinc_type (env : Env K) (sr : ℤ) (freq : K) (size : ℕ) :
    (make_sinc env sr freq size).type = audiobuf_td := rfl

theorem make_sinc_sr (env : Env K) (sr : ℤ) (freq : K) (size : ℕ) :
    (make_sinc env sr freq size).sr = sr := rfl

theorem odd_size_odd (size : ℕ) : odd_size size % 2 = 1 := by
  unfold odd_size; split <;> omega

theorem make_lowpass_len (env : Env K) (sr : ℤ) (freq : K) (len : ℕ) (w : window) :
    (make_lowpass env sr freq len w).len = odd_size len := by
  simp [make_lowpass, normalize_dc_len, apply_window_len, apply_window_type, make_sinc_type,
    make_sinc_len]

theorem make_lowpass_type (env : Env K) (sr : ℤ) (freq : K) (len : ℕ) (w : window) :
    (make_lowpass env sr freq len w).type = audiobuf_td := by
  simp [make_lowpass, normalize_dc_type, apply_window_type, make_sinc_type]

theorem make_lowpass_sr (env : Env K) (sr : ℤ) (freq : K) (len : ℕ) (w : window) :
    (make_lowpass env sr freq len w).sr = sr := by
  simp [make_lowpass, normalize_dc_sr, apply_window_sr, apply_window_type, make_sinc_type,
    make_sinc_sr]

theorem make_lowpass_length (env : Env K) (sr : ℤ) (freq : K) (len : ℕ) (w : window) :
    (make_lowpass env sr freq len w).td.length = odd_size len := by
  simp [make_lowpass, normalize_dc_length, apply_window_length, apply_window_type,
    make_sinc_type, make_sinc_length]

theorem make_highpass_len (env : Env K) (sr : ℤ) (freq : K) (len : ℕ) (w : window) :
    (make_highpass env sr freq len w).len = odd_size len := by
  have h : make_highpass env sr freq len w
      = spectral_inversion_td env (make_lowpass env sr freq len w) := rfl
  rw [h, spectral_inversion_td_len _ _ (make_lowpass_type ..), make_lowpass_len]

theorem make_highpass_type (env : Env K) (sr : ℤ) (freq : K) (len : ℕ) (w : window) :
    (make_highpass env sr freq len w).type = audiobuf_td := by
  have h : make_highpass env sr freq len w
      = spectral_inversion_td env (make_lowpass env sr freq len w) := rfl
  rw [h, spectral_inversion_td_type _ _ (make_lowpass_type ..)]

theorem make_highpass_sr (env : Env K) (sr : ℤ) (freq : K) (len : ℕ) (w : window) :
    (make_highpass env sr freq len w).sr = sr := by
  have h : make_highpass env sr freq len w
      = spectral_inversion_td env (make_lowpass env sr freq len w) := rfl
  rw [h, spectral_inversion_td_sr _ _ (make_lowpass_type ..), make_lowpass_sr]

theorem make_highpass_length (env : Env K) (sr : ℤ) (freq : K) (len : ℕ) (w : window) :
    (make_highpass env sr freq len w).td.length = odd_size len := by
  have h : make_highpass env sr freq len w
      = spectral_inversion_td env (make_lowpass env sr freq len w) := rfl
  rw [h, spectral_inversion_td_length _ _ (make_lowpass_type ..), make_lowpass_length]

theorem apply_window_getD (env : Env K) (buf : audiobuf K) (w : window)
    (htd : buf.type = audiobuf_td) (hwf : buf.len ≤ buf.td.length) (i : ℕ) (hi : i < buf.len) :
    (apply_window env buf w).td.getD i 0 = buf.td.getD i 0 * window_coeff env w buf.len i := by
  have hl : i < buf.td.length := by omega
  cases w <;>
    simp only [apply_window, convert_buf_td_self env buf htd, window_coeff, getD_forEachIdx,
      hi, hl, and_self, if_true, mul_one]

theorem make_sinc_getD (env : Env K) (sr : ℤ) (freq : K) (size i : ℕ)
    (hi : i < odd_size size) :
    (make_sinc env sr freq size).td.getD i 0 =
      if i = odd_size size / 2 then 2 * PI * (freq / (sr : K))
      else env.sinf (2 * PI * (freq / (sr : K)) * (((i : ℤ) - ((odd_size size / 2 : ℕ) : ℤ) : ℤ) : K))
            / (((i : ℤ) - ((odd_size size / 2 : ℕ) : ℤ) : ℤ) : K) := by
  simp only [make_sinc]
  rw [List.getD_eq_getElem?_getD, List.getElem?_map, List.getElem?_range hi]
  rfl

theorem windowed_sinc_sum (env : Env K) (sr : ℤ) (freq : K) (size : ℕ) (w : window) :
  ∑ j ∈ range (apply_window env (make_sinc env sr freq size) w).len,
      (apply_window env (make_sinc env sr freq size) w).td.getD j 0
  = ∑ j ∈ range (odd_size size), (make_sinc env sr freq size).td.getD j 0 * window_coeff env w (odd_size size) j := by
  rw [apply_window_len _ _ _ (make_sinc_type ..), make_sinc_len]
  refine Finset.sum_congr rfl fun j hj => ?_
  rw [apply_window_getD _ _ _ (make_sinc_type ..) (by rw [make_sinc_len, make_sinc_length]) j
    (by rw [make_sinc_len]; exact Finset.mem_range.mp hj), make_sinc_len]

theorem convert_buf_td_len (env : Env K) (buf : audiobuf K) :
    (convert_buf env buf audiobuf_td).len = buf.len := by
  unfold convert_buf; split <;> rfl

theorem convert_buf_td_sr (env : Env K) (buf : audiobuf K) :
    (convert_buf env buf audiobuf_td).sr = buf.sr := by
  unfold convert_buf; split <;> rfl

/-- The samples of `spectral_inversion_td buf` add up to 1 minus the sum of the
samples of `buf`. -/
theorem spectral_inversion_td_sum (env : Env K) (buf : audiobuf K)
    (htd : buf.type = audiobuf_td) (hwf : buf.len ≤ buf.td.length) (hlen : 1 ≤ buf.len) :
    ∑ i ∈ range (spectral_inversion_td env buf).len, (spectral_inversion_td env buf).td.getD i 0
      = 1 - ∑ i ∈ range buf.len, buf.td.getD i 0 := by
  rw [spectral_inversion_td_len env buf htd]
  have hc : buf.len / 2 < buf.len := Nat.div_lt_self (by omega) (by norm_num)
  have h : ∀ i ∈ range buf.len, (spectral_inversion_td env buf).td.getD i 0
      = (if i = buf.len / 2 then (1 : K) else 0) - buf.td.getD i 0 := by
    intro i hi
    rw [spectral_inversion_td_getD env buf htd hwf hlen i (Finset.mem_range.mp hi)]
    split <;> ring
  rw [Finset.sum_congr rfl h, Finset.sum_sub_distrib, Finset.sum_ite_eq' (range buf.len)
    (buf.len / 2) (fun _ => (1 : K)), if_pos (Finset.mem_range.mpr hc)]

theorem add_buf_getD (env : Env K) (dst summand : audiobuf K)
    (hd : dst.type = audiobuf_td) (hs : summand.type = audiobuf_td)
    (hwf : dst.len ≤ dst.td.length) (i : ℕ) (hi : i < dst.len) :
    (add_buf env dst summand).td.getD i 0 = dst.td.getD i 0 + summand.td.getD i 0 := by
  simp only [add_buf, convert_buf_td_self env dst hd, convert_buf_td_self env summand hs]
  rw [getD_forEachIdx, if_pos ⟨hi, by omega⟩]

theorem add_buf_len (env : Env K) (dst summand : audiobuf K) (hd : dst.type = audiobuf_td) :
    (add_buf env dst summand).len = dst.len := by
  simp only [add_buf, convert_buf_td_self env dst hd]

theorem one_le_odd_size (size : ℕ) : 1 ≤ odd_size size := by
  unfold odd_size; split <;> omega

/-- The samples of `make_lowpass` add up to 1 when the windowed sinc has a
non-zero sum. -/
theorem make_lowpass_sum (env : Env K) (sr : ℤ) (freq : K) (len : ℕ) (w : window)
    (hsum : ∑ j ∈ range (apply_window env (make_sinc env sr freq len) w).len,
      (apply_window env (make_sinc env sr freq len) w).td.getD j 0 ≠ 0) :
    ∑ i ∈ range (make_lowpass env sr freq len w).len,
      (make_lowpass env sr freq len w).td.getD i 0 = 1 := by
  have htd : (apply_window env (make_sinc env sr freq len) w).type = audiobuf_td :=
    apply_window_type _ _ _ (make_sinc_type ..)
  have hwf : (apply_window env (make_sinc env sr freq len) w).len
      ≤ (apply_window env (make_sinc env sr freq len) w).td.length := by
    rw [apply_window_len _ _ _ (make_sinc_type ..), apply_window_length _ _ _ (make_sinc_type ..),
      make_sinc_len, make_sinc_length]
  exact normalize_dc_sum env _ htd hwf hsum

/-- The samples of `make_highpass` add up to 0 when the windowed sinc has a
non-zero sum. -/
theorem make_highpass_sum (env : Env K) (sr : ℤ) (freq : K) (len : ℕ) (w : window)
    (hsum : ∑ j ∈ range (apply_window env (make_sinc env sr freq len) w).len,
      (apply_window env (make_sinc env sr freq len) w).td.getD j 0 ≠ 0) :
    ∑ i ∈ range (make_highpass env sr freq len w).len,
      (make_highpass env sr freq len w).td.getD i 0 = 0 := by
  have h : make_highpass env sr freq len w
      = spectral_inversion_td env (make_lowpass env sr freq len w) := rfl
  rw [h, spectral_inversion_td_sum env _ (make_lowpass_type ..)
    (by rw [make_lowpass_len, make_lowpass_length])
    (by rw [make_lowpass_len]; exact one_le_odd_size len),
    make_lowpass_sum env sr freq len w hsum, sub_self]

/-- The sum of the buffer of `make_bandstop` before its final `normalize_dc`. -/
theorem make_bandstop_added_sum (env : Env K) (sr : ℤ) (freqlow freqhi : K) (len : ℕ)
    (w : window)
    (hlo : ∑ j ∈ range (apply_window env (make_sinc env sr freqlow len) w).len,
      (apply_window env (make_sinc env sr freqlow len) w).td.getD j 0 ≠ 0)
    (hhi : ∑ j ∈ range (apply_window env (make_sinc env sr freqhi len) w).len,
      (apply_window env (make_sinc env sr freqhi len) w).td.getD j 0 ≠ 0) :
    ∑ i ∈ range (make_bandstop_added env sr freqlow freqhi len w).len,
      (make_bandstop_added env sr freqlow freqhi len w).td.getD i 0 = 1 := by
  have hl := make_lowpass_sum env sr freqlow len w hlo
  have hh := make_highpass_sum env sr freqhi len w hhi
  rw [make_highpass_len] at hh
  rw [make_lowpass_len] at hl
  simp only [make_bandstop_added]
  rw [add_buf_len _ _ _ (make_lowpass_type ..), make_lowpass_len]
  have h : ∀ i ∈ range (odd_size len),
      (add_buf env (make_lowpass env sr freqlow len w)
        (make_highpass env sr freqhi len w)).td.getD i 0
      = (make_lowpass env sr freqlow len w).td.getD i 0
        + (make_highpass env sr freqhi len w).td.getD i 0 := by
    intro i hi
    exact add_buf_getD env _ _ (make_lowpass_type ..) (make_highpass_type ..)
      (by rw [make_lowpass_len, make_lowpass_length])
      i (by rw [make_lowpass_len]; exact Finset.mem_range.mp hi)
  rw [Finset.sum_congr rfl h, Finset.sum_add_distrib, hl, hh, add_zero]

theorem normalize_dc_eq (env : Env K) (buf : audiobuf K) (htd : buf.type = audiobuf_td) :
    normalize_dc env buf
      = { buf with td := forEachIdx buf.len (fun _ x => x / dc_total buf) buf.td } := by
  simp only [normalize_dc, convert_buf_td_self env buf htd]

theorem getD_map_range (f : ℕ → K) (n i : ℕ) (hi : i < n) :
    ((List.range n).map f).getD i 0 = f i := by
  rw [List.getD_eq_getElem?_getD, List.getElem?_map, List.getElem?_range hi]
  rfl

end buffers

/-! ## The rational environment -/

/-- In `envQ` the Blackman-windowed sinc of 101 taps at 44100 Hz has a non-zero sum
for every positive cutoff. -/
theorem envQ_windowed_sinc_sum_ne_zero (freq : ℚ) (hf : 0 < freq) :
    ∑ j ∈ range (apply_window envQ (make_sinc envQ 44100 freq 101) window_blackman).len,
      (apply_window envQ (make_sinc envQ 44100 freq 101) window_blackman).td.getD j 0 ≠ 0 := by
  rw [windowed_sinc_sum]
  have h : odd_size 101 = 101 := by decide
  rw [h]
  have hterm : ∀ j ∈ range 101,
      (make_sinc envQ 44100 freq 101).td.getD j 0 * window_coeff envQ window_blackman 101 j
        = (2 * PI * (freq / 44100)) * (0.09 * (2 * PI * (j : ℚ) / 101) ^ 2) := by
    intro j hj
    rw [make_sinc_getD envQ 44100 freq 101 j (by rw [h]; exact Finset.mem_range.mp hj), h]
    have hw : window_coeff envQ window_blackman 101 j = 0.09 * (2 * PI * (j : ℚ) / 101) ^ 2 := by
      simp only [window_coeff, envQ]
      push_cast
      ring
    rw [hw]
    by_cases hc : j = 101 / 2
    · rw [if_pos hc]; norm_num
    · rw [if_neg hc]
      have hd : ((((j : ℤ) - ((101 / 2 : ℕ) : ℤ) : ℤ)) : ℚ) ≠ 0 := by
        have hz : (j : ℤ) - ((101 / 2 : ℕ) : ℤ) ≠ 0 := by omega
        exact_mod_cast hz
      simp only [envQ]
      rw [mul_div_assoc, mul_div_assoc, div_self hd]
      norm_num
  rw [Finset.sum_congr rfl hterm]
  have hpi : (0 : ℚ) < PI := by unfold PI; norm_num
  apply ne_of_gt
  apply Finset.sum_pos'
  · intro j _
    positivity
  · refine ⟨1, by simp, ?_⟩
    positivity

/-- In `envQ` the twiddle factor of order 4 is a primitive fourth root of unity. -/
theorem envQ_twiddle_four : IsPrimitiveRoot (envQ.twiddle 4) 4 := by
  have hw : envQ.twiddle 4 = (⟨0, -1⟩ : kiss_fft_cpx ℚ) := rfl
  rw [hw]
  refine IsPrimitiveRoot.mk_of_lt _ (by norm_num) ?_ ?_
  · ext <;> simp [pow_succ]
  · intro l hl0 hl4 h
    have hr := congrArg kiss_fft_cpx.r h
    have hi := congrArg kiss_fft_cpx.i h
    interval_cases l <;> simp [pow_succ] at hr hi
    norm_num at hr

theorem fftsize_four : 1 <<< Nat.clog 2 (2 + 2) = 4 := by
  simp [Nat.clog]

/-- Evaluation of `convolve` on `[1, 2]` and `[3, 4]`: the transform size is 4 and
the samples are `3, 10, 8, 0`. -/
theorem convolve_example :
    convolve envQ ⟨[1, 2], none, 2, audiobuf_td, 44100⟩ ⟨[3, 4], none, 2, audiobuf_td, 44100⟩
      = some ⟨[3, 10, 8, 0], none, 4, audiobuf_td, 44100⟩ := by
  have h4 : 1 <<< Nat.clog 2 (2 + 2) = 4 := fftsize_four
  simp only [convolve, convert_buf, if_true, ne_eq, not_true_eq_false, if_false, h4]
  simp [envQ, kiss_fftr, kiss_fftri, dft, hermitian, forEachIdx,
    Finset.sum_range_succ, List.range_succ, pow_succ, kiss_fft_cpx.ext_iff]
  norm_num

/-! ## Complex samples and roots of unity -/

namespace kiss_fft_cpx

section
variable {K : Type} [CommRing K]

theorem conj_mul (a b : kiss_fft_cpx K) : conj (a * b) = conj a * conj b := by
  ext
  · simp
  · simp; ring

theorem conj_add (a b : kiss_fft_cpx K) : conj (a + b) = conj a + conj b := by
  ext
  · simp
  · simp; ring

theorem conj_one : conj (1 : kiss_fft_cpx K) = 1 := by
  ext <;> simp

theorem conj_zero : conj (0 : kiss_fft_cpx K) = 0 := by
  ext <;> simp

theorem conj_ofReal (x : K) : conj (ofReal x) = ofReal x := by
  ext <;> simp

theorem conj_pow (a : kiss_fft_cpx K) (n : ℕ) : conj (a ^ n) = conj a ^ n := by
  induction n with
  | zero => simp [conj_one]
  | succ n ih => rw [pow_succ, pow_succ, conj_mul, ih]

theorem conj_sum (s : Finset ℕ) (f : ℕ → kiss_fft_cpx K) :
    conj (∑ i ∈ s, f i) = ∑ i ∈ s, conj (f i) := by
  induction s using Finset.induction_on with
  | empty => simp [conj_zero]
  | insert h ih => rw [Finset.sum_insert h, Finset.sum_insert h, conj_add, ih]

theorem sum_r (s : Finset ℕ) (f : ℕ → kiss_fft_cpx K) :
    (∑ i ∈ s, f i).r = ∑ i ∈ s, (f i).r := by
  induction s using Finset.induction_on with
  | empty => simp
  | insert h ih => rw [Finset.sum_insert h, Finset.sum_insert h, add_r, ih]

theorem natCast_r (n : ℕ) : ((n : kiss_fft_cpx K)).r = (n : K) := by
  induction n with
  | zero => simp
  | succ n ih => rw [Nat.cast_succ, Nat.cast_succ, add_r, ih, one_r]

theorem natCast_i (n : ℕ) : ((n : kiss_fft_cpx K)).i = 0 := by
  induction n with
  | zero => simp
  | succ n ih => rw [Nat.cast_succ, add_i, ih, one_i, add_zero]

theorem ofReal_mul (x y : K) : ofReal (x * y) = ofReal x * ofReal y := by
  ext <;> simp

theorem normSq_mul (a b : kiss_fft_cpx K) : normSq (a * b) = normSq a * normSq b := by
  simp only [normSq, mul_r, mul_i]; ring

theorem normSq_one : normSq (1 : kiss_fft_cpx K) = 1 := by
  simp [normSq]

theorem normSq_pow (a : kiss_fft_cpx K) (n : ℕ) : normSq (a ^ n) = normSq a ^ n := by
  induction n with
  | zero => simp [normSq_one]
  | succ n ih => rw [pow_succ, pow_succ, normSq_mul, ih]

theorem conj_mul_self (a : kiss_fft_cpx K) : conj a * a = ofReal (normSq a) := by
  ext
  · simp [normSq]
  · simp; ring

end

section
variable {K : Type} [LinearOrderedField K]

theorem normSq_nonneg (a : kiss_fft_cpx K) : 0 ≤ normSq a :=
  add_nonneg (mul_self_nonneg _) (mul_self_nonneg _)

theorem normSq_eq_zero (a : kiss_fft_cpx K) : normSq a = 0 ↔ a = 0 := by
  constructor
  · intro h
    have h1 := (mul_self_add_mul_self_eq_zero.mp h)
    ext
    · exact h1.1
    · exact h1.2
  · rintro rfl
    simp [normSq]

instance instNontrivial : Nontrivial (kiss_fft_cpx K) :=
  ⟨⟨0, 1, fun h => zero_ne_one (congrArg kiss_fft_cpx.r h)⟩⟩

instance instNoZeroDivisors : NoZeroDivisors (kiss_fft_cpx K) where
  eq_zero_or_eq_zero_of_mul_eq_zero := by
    intro a b h
    have h1 : normSq a * normSq b = 0 := by rw [← normSq_mul, h]; simp [normSq]
    rcases mul_eq_zero.mp h1 with h2 | h2
    · exact Or.inl ((normSq_eq_zero a).mp h2)
    · exact Or.inr ((normSq_eq_zero b).mp h2)

instance instIsDomain : IsDomain (kiss_fft_cpx K) := NoZeroDivisors.to_isDomain _

/-- A root of unity has modulus 1. -/
theorem normSq_eq_one_of_pow_eq_one (w : kiss_fft_cpx K) (n : ℕ) (hn : n ≠ 0)
    (hw : w ^ n = 1) : normSq w = 1 := by
  have h : normSq w ^ n = 1 := by rw [← normSq_pow, hw, normSq_one]
  exact (pow_eq_one_iff_of_nonneg (normSq_nonneg w) hn).mp h

/-- The conjugate of a root of unity is its inverse. -/
theorem conj_mul_self_of_pow_eq_one (w : kiss_fft_cpx K) (n : ℕ) (hn : n ≠ 0)
    (hw : w ^ n = 1) : conj w * w = 1 := by
  rw [conj_mul_self, normSq_eq_one_of_pow_eq_one w n hn hw]
  rfl

theorem conj_eq_pow_pred (w : kiss_fft_cpx K) (n : ℕ) (hn : n ≠ 0)
    (hw : w ^ n = 1) : conj w = w ^ (n - 1) := by
  have h1 := conj_mul_self_of_pow_eq_one w n hn hw
  have h2 : w ^ (n - 1) * w = 1 := by
    rw [← pow_succ, Nat.sub_add_cancel (Nat.pos_of_ne_zero hn), hw]
  calc conj w = conj w * (w ^ (n - 1) * w) := by rw [h2, mul_one]
    _ = (conj w * w) * w ^ (n - 1) := by ring
    _ = w ^ (n - 1) := by rw [h1, one_mul]

/-- Orthogonality of the powers of a primitive root of unity. -/
theorem sum_pow_of_isPrimitiveRoot (w : kiss_fft_cpx K) (n : ℕ)
    (hw : IsPrimitiveRoot w n) (e : ℕ) :
    ∑ k ∈ range n, (w ^ e) ^ k = if n ∣ e then (n : kiss_fft_cpx K) else 0 := by
  split
  · next h =>
    rw [(hw.pow_eq_one_iff_dvd e).mpr h]
    simp
  · next h =>
    have hne : w ^ e ≠ 1 := fun h1 => h ((hw.pow_eq_one_iff_dvd e).mp h1)
    have hmul := geom_sum_mul (w ^ e) n
    have hpow : (w ^ e) ^ n = 1 := by rw [← pow_mul, mul_comm, pow_mul, hw.pow_eq_one, one_pow]
    rw [hpow, sub_self] at hmul
    rcases mul_eq_zero.mp hmul with h0 | h0
    · exact h0
    · exact absurd (sub_eq_zero.mp h0) hne

end

end kiss_fft_cpx

/-! ## The discrete Fourier transform -/

section transform
variable {K : Type} [LinearOrderedField K]
open kiss_fft_cpx

theorem ofReal_zero : (ofReal 0 : kiss_fft_cpx K) = 0 := rfl

theorem kiss_fftr_getD (w : kiss_fft_cpx K) (n : ℕ) (l : List K) (k : ℕ) (hk : k ≤ n / 2) :
    (kiss_fftr w n l).getD k 0 = dft w n (fun j => l.getD j 0) k := by
  unfold kiss_fftr
  rw [List.getD_eq_getElem?_getD, List.getElem?_map, List.getElem?_range (by omega)]
  rfl

theorem dft_congr (w : kiss_fft_cpx K) (n : ℕ) (x y : ℕ → K) (k : ℕ)
    (h : ∀ j, j < n → x j = y j) : dft w n x k = dft w n y k := by
  unfold dft
  exact Finset.sum_congr rfl fun j hj => by rw [h j (Finset.mem_range.mp hj)]

/-- Hermitian symmetry of the spectrum of a real signal. -/
theorem conj_dft (w : kiss_fft_cpx K) (n : ℕ) (hn : n ≠ 0) (hw : w ^ n = 1) (x : ℕ → K)
    (k : ℕ) (hk : k ≤ n) : conj (dft w n x (n - k)) = dft w n x k := by
  unfold dft
  rw [conj_sum]
  refine Finset.sum_congr rfl fun j _ => ?_
  rw [kiss_fft_cpx.conj_mul, conj_ofReal, kiss_fft_cpx.conj_pow]
  congr 1
  have h1 : conj w ^ (j * (n - k)) * w ^ (j * (n - k)) = 1 := by
    rw [← mul_pow, conj_mul_self_of_pow_eq_one w n hn hw, one_pow]
  have h2 : w ^ (j * k) * w ^ (j * (n - k)) = 1 := by
    rw [← pow_add, ← mul_add, Nat.add_sub_cancel' hk, mul_comm, pow_mul, hw, one_pow]
  calc conj w ^ (j * (n - k))
      = conj w ^ (j * (n - k)) * (w ^ (j * k) * w ^ (j * (n - k))) := by rw [h2, mul_one]
    _ = (conj w ^ (j * (n - k)) * w ^ (j * (n - k))) * w ^ (j * k) := by ring
    _ = w ^ (j * k) := by rw [h1, one_mul]

theorem dvd_shift_iff (n j l m : ℕ) (hjl : j + l < n) (hm : m < n) :
    n ∣ j + l + (n - 1) * m ↔ j + l = m := by
  have hn : 1 ≤ n := by omega
  have he : j + l + (n - 1) * m + m = j + l + n * m := by
    have : (n - 1) * m + m = n * m := by
      rw [← Nat.succ_mul, Nat.succ_eq_add_one, Nat.sub_add_cancel hn]
    omega
  constructor
  · intro h
    have h1 : (j + l + (n - 1) * m + m) % n = m % n := by
      rw [Nat.add_mod, Nat.mod_eq_zero_of_dvd h, zero_add, Nat.mod_mod]
    rw [he, Nat.add_mul_mod_self_left, Nat.mod_eq_of_lt hjl, Nat.mod_eq_of_lt hm] at h1
    exact h1
  · intro h
    have : j + l + (n - 1) * m = n * m := by omega
    rw [this]
    exact Dvd.intro _ rfl

/-- The convolution theorem: the real part of the inverse transform of the
product of two spectra is `n` times the linear convolution, when the supports
`La`, `Lb` of the two signals satisfy `La + Lb <= n`. -/
theorem idft_mul_dft (w : kiss_fft_cpx K) (n : ℕ) (hw : IsPrimitiveRoot w n) (hn : n ≠ 0)
    (x y : ℕ → K) (La Lb : ℕ) (hx : ∀ j, La ≤ j → x j = 0) (hy : ∀ l, Lb ≤ l → y l = 0)
    (hL : La + Lb ≤ n) (m : ℕ) (hm : m < n) :
    (∑ k ∈ range n, dft w n x k * dft w n y k * conj w ^ (m * k)).r
      = (n : K) * ∑ j ∈ range La, ∑ l ∈ range Lb, if j + l = m then x j * y l else 0 := by
  have hconj := conj_eq_pow_pred w n hn hw.pow_eq_one
  have step1 : ∀ k, dft w n x k * dft w n y k * conj w ^ (m * k)
      = ∑ j ∈ range n, ∑ l ∈ range n,
          ofReal (x j * y l) * (w ^ (j + l + (n - 1) * m)) ^ k := by
    intro k
    unfold dft
    rw [Finset.sum_mul_sum, Finset.sum_mul]
    refine Finset.sum_congr rfl fun j _ => ?_
    rw [Finset.sum_mul]
    refine Finset.sum_congr rfl fun l _ => ?_
    rw [hconj, ofReal_mul, ← pow_mul, ← pow_mul]
    have : w ^ ((j + l + (n - 1) * m) * k) = w ^ (j * k) * w ^ (l * k) * w ^ ((n - 1) * (m * k)) := by
      rw [← pow_add, ← pow_add]
      congr 1
      ring
    rw [this]
    ring
  rw [Finset.sum_congr rfl (fun k _ => step1 k), Finset.sum_comm]
  rw [Finset.sum_congr rfl (fun j _ => Finset.sum_comm)]
  have step2 : ∀ j l, ∑ k ∈ range n, ofReal (x j * y l) * (w ^ (j + l + (n - 1) * m)) ^ k
      = ofReal (x j * y l) * (if n ∣ j + l + (n - 1) * m then (n : kiss_fft_cpx K) else 0) := by
    intro j l
    rw [← Finset.mul_sum, sum_pow_of_isPrimitiveRoot w n hw]
  rw [Finset.sum_congr rfl (fun j _ => Finset.sum_congr rfl (fun l _ => step2 j l))]
  rw [sum_r, Finset.mul_sum]
  have hLa : La ≤ n := by omega
  have hLb : Lb ≤ n := by omega
  rw [← Finset.sum_subset (Finset.range_subset.mpr hLa)]
  · refine Finset.sum_congr rfl fun j hj => ?_
    have hj' := Finset.mem_range.mp hj
    rw [sum_r, Finset.mul_sum, ← Finset.sum_subset (Finset.range_subset.mpr hLb)]
    · refine Finset.sum_congr rfl fun l hl => ?_
      have hl' := Finset.mem_range.mp hl
      have hiff := dvd_shift_iff n j l m (by omega) hm
      by_cases hjl : j + l = m
      · rw [if_pos (hiff.mpr hjl), if_pos hjl]
        simp [natCast_r, natCast_i]; ring
      · rw [if_neg (fun h => hjl (hiff.mp h)), if_neg hjl]
        simp
    · intro l _ hl
      rw [hy l (by simpa using hl), mul_zero, ofReal_zero, zero_mul, zero_r]
  · intro j _ hj
    rw [sum_r]
    refine Finset.sum_eq_zero fun l _ => ?_
    rw [hx j (by simpa using hj), zero_mul, ofReal_zero, zero_mul, zero_r]

theorem toComplex_injective : Function.Injective toComplex := by
  intro a b h
  have hr := congrArg Complex.re h
  have hi := congrArg Complex.im h
  exact kiss_fft_cpx.ext hr hi

/-- Over the reals the twiddle factor `exp(-2*pi*i/n) = cos(2*pi/n) - i*sin(2*pi/n)`
of the transform of size `n` is a primitive `n`-th root of unity: the hypothesis
on the twiddle factor holds for the real transform of every size. -/
theorem real_twiddle_isPrimitiveRoot (n : ℕ) (hn : n ≠ 0) :
    IsPrimitiveRoot
      (⟨Real.cos (2 * Real.pi / n), -Real.sin (2 * Real.pi / n)⟩ : kiss_fft_cpx ℝ) n := by
  have h := (Complex.isPrimitiveRoot_exp n hn).inv
  refine IsPrimitiveRoot.of_map_of_injective (f := toComplex) ?_ toComplex_injective
  have he : toComplex ⟨Real.cos (2 * Real.pi / n), -Real.sin (2 * Real.pi / n)⟩
      = (Complex.exp (2 * Real.pi * Complex.I / n))⁻¹ := by
    rw [← Complex.exp_neg]
    have harg : -(2 * (Real.pi : ℂ) * Complex.I / n) = ((-(2 * Real.pi / n) : ℝ) : ℂ) * Complex.I := by
      push_cast
      ring
    rw [harg]
    apply Complex.ext
    · rw [Complex.exp_ofReal_mul_I_re, Real.cos_neg]
      rfl
    · rw [Complex.exp_ofReal_mul_I_im, Real.sin_neg]
      rfl
  rw [he]
  exact h

/-- Inversion of the transform: the real part of the inverse transform of the
spectrum of `x` is `n` times `x`. -/
theorem idft_dft (w : kiss_fft_cpx K) (n : ℕ) (hw : IsPrimitiveRoot w n) (hn : n ≠ 0)
    (x : ℕ → K) (m : ℕ) (hm : m < n) :
    (∑ k ∈ range n, dft w n x k * conj w ^ (m * k)).r = (n : K) * x m := by
  have hconj := conj_eq_pow_pred w n hn hw.pow_eq_one
  have step1 : ∀ k, dft w n x k * conj w ^ (m * k)
      = ∑ j ∈ range n, ofReal (x j) * (w ^ (j + 0 + (n - 1) * m)) ^ k := by
    intro k
    unfold dft
    rw [Finset.sum_mul]
    refine Finset.sum_congr rfl fun j _ => ?_
    rw [hconj, ← pow_mul, ← pow_mul]
    have : w ^ ((j + 0 + (n - 1) * m) * k) = w ^ (j * k) * w ^ ((n - 1) * (m * k)) := by
      rw [← pow_add]
      congr 1
      ring
    rw [this]
    ring
  rw [Finset.sum_congr rfl (fun k _ => step1 k), Finset.sum_comm]
  have step2 : ∀ j ∈ range n, ∑ k ∈ range n, ofReal (x j) * (w ^ (j + 0 + (n - 1) * m)) ^ k
      = if j = m then ofReal (x j) * (n : kiss_fft_cpx K) else 0 := by
    intro j hj
    have hj' := Finset.mem_range.mp hj
    have hiff := dvd_shift_iff n j 0 m (by omega) hm
    rw [← Finset.mul_sum, sum_pow_of_isPrimitiveRoot w n hw]
    by_cases hjm : j = m
    · rw [if_pos (hiff.mpr (by omega)), if_pos hjm]
    · rw [if_neg (fun h => hjm (by have := hiff.mp h; omega)), if_neg hjm, mul_zero]
  rw [Finset.sum_congr rfl step2, Finset.sum_ite_eq' (range n) m, if_pos (Finset.mem_range.mpr hm)]
  simp [natCast_r, natCast_i]
  ring

/-- The half spectrum written by `kiss_fftr` stands for the full spectrum. -/
theorem hermitian_kiss_fftr (w : kiss_fft_cpx K) (n : ℕ) (hn : n ≠ 0) (hw : w ^ n = 1)
    (l : List K) (k : ℕ) (hk : k < n) :
    hermitian n (kiss_fftr w n l) k = dft w n (fun j => l.getD j 0) k := by
  unfold hermitian
  split
  · next h => exact kiss_fftr_getD w n l k h
  · next h =>
    rw [kiss_fftr_getD w n l (n - k) (by omega), conj_dft w n hn hw _ _ (by omega)]

/-- The inverse transform of kissfft after its forward transform multiplies
every sample by the transform size. -/
theorem kiss_fftri_kiss_fftr (w : kiss_fft_cpx K) (n : ℕ) (hw : IsPrimitiveRoot w n)
    (hn : n ≠ 0) (l : List K) (m : ℕ) (hm : m < n) :
    (kiss_fftri w n (kiss_fftr w n l)).getD m 0 = (n : K) * l.getD m 0 := by
  unfold kiss_fftri
  rw [getD_map_range _ _ _ hm,
    Finset.sum_congr rfl (fun k hk => by
      rw [hermitian_kiss_fftr w n hn hw.pow_eq_one l k (Finset.mem_range.mp hk)]),
    idft_dft w n hw hn _ m hm]

theorem length_kiss_fftr (w : kiss_fft_cpx K) (n : ℕ) (l : List K) :
    (kiss_fftr w n l).length = n / 2 + 1 := by
  simp [kiss_fftr]

theorem length_kiss_fftri (w : kiss_fft_cpx K) (n : ℕ) (l : List (kiss_fft_cpx K)) :
    (kiss_fftri w n l).length = n := by
  simp [kiss_fftri]

/-! ## The transform in `convolve` and in `convert_buf` -/

/-- Shape of the buffer returned by `convolve`. -/
theorem convolve_shape (env : Env K) (a b : audiobuf K) (hsr : a.sr = b.sr) :
    ∃ buf, convolve env a b = some buf ∧ buf.len = a.len + b.len ∧ buf.sr = a.sr ∧
      buf.fd = none ∧ buf.type = audiobuf_td ∧
      buf.td.length = 1 <<< Nat.clog 2 (a.len + b.len) := by
  have h : (convert_buf env a audiobuf_td).sr = (convert_buf env b audiobuf_td).sr := by
    rw [convert_buf_td_sr, convert_buf_td_sr, hsr]
  refine ⟨_, (by unfold convolve; exact if_neg (not_not.mpr h)), ?_, ?_, rfl, rfl, ?_⟩
  · simp only [convert_buf_td_len]
  · simp only [convert_buf_td_sr]
  · simp only [length_forEachIdx, kiss_fftri, List.length_map, List.length_range,
      convert_buf_td_len]

theorem make_bandpass2_shape (env : Env K) (sr : ℤ) (freqlow freqhi : K) (len : ℕ) (w : window) :
    ∃ buf, make_bandpass2 env sr freqlow freqhi len w = some buf ∧
      buf.len = odd_size (len / 2) + odd_size (len / 2) ∧ buf.sr = sr ∧
      buf.type = audiobuf_td ∧ buf.len ≤ buf.td.length := by
  obtain ⟨buf, h, hlen, hsr, -, htype, hlength⟩ :=
    convolve_shape env (make_highpass env sr freqlow (len / 2) w)
      (make_lowpass env sr freqhi (len / 2) w) (by rw [make_highpass_sr, make_lowpass_sr])
  refine ⟨buf, h, ?_, ?_, htype, ?_⟩
  · rw [hlen, make_highpass_len, make_lowpass_len]
  · rw [hsr, make_highpass_sr]
  · rw [hlength, hlen, Nat.shiftLeft_eq, one_mul]
    exact Nat.le_pow_clog (by norm_num) _

theorem convolve_td (env : Env K) (a b : audiobuf K) (ha : a.type = audiobuf_td)
    (hb : b.type = audiobuf_td) (out : audiobuf K) (h : convolve env a b = some out) :
    out.td = forEachIdx (1 <<< Nat.clog 2 (a.len + b.len))
      (fun _ x => x / ((1 <<< Nat.clog 2 (a.len + b.len) : ℕ) : K))
      (kiss_fftri (env.twiddle (1 <<< Nat.clog 2 (a.len + b.len)))
        (1 <<< Nat.clog 2 (a.len + b.len))
        ((List.range ((1 <<< Nat.clog 2 (a.len + b.len)) / 2 + 1)).map fun i =>
          (kiss_fftr (env.twiddle (1 <<< Nat.clog 2 (a.len + b.len)))
              (1 <<< Nat.clog 2 (a.len + b.len))
              ((List.range (1 <<< Nat.clog 2 (a.len + b.len))).map (padded a))).getD i 0
            * (kiss_fftr (env.twiddle (1 <<< Nat.clog 2 (a.len + b.len)))
              (1 <<< Nat.clog 2 (a.len + b.len))
              ((List.range (1 <<< Nat.clog 2 (a.len + b.len))).map (padded b))).getD i 0)) := by
  unfold convolve at h
  rw [convert_buf_td_self env a ha, convert_buf_td_self env b hb] at h
  by_cases hsr : a.sr = b.sr
  · simp only [hsr, ne_eq, not_true_eq_false, if_false, Option.some.injEq] at h
    rw [← h]
    rfl
  · simp [hsr] at h

/-- The inner sum of the linear convolution, over the second index. -/
theorem sum_ite_add_eq (x y : ℕ → K) (Lb j m : ℕ) :
    (∑ l ∈ range Lb, if j + l = m then x j * y l else 0)
      = if j ≤ m ∧ m - j < Lb then x j * y (m - j) else 0 := by
  by_cases h : j ≤ m ∧ m - j < Lb
  · rw [if_pos h, Finset.sum_eq_single (m - j)]
    · rw [if_pos (by omega)]
    · intro l _ hl
      rw [if_neg (by omega)]
    · intro hl
      exact absurd (Finset.mem_range.mpr h.2) hl
  · rw [if_neg h]
    refine Finset.sum_eq_zero fun l hl => ?_
    have := Finset.mem_range.mp hl
    rw [if_neg (by omega)]

/-- Every sample of the transform buffer of `convolve` is the direct convolution. -/
theorem convolve_getD (env : Env K) (a b : audiobuf K) (ha : a.type = audiobuf_td)
    (hb : b.type = audiobuf_td)
    (hw : IsPrimitiveRoot (env.twiddle (1 <<< Nat.clog 2 (a.len + b.len)))
      (1 <<< Nat.clog 2 (a.len + b.len)))
    (out : audiobuf K) (h : convolve env a b = some out) (m : ℕ)
    (hm : m < 1 <<< Nat.clog 2 (a.len + b.len)) :
    out.td.getD m 0 = direct_convolution a b m := by
  rw [convolve_td env a b ha hb out h]
  generalize hN : 1 <<< Nat.clog 2 (a.len + b.len) = n at hw hm ⊢
  have hle : a.len + b.len ≤ n := by
    rw [← hN, Nat.shiftLeft_eq, one_mul]
    exact Nat.le_pow_clog (by norm_num) _
  have hn : n ≠ 0 := by omega
  have hnK : (n : K) ≠ 0 := Nat.cast_ne_zero.mpr hn
  rw [getD_forEachIdx, if_pos ⟨hm, by simp [kiss_fftri, hm]⟩]
  unfold kiss_fftri
  rw [getD_map_range _ _ _ hm]
  have hherm : ∀ k ∈ range n,
      hermitian n ((List.range (n / 2 + 1)).map fun i =>
          (kiss_fftr (env.twiddle n) n ((List.range n).map (padded a))).getD i 0
            * (kiss_fftr (env.twiddle n) n ((List.range n).map (padded b))).getD i 0) k
        * conj (env.twiddle n) ^ (m * k)
      = dft (env.twiddle n) n (padded a) k * dft (env.twiddle n) n (padded b) k
        * conj (env.twiddle n) ^ (m * k) := by
    intro k hk
    have hk' := Finset.mem_range.mp hk
    congr 1
    have hbin : ∀ i, i ≤ n / 2 →
        ((List.range (n / 2 + 1)).map fun i =>
          (kiss_fftr (env.twiddle n) n ((List.range n).map (padded a))).getD i 0
            * (kiss_fftr (env.twiddle n) n ((List.range n).map (padded b))).getD i 0).getD i 0
        = dft (env.twiddle n) n (padded a) i * dft (env.twiddle n) n (padded b) i := by
      intro i hi
      rw [List.getD_eq_getElem?_getD, List.getElem?_map, List.getElem?_range (by omega)]
      simp only [Option.map_some', Option.getD_some]
      rw [kiss_fftr_getD _ _ _ _ hi, kiss_fftr_getD _ _ _ _ hi,
        dft_congr _ _ _ (padded a) _ (fun j hj => getD_map_range _ _ _ hj),
        dft_congr _ _ _ (padded b) _ (fun j hj => getD_map_range _ _ _ hj)]
    unfold hermitian
    split
    · next hk2 => exact hbin k hk2
    · next hk2 =>
      rw [hbin (n - k) (by omega), kiss_fft_cpx.conj_mul,
        conj_dft _ _ hn hw.pow_eq_one _ _ (by omega),
        conj_dft _ _ hn hw.pow_eq_one _ _ (by omega)]
  rw [Finset.sum_congr rfl hherm,
    idft_mul_dft (env.twiddle n) n hw hn (padded a) (padded b) a.len b.len
      (fun j hj => if_neg (by omega)) (fun j hj => if_neg (by omega)) hle m hm,
    mul_div_cancel_left₀ _ hnK]
  unfold direct_convolution
  refine Finset.sum_congr rfl fun j hj => ?_
  rw [sum_ite_add_eq (padded a) (padded b) b.len j m]
  have hj' := Finset.mem_range.mp hj
  split
  · next hc => simp only [padded, hj', hc.2, if_true]
  · rfl

/-- The round trip `convert_buf(buf, audiobuf_fd)`, `convert_buf(buf, audiobuf_td)`
of a time-domain buffer without frequency array: the buffer comes back with the
fast size `n` as its length and with every sample multiplied by `n`. -/
theorem convert_buf_round_trip (env : Env K) (buf : audiobuf K)
    (htd : buf.type = audiobuf_td) (hfd : buf.fd = none) (hwf : buf.len ≤ buf.td.length)
    (hfast : buf.len ≤ env.next_fast_size_real buf.len)
    (hn : env.next_fast_size_real buf.len ≠ 0)
    (hw : IsPrimitiveRoot (env.twiddle (env.next_fast_size_real buf.len))
      (env.next_fast_size_real buf.len)) :
    (convert_buf env (convert_buf env buf audiobuf_fd) audiobuf_td).len
      = env.next_fast_size_real buf.len ∧
    (convert_buf env (convert_buf env buf audiobuf_fd) audiobuf_td).type = audiobuf_td ∧
    ∀ i, i < buf.len →
      (convert_buf env (convert_buf env buf audiobuf_fd) audiobuf_td).td.getD i 0
        = (env.next_fast_size_real buf.len : K) * buf.td.getD i 0 := by
  generalize hnn : env.next_fast_size_real buf.len = n at hfast hn hw ⊢
  -- the expanded buffer
  obtain ⟨td1, hexp, hlen1, hget1⟩ : ∃ td1 : List K,
      expand_buf env buf 0 = { buf with td := td1, len := n } ∧ n ≤ td1.length ∧
      ∀ i, i < buf.len → td1.getD i 0 = buf.td.getD i 0 := by
    have hsz : (if buf.len > 0 then buf.len else 0) = buf.len := by
      split <;> omega
    by_cases hgt : n > buf.len
    · refine ⟨buf.td.take buf.len ++ List.replicate (n - buf.len) 0, ?_, ?_, ?_⟩
      · simp only [expand_buf, convert_buf_td, htd, if_true, hsz, hnn, hgt]
      · simp only [List.length_append, List.length_take, List.length_replicate]
        omega
      · intro i hi
        rw [List.getD_eq_getElem?_getD, List.getElem?_append_left
          (by simp only [List.length_take]; omega), List.getElem?_take_of_lt hi,
          ← List.getD_eq_getElem?_getD]
    · refine ⟨buf.td, ?_, by omega, fun i _ => rfl⟩
      have hlen : buf.len = n := by omega
      unfold expand_buf convert_buf_td
      rw [if_pos htd]
      simp only [hsz, hnn]
      rw [if_neg hgt]
      cases buf
      simp only at hlen
      simp only [hlen]
  have hne : ¬ buf.type = audiobuf_fd := by rw [htd]; decide
  have hfwd : convert_buf env buf audiobuf_fd
      = { buf with td := td1, len := n, type := audiobuf_fd,
                   fd := some (kiss_fftr (env.twiddle n) n td1) } := by
    simp only [convert_buf, hne, if_false, hexp, hfd]
    rw [memWrite_of_length_le _ _ (by simp [length_kiss_fftr])]
    simp [length_kiss_fftr]
  rw [hfwd]
  have hback : convert_buf env
        ({ buf with td := td1, len := n, type := audiobuf_fd,
                    fd := some (kiss_fftr (env.twiddle n) n td1) } : audiobuf K) audiobuf_td
      = { buf with len := n, type := audiobuf_td,
                   fd := some (kiss_fftr (env.twiddle n) n td1),
                   td := kiss_fftri (env.twiddle n) n (kiss_fftr (env.twiddle n) n td1)
                          ++ td1.drop n } := by
    simp only [convert_buf, Option.getD_some]
    rw [memWrite_of_length_le _ _ (by rw [length_kiss_fftri]; exact hlen1), length_kiss_fftri]
    simp
  rw [hback]
  refine ⟨rfl, rfl, fun i hi => ?_⟩
  simp only
  rw [List.getD_eq_getElem?_getD, List.getElem?_append_left
    (by rw [length_kiss_fftri]; omega), ← List.getD_eq_getElem?_getD,
    kiss_fftri_kiss_fftr _ _ hw hn _ _ (by omega), hget1 i hi]

end transform

/-! ## The depth search of `make_bandstopdeep` -/

section
variable {K : Type} [LinearOrderedField K]

theorem PI_pos : (0 : K) < PI := by
  unfold PI; norm_num

/-- A one-tap lowpass kernel with the rectangular window is `[1]`. -/
theorem make_lowpass_one_tap (env : Env K) (sr : ℤ) (freq : K) (len : ℕ)
    (hlen : odd_size len = 1) (hsr : sr ≠ 0) (hf : freq ≠ 0) :
    make_lowpass env sr freq len window_rectangular = ⟨[1], none, 1, audiobuf_td, sr⟩ := by
  have hx : 2 * PI * (freq / (sr : K)) ≠ 0 := by
    have h1 : (sr : K) ≠ 0 := Int.cast_ne_zero.mpr hsr
    have h2 : (PI : K) ≠ 0 := ne_of_gt PI_pos
    positivity
  simp [make_lowpass, make_sinc, hlen, apply_window, normalize_dc, convert_buf, dc_total,
    forEachIdx, List.range_succ]
  exact div_self hx

/-- A one-tap highpass kernel with the rectangular window is `[0]`. -/
theorem make_highpass_one_tap (env : Env K) (sr : ℤ) (freq : K) (len : ℕ)
    (hlen : odd_size len = 1) (hsr : sr ≠ 0) (hf : freq ≠ 0) :
    make_highpass env sr freq len window_rectangular = ⟨[0], none, 1, audiobuf_td, sr⟩ := by
  have h : make_highpass env sr freq len window_rectangular
      = spectral_inversion_td env (make_lowpass env sr freq len window_rectangular) := rfl
  rw [h, make_lowpass_one_tap env sr freq len hlen hsr hf]
  simp [spectral_inversion_td, convert_buf, forEachIdx, List.range_succ]

/-- The convolution of the kernels `[0]` and `[1]` is `[0, 0]`, whatever the
twiddle factor. -/
theorem convolve_zero_one (env : Env K) (sr : ℤ) :
    convolve env ⟨[0], none, 1, audiobuf_td, sr⟩ ⟨[1], none, 1, audiobuf_td, sr⟩
      = some ⟨[0, 0], none, 2, audiobuf_td, sr⟩ := by
  have h2 : 1 <<< Nat.clog 2 (1 + 1) = 2 := by simp [Nat.clog]
  simp only [convolve, convert_buf, if_true, ne_eq, not_true_eq_false, if_false, h2]
  simp [kiss_fftr, kiss_fftri, dft, hermitian, forEachIdx, ofReal_zero,
    Finset.sum_range_succ, List.range_succ, kiss_fft_cpx.ext_iff]

end

section
variable {K : Type} [LinearOrderedField K]

/-- With one tap and the rectangular window `make_bandstop2` returns the unit
tap (in a time array of two cells). -/
theorem make_bandstop2_one_tap (env : Env K) (sr : ℤ) (freqlow freqhi : K) (len : ℕ)
    (hlen : odd_size (len / 2) = 1) (hsr : sr ≠ 0) (hlo : freqlow ≠ 0) (hhi : freqhi ≠ 0) :
    make_bandstop2 env sr freqlow freqhi len window_rectangular
      = some ⟨[1, 0], none, 1, audiobuf_td, sr⟩ := by
  unfold make_bandstop2 make_bandpass2
  simp only [make_highpass_one_tap env sr freqlow (len / 2) hlen hsr hlo,
    make_lowpass_one_tap env sr freqhi (len / 2) hlen hsr hhi, convolve_zero_one]
  simp [spectral_inversion_td, convert_buf, forEachIdx, List.range_succ]

/-- With one tap and the rectangular window `make_bandstop` returns the unit
tap for every band with non-zero edges. -/
theorem make_bandstop_one_tap (env : Env K) (sr : ℤ) (freqlow freqhi : K)
    (hsr : sr ≠ 0) (hlo : freqlow ≠ 0) (hhi : freqhi ≠ 0) :
    ∃ buf, make_bandstop env sr freqlow freqhi 1 window_rectangular = some buf ∧
      one_tap_unit buf := by
  by_cases h : freqlow = freqhi
  · refine ⟨⟨[1, 0], none, 1, audiobuf_td, sr⟩, ?_, rfl, rfl, rfl⟩
    unfold make_bandstop
    rw [if_pos h]
    exact make_bandstop2_one_tap env sr freqlow freqhi 1 (by decide) hsr hlo hhi
  · refine ⟨⟨[1], none, 1, audiobuf_td, sr⟩, ?_, rfl, rfl, rfl⟩
    unfold make_bandstop make_bandstop_added
    rw [if_neg h, make_highpass_one_tap env sr freqhi 1 (by decide) hsr hhi,
      make_lowpass_one_tap env sr freqlow 1 (by decide) hsr hlo]
    simp [add_buf, normalize_dc, dc_total, convert_buf, forEachIdx, List.range_succ]

/-- The power of a unit tap is `sqrt(cos(0)^2 + sin(0)^2)`, at every frequency. -/
theorem frequency_power_one_tap (env : Env K) (lm : Libm K) (buf : audiobuf K) (freq : K)
    (h : one_tap_unit buf) :
    frequency_power env lm buf freq
      = lm.sqrt (lm.cos 0 * lm.cos 0 + lm.sin 0 * lm.sin 0) := by
  obtain ⟨htd, hlen, htap⟩ := h
  have htap1 : buf.td[0]?.getD 0 = 1 := by
    rw [← List.getD_eq_getElem?_getD]; exact htap
  simp [frequency_power, convert_buf_td_self env buf htd, hlen, htap1, List.range_succ]

theorem frequency_power_one_tap_eq_one (env : Env K) (lm : Libm K) (buf : audiobuf K)
    (freq : K) (h : one_tap_unit buf) (hcos : lm.cos 0 = 1) (hsin : lm.sin 0 = 0)
    (hsqrt : lm.sqrt 1 = 1) : frequency_power env lm buf freq = 1 := by
  rw [frequency_power_one_tap env lm buf freq h, hcos, hsin]
  norm_num [hsqrt]

end

section
variable {K : Type} [LinearOrderedField K]

theorem deep_width0_44100 : (deep_width0 44100 : K) = 44 := by
  norm_num [deep_width0, Int.tdiv]

theorem deep_step0_44100 : (deep_step0 44100 : K) = 44 / 3 := by
  rw [deep_step0, deep_width0_44100]

/-- The search for the depth 5 at 1000 Hz and 44100 Hz with one tap and the
rectangular window never leaves its loop: the power is 1 at every width, the
direction is -1 in every pass, so the step stays `44/3`, and the width
`44 - k * 44/3` never takes the band beyond `0` or `sr/2`. -/
theorem deep_loop_stuck (env : Env K) (lm : Libm K) (hcos : lm.cos 0 = 1)
    (hsin : lm.sin 0 = 0) (hsqrt : lm.sqrt 1 = 1) (hlog : |lm.log 1 - lm.log 5| > 0.01)
    (fuel : ℕ) : ∀ (st : deep_state K) (k : ℕ), st.power = 1 → st.step = 44 / 3 →
      (st.lastdir = 0 ∨ st.lastdir = -1) → st.width = 44 - (k : K) * (44 / 3) →
      deep_loop env lm 44100 1000 5 1 window_rectangular fuel st = none := by
  induction fuel with
  | zero => intro st k _ _ _ _; rfl
  | succ fuel ih =>
    intro st k hp hs hl hw
    have htest : deep_test lm 5 st := by
      refine ⟨by rw [hp]; exact hlog, by rw [hs]; norm_num⟩
    have hk : (0 : K) ≤ (k : K) := Nat.cast_nonneg k
    have hlt : st.power < 5 := by rw [hp]; norm_num
    have hstep : (if st.lastdir ≠ 0 ∧ (if st.power < (5 : K) then (-1 : ℤ) else 1) ≠ st.lastdir
        then st.step * 0.5 else st.step) = 44 / 3 := by
      rw [if_pos hlt, if_neg, hs]
      rintro ⟨h0, h1⟩
      rcases hl with h | h
      · exact h0 h
      · exact h1 h.symm
    have hwidth : st.width - st.step = 44 - ((k + 1 : ℕ) : K) * (44 / 3) := by
      rw [hw, hs]; push_cast; ring
    have hguard : ¬ ((1000 : K) - (st.width - st.step) < 0
        ∨ (1000 : K) + (st.width - st.step) > ((Int.tdiv 44100 2 : ℤ) : K)) := by
      have h2 : ((Int.tdiv 44100 2 : ℤ) : K) = 22050 := by norm_num [Int.tdiv]
      rw [h2, hw, hs]
      rintro (h | h)
      · nlinarith
      · nlinarith
    have hlo : (1000 : K) - (st.width - st.step) ≠ 0 := by
      rw [hw, hs]
      intro h
      nlinarith
    have hhi : (1000 : K) + (st.width - st.step) ≠ 0 := by
      rw [hwidth]
      intro h
      have h1 : ((3132 : ℕ) : K) = ((44 * (k + 1) : ℕ) : K) := by
        push_cast
        push_cast at h
        linarith
      have h2 := Nat.cast_injective h1
      omega
    obtain ⟨buf, hbuf, hunit⟩ := make_bandstop_one_tap env 44100 _ _ (by norm_num) hlo hhi
    have hpow := frequency_power_one_tap_eq_one env lm buf 1000 hunit hcos hsin hsqrt
    have hbody : deep_body env lm 44100 1000 5 1 window_rectangular st
        = deep_outcome.running
            { width := st.width - st.step, step := 44 / 3, buf := buf, power := 1,
              lastdir := -1, dir := -1 } := by
      unfold deep_body
      simp only [hstep]
      simp only [if_pos hlt, if_neg hguard, hbuf, hpow]
    unfold deep_loop
    rw [if_pos htest, hbody]
    exact ih _ (k + 1) rfl rfl (Or.inr rfl) hwidth

/-- Under the same conditions `make_bandstopdeep` itself never returns. -/
theorem make_bandstopdeep_diverges (env : Env K) (lm : Libm K) (hcos : lm.cos 0 = 1)
    (hsin : lm.sin 0 = 0) (hsqrt : lm.sqrt 1 = 1) (hlog : |lm.log 1 - lm.log 5| > 0.01)
    (fuel : ℕ) : make_bandstopdeep env lm 44100 1000 5 1 window_rectangular fuel = none := by
  obtain ⟨buf, hbuf, hunit⟩ := make_bandstop_one_tap env 44100 ((1000 : K) - deep_width0 44100)
    ((1000 : K) + deep_width0 44100) (by norm_num)
    (by rw [deep_width0_44100]; norm_num) (by rw [deep_width0_44100]; norm_num)
  have hpow := frequency_power_one_tap_eq_one env lm buf 1000 hunit hcos hsin hsqrt
  unfold make_bandstopdeep deep_init
  simp only [hbuf, hpow]
  exact deep_loop_stuck env lm hcos hsin hsqrt hlog fuel _ 0 rfl deep_step0_44100 (Or.inl rfl)
    (by simp [deep_width0_44100])

end

section
variable {K : Type} [LinearOrderedField K]

/-- Function `make_bandstop` has no fatal exit: the two kernels that
`make_bandstop2` convolves have the same sample rate. -/
theorem make_bandstop_isSome (env : Env K) (sr : ℤ) (freqlow freqhi : K) (len : ℕ)
    (w : window) : ∃ buf, make_bandstop env sr freqlow freqhi len w = some buf := by
  unfold make_bandstop
  split
  · obtain ⟨bp, hbp, -⟩ := make_bandpass2_shape env sr freqlow freqhi len w
    unfold make_bandstop2
    rw [hbp]
    exact ⟨_, rfl⟩
  · exact ⟨_, rfl⟩

/-- The state in which `make_bandstopdeep` reaches its loop. -/
theorem deep_init_running (env : Env K) (lm : Libm K) (sr : ℤ) (freq : K) (len : ℕ)
    (w : window) :
    ∃ st, deep_init env lm sr freq len w = deep_outcome.running st ∧
      st.width = deep_width0 sr ∧ st.step = deep_step0 sr ∧ st.lastdir = 0 ∧
      make_bandstop env sr (freq - deep_width0 sr) (freq + deep_width0 sr) len w = some st.buf ∧
      st.power = frequency_power env lm st.buf freq := by
  obtain ⟨buf, hbuf⟩ := make_bandstop_isSome env sr (freq - deep_width0 sr)
    (freq + deep_width0 sr) len w
  refine ⟨{ width := deep_width0 sr, step := deep_step0 sr, buf := buf,
             power := frequency_power env lm buf freq, lastdir := 0, dir := 0 }, ?_, ?_⟩
  · unfold deep_init
    simp only [hbuf]
  · exact ⟨rfl, rfl, rfl, hbuf, rfl⟩

end

section
variable {K : Type} [LinearOrderedField K]

/-- With one tap and the rectangular window `make_bandstop` returns `[1]` for a
band of two different non-zero edges. -/
theorem make_bandstop_one_tap_ne (env : Env K) (sr : ℤ) (freqlow freqhi : K)
    (hsr : sr ≠ 0) (hlo : freqlow ≠ 0) (hhi : freqhi ≠ 0) (h : freqlow ≠ freqhi) :
    make_bandstop env sr freqlow freqhi 1 window_rectangular
      = some ⟨[1], none, 1, audiobuf_td, sr⟩ := by
  unfold make_bandstop make_bandstop_added
  rw [if_neg h, make_highpass_one_tap env sr freqhi 1 (by decide) hsr hhi,
    make_lowpass_one_tap env sr freqlow 1 (by decide) hsr hlo]
  simp [add_buf, normalize_dc, dc_total, convert_buf, forEachIdx, List.range_succ]

end

/-! ## The curve fit of `make_custom` -/

section
variable {K : Type} [LinearOrderedField K]

theorem foldl_set_getD_of_ne (g : ℕ → ℕ) (v : ℕ → K) (j : ℕ) (n : ℕ) (a : List K)
    (h : ∀ i, i < n → g i ≠ j) :
    ((List.range n).foldl (fun a i => a.set (g i) (v i)) a).getD j 0 = a.getD j 0 := by
  induction n with
  | zero => simp
  | succ n ih =>
    rw [List.range_succ, List.foldl_append]
    simp only [List.foldl_cons, List.foldl_nil]
    rw [List.getD_eq_getElem?_getD, List.getElem?_set_ne (h n (Nat.lt_succ_self n)),
      ← List.getD_eq_getElem?_getD]
    exact ih fun i hi => h i (Nat.lt_succ_of_lt hi)

/-- The last sample of the buffer that `make_custom` builds is never written: it
is the value that the cell `audio[len-1]` held when `malloc` returned it. -/
theorem custom_kernel_last_sample (env : Env K) (cells : malloc_cells K) (sr : ℤ)
    (curve : wantcurve K) (len : ℕ) (buf : audiobuf K)
    (h : custom_kernel env cells sr curve len = some buf) :
    buf.len = odd_size len ∧
    buf.td.getD (odd_size len - 1) 0 = cells.audio (odd_size len - 1) := by
  unfold custom_kernel at h
  simp only at h
  split at h
  · exact absurd h (by simp)
  · next fin hfin =>
    rw [Option.some.injEq] at h
    rw [← h]
    refine ⟨rfl, ?_⟩
    have hodd := odd_size_odd len
    simp only
    rw [foldl_set_getD_of_ne (fun i => i + odd_size len / 2) _ (odd_size len - 1)
        (odd_size len / 2) _ (fun i hi => by show i + odd_size len / 2 ≠ _; omega),
      getD_forEachIdx, if_neg (by omega), getD_map_range _ _ _ (by omega)]

theorem piecewise_linear_example :
    piecewise_linear [(⟨0, 1⟩ : wantpoint ℚ), ⟨2000, 0⟩, ⟨4000, 0⟩] 1000 = some (1 / 2) := by
  norm_num [piecewise_linear, List.find?]

end

section
variable {K : Type} [LinearOrderedField K]

theorem set_getD_imag (l : List (kiss_fft_cpx K)) (n j : ℕ) (v : K) :
    ((l.set n ⟨v, (l.getD n 0).i⟩).getD j 0).i = (l.getD j 0).i := by
  rw [List.getD_eq_getElem?_getD, List.getElem?_set]
  by_cases hnj : n = j
  · subst hnj
    rw [if_pos rfl]
    by_cases hn : n < l.length
    · rw [if_pos hn]; rfl
    · rw [if_neg hn, List.getD_eq_getElem?_getD, List.getElem?_eq_none (not_lt.mp hn)]
  · rw [if_neg hnj, ← List.getD_eq_getElem?_getD]

/-- The loop over the bins of `make_custom` leaves every imaginary part as it
finds it. -/
theorem custom_bins_imag (sr : ℤ) (curve : wantcurve K) (fftsize n : ℕ)
    (fin0 : List (kiss_fft_cpx K)) (res : List (kiss_fft_cpx K) × ℕ)
    (h : (List.range n).foldl (fun acc i =>
        match acc with
        | none => none
        | some (fin, pti) =>
          match custom_bin curve (bin_freq sr fftsize i) pti with
          | none => none
          | some (v, pti) => some (fin.set i ⟨v, (fin.getD i 0).i⟩, pti))
      (some (fin0, 0)) = some res) (j : ℕ) :
    (res.1.getD j 0).i = (fin0.getD j 0).i := by
  induction n generalizing res with
  | zero =>
    simp only [List.range_zero, List.foldl_nil, Option.some.injEq] at h
    rw [← h]
  | succ n ih =>
    rw [List.range_succ, List.foldl_append] at h
    simp only [List.foldl_cons, List.foldl_nil] at h
    split at h
    · exact absurd h (by simp)
    · next fin pti hacc =>
      split at h
      · exact absurd h (by simp)
      · next v pti1 hbin =>
        rw [Option.some.injEq] at h
        rw [← h]
        simp only
        rw [set_getD_imag, ← ih (fin, pti) hacc]

/-- Imaginary parts of the spectrum of `make_custom`: the bins from `len` on keep
the imaginary part that the cell held when `malloc` returned it. -/
theorem custom_spectrum_imag (cells : malloc_cells K) (sr : ℤ) (curve : wantcurve K)
    (len : ℕ) (fin : List (kiss_fft_cpx K))
    (h : custom_spectrum cells sr curve len = some fin) (i : ℕ) (hi : len ≤ i)
    (hlt : i < custom_fftsize len) : (fin.getD i 0).i = (cells.fft_in i).i := by
  unfold custom_spectrum at h
  simp only [Option.map_eq_some'] at h
  obtain ⟨res, hres, hfst⟩ := h
  rw [← hfst, custom_bins_imag sr curve _ _ _ res hres i, getD_forEachIdx,
    if_neg (by omega)]
  rw [List.getD_eq_getElem?_getD, List.getElem?_map, List.getElem?_range hlt]
  rfl

end

theorem custom_fftsize_three : custom_fftsize 3 = 8 := by
  simp [custom_fftsize, Nat.clog]

theorem custom_fftsize_one : custom_fftsize 1 = 2 := by
  simp [custom_fftsize, Nat.clog]

set_option maxHeartbeats 1000000 in
/-- The spectrum that `make_custom` builds at 8000 Hz for three taps from the
curve `(0, 1), (2000, 0), (4000, 0)`, in cells that hold `g + g*i`. -/
theorem custom_spectrum_three (g : ℚ) :
    custom_spectrum ⟨fun _ => ⟨g, g⟩, fun _ => g⟩ 8000
        ⟨[⟨0, 1⟩, ⟨2000, 0⟩, ⟨4000, 0⟩], 3, 8000, false⟩ 3
      = some [⟨1, 0⟩, ⟨1 / 2, 0⟩, ⟨0, 0⟩, ⟨0, g⟩, ⟨0, g⟩, ⟨0, g⟩, ⟨0, g⟩, ⟨0, g⟩] := by
  unfold custom_spectrum
  rw [custom_fftsize_three]
  norm_num [forEachIdx, List.range_succ, custom_bin, pts_at, advance_pti, bin_freq, Int.tdiv]

/-- The spectrum that `make_custom` builds at 8000 Hz for one tap from the flat
curve `(0, 1), (4000, 1)`, in cells that hold `g + g*i`. -/
theorem custom_spectrum_flat (g : ℚ) :
    custom_spectrum ⟨fun _ => ⟨g, g⟩, fun _ => g⟩ 8000
        ⟨[⟨0, 1⟩, ⟨4000, 1⟩], 2, 8000, false⟩ 1
      = some [⟨1, 0⟩, ⟨1, g⟩] := by
  unfold custom_spectrum
  rw [custom_fftsize_one]
  norm_num [forEachIdx, List.range_succ, custom_bin, pts_at, advance_pti, bin_freq, Int.tdiv]

/-- The one-tap buffer that `make_custom` builds from the flat curve is the cell
`audio[0]` as `malloc` returned it. -/
theorem custom_kernel_flat (g : ℚ) :
    custom_kernel envQ ⟨fun _ => ⟨g, g⟩, fun _ => g⟩ 8000
        ⟨[⟨0, 1⟩, ⟨4000, 1⟩], 2, 8000, false⟩ 1
      = some ⟨[g], none, 1, audiobuf_td, 8000⟩ := by
  unfold custom_kernel
  have h1 : odd_size 1 = 1 := by decide
  simp only [h1, custom_spectrum_flat g]
  simp [forEachIdx]

theorem make_custom_flat (g : ℚ) :
    make_custom envQ ⟨fun _ => ⟨g, g⟩, fun _ => g⟩ 8000
        ⟨[⟨0, 1⟩, ⟨4000, 1⟩], 2, 8000, false⟩ 1 window_rectangular
      = some ⟨[g], none, 1, audiobuf_td, 8000⟩ := by
  unfold make_custom
  rw [custom_kernel_flat g]
  simp [apply_window, convert_buf]

/-- For the one-point curve `(0, 1)` the bin of frequency 0 reads `pts[1]`. -/
theorem custom_bin_one_point :
    custom_bin (⟨[⟨0, 1⟩], 1, 8000, false⟩ : wantcurve ℚ) 0 0 = none := by
  norm_num [custom_bin, pts_at, advance_pti]

theorem custom_spectrum_one_point (cells : malloc_cells ℚ) :
    custom_spectrum cells 8000 ⟨[⟨0, 1⟩], 1, 8000, false⟩ 1 = none := by
  unfold custom_spectrum
  rw [custom_fftsize_one]
  have hf : (bin_freq 8000 2 0 : ℚ) = 0 := by norm_num [bin_freq, Int.tdiv]
  simp [List.range_succ, hf, custom_bin_one_point]

/-! ## Peak normalization, windows, buffer growth -/

section peak_lemmas
variable {K : Type} [LinearOrderedField K]

theorem peak_max_ge (buf : audiobuf K) (i : ℕ) (hi : i < buf.len) :
    |buf.td.getD i 0| ≤ peak_max buf := by
  unfold peak_max
  generalize buf.len = n at hi
  induction n with
  | zero => omega
  | succ n ih =>
    rw [List.range_succ, List.foldl_append]
    simp only [List.foldl_cons, List.foldl_nil]
    by_cases h : i < n
    · have := ih h
      split_ifs with hlt
      · exact le_trans this hlt.le
      · exact this
    · have hin : i = n := by omega
      subst hin
      split_ifs with hlt
      · exact le_refl _
      · exact not_lt.mp hlt

theorem peak_max_attained (buf : audiobuf K) :
    peak_max buf = 0 ∨ ∃ j, j < buf.len ∧ peak_max buf = |buf.td.getD j 0| := by
  unfold peak_max
  generalize buf.len = n
  induction n with
  | zero => left; rfl
  | succ n ih =>
    rw [List.range_succ, List.foldl_append]
    simp only [List.foldl_cons, List.foldl_nil]
    split_ifs with hlt
    · right; exact ⟨n, by omega, rfl⟩
    · rcases ih with h0 | ⟨j, hj, hj2⟩
      · left; exact h0
      · right; exact ⟨j, by omega, hj2⟩

theorem normalize_peak_if_clipped_of_le (env : Env K) (buf : audiobuf K)
    (htd : buf.type = audiobuf_td) (h : peak_max buf ≤ 1) :
    normalize_peak_if_clipped env buf = (buf, none) := by
  unfold normalize_peak_if_clipped
  simp only [convert_buf_td_self env buf htd]
  rw [if_neg (not_lt.mpr h)]

theorem normalize_peak_if_clipped_of_gt (env : Env K) (buf : audiobuf K)
    (htd : buf.type = audiobuf_td) (h : 1 < peak_max buf) :
    normalize_peak_if_clipped env buf =
      ({ buf with td := forEachIdx buf.len (fun _ x => x / peak_max buf) buf.td },
        some (1 / peak_max buf)) := by
  unfold normalize_peak_if_clipped
  simp only [convert_buf_td_self env buf htd]
  rw [if_pos h]

theorem expand_buf_grow (env : Env K) (buf : audiobuf K) (minsize : ℕ)
    (htd : buf.type = audiobuf_td)
    (h : buf.len < env.next_fast_size_real (if buf.len > minsize then buf.len else minsize)) :
    expand_buf env buf minsize =
      { buf with
        td := buf.td.take buf.len ++ List.replicate
          (env.next_fast_size_real (if buf.len > minsize then buf.len else minsize) - buf.len) 0
        len := env.next_fast_size_real (if buf.len > minsize then buf.len else minsize) } := by
  unfold expand_buf
  have hc : convert_buf_td env buf = buf := by unfold convert_buf_td; rw [if_pos htd]
  simp only [hc]
  rw [if_pos h]

theorem expand_buf_keep (env : Env K) (buf : audiobuf K) (minsize : ℕ)
    (htd : buf.type = audiobuf_td)
    (h : ¬ buf.len < env.next_fast_size_real (if buf.len > minsize then buf.len else minsize)) :
    expand_buf env buf minsize = buf := by
  unfold expand_buf
  have hc : convert_buf_td env buf = buf := by unfold convert_buf_td; rw [if_pos htd]
  simp only [hc]
  rw [if_neg h]

end peak_lemmas

theorem window_coeff_real_mem (env : Env ℝ) (hcos : env.cosf = Real.cos) (w : window)
    (L i : ℕ) (hi : i < L) :
    0 ≤ window_coeff env w L i ∧ window_coeff env w L i ≤ 1 := by
  have hLpos : (0 : ℝ) < L := by exact_mod_cast (by omega : 0 < L)
  cases w with
  | window_blackman =>
    simp only [window_coeff, hcos]
    have h4 : 4 * (PI : ℝ) * (i : ℝ) / (L : ℝ) = 2 * (2 * PI * (i : ℝ) / (L : ℝ)) := by ring
    rw [h4, Real.cos_two_mul]
    have h1 := Real.neg_one_le_cos (2 * PI * (i : ℝ) / (L : ℝ))
    have h2 := Real.cos_le_one (2 * PI * (i : ℝ) / (L : ℝ))
    constructor <;> nlinarith
  | window_hamming =>
    simp only [window_coeff, hcos]
    have h1 := Real.neg_one_le_cos (2 * PI * (i : ℝ) / (L : ℝ))
    have h2 := Real.cos_le_one (2 * PI * (i : ℝ) / (L : ℝ))
    constructor <;> norm_num <;> linarith
  | window_barlett =>
    simp only [window_coeff]
    have ht0 : (0 : ℝ) ≤ (i : ℝ) / (L : ℝ) := by positivity
    have ht1 : (i : ℝ) / (L : ℝ) ≤ 1 := by
      rw [div_le_one hLpos]; exact_mod_cast hi.le
    have habs : |1.0 - (i : ℝ) / (L : ℝ) * 2.0| ≤ 1 := by
      rw [abs_le]; constructor <;> (norm_num; linarith)
    have habs0 := abs_nonneg (1.0 - (i : ℝ) / (L : ℝ) * 2.0)
    norm_num at habs habs0 ⊢
    exact habs
  | window_hanning =>
    simp only [window_coeff, hcos]
    have h1 := Real.neg_one_le_cos (2 * PI * (i : ℝ) / (L : ℝ))
    have h2 := Real.cos_le_one (2 * PI * (i : ℝ) / (L : ℝ))
    constructor <;> norm_num <;> linarith
  | window_rectangular =>
    simp [window_coeff]

/-! ## The insertion sort of `read_wantcurve_from_string` -/

section sort_lemmas
variable {K : Type} [LinearOrder K]

theorem sort_insert_shape (this : wantpoint K) (pre post : List (wantpoint K))
    (hs : pre.Pairwise (fun a b => a.freq ≤ b.freq)) :
    ∀ (j : ℕ) (c : wantpoint K), j ≤ pre.length → (∀ x ∈ pre.drop j, this.freq < x.freq) →
      ∃ k, k ≤ j ∧
        sort_insert this j (pre.take j ++ c :: (pre.drop j ++ post))
          = pre.take k ++ this :: (pre.drop k ++ post) ∧
        (∀ x ∈ pre.take k, x.freq ≤ this.freq) ∧ (∀ x ∈ pre.drop k, this.freq < x.freq) := by
  intro j
  induction j with
  | zero =>
    intro c _ hgt
    refine ⟨0, le_refl _, ?_, ?_, hgt⟩
    · simp [sort_insert]
    · intro x hx
      simp at hx
  | succ j ih =>
    intro c hj hgt
    have hjlt : j < pre.length := by omega
    have htake : pre.take (j + 1) = pre.take j ++ [pre[j]] :=
      (List.take_concat_get' pre j hjlt).symm
    have hdrop : pre.drop j = pre[j] :: pre.drop (j + 1) := List.drop_eq_getElem_cons hjlt
    have hlen : (pre.take (j + 1)).length = j + 1 := by
      rw [List.length_take]; omega
    have hget : (pre.take (j + 1) ++ c :: (pre.drop (j + 1) ++ post))[j]? = some pre[j] := by
      rw [List.getElem?_append_left (by omega), List.getElem?_take_of_lt (by omega),
        List.getElem?_eq_getElem hjlt]
    have hset : ∀ v, (pre.take (j + 1) ++ c :: (pre.drop (j + 1) ++ post)).set (j + 1) v
        = pre.take (j + 1) ++ v :: (pre.drop (j + 1) ++ post) := by
      intro v
      rw [List.set_append_right _ _ (by omega), hlen, Nat.sub_self, List.set_cons_zero]
    simp only [sort_insert, hget]
    by_cases hp : pre[j].freq > this.freq
    · rw [if_pos hp, hset]
      have hre : pre.take (j + 1) ++ pre[j] :: (pre.drop (j + 1) ++ post)
          = pre.take j ++ pre[j] :: (pre.drop j ++ post) := by
        rw [htake, hdrop]
        simp only [List.append_assoc, List.singleton_append, List.cons_append, List.nil_append]
      rw [hre]
      obtain ⟨k, hk, heq, h1, h2⟩ := ih pre[j] (by omega) (by
        intro x hx
        rw [hdrop] at hx
        rcases List.mem_cons.mp hx with h | h
        · rw [h]; exact hp
        · exact hgt x h)
      exact ⟨k, by omega, heq, h1, h2⟩
    · rw [if_neg hp, hset]
      refine ⟨j + 1, le_refl _, rfl, ?_, hgt⟩
      intro x hx
      rw [htake] at hx
      have hsplit : pre = pre.take j ++ pre.drop j := (List.take_append_drop j pre).symm
      rw [hsplit, List.pairwise_append] at hs
      rcases List.mem_append.mp hx with h | h
      · have := hs.2.2 x h pre[j] (by rw [hdrop]; exact List.mem_cons_self _ _)
        exact le_trans this (not_lt.mp hp)
      · rw [List.mem_singleton] at h
        rw [h]
        exact not_lt.mp hp

theorem sort_insert_prefix (this : wantpoint K) (pre post : List (wantpoint K))
    (hs : pre.Pairwise (fun a b => a.freq ≤ b.freq)) :
    ∃ l, sort_insert this pre.length (pre ++ this :: post) = l ++ post ∧
      l.Perm (pre ++ [this]) ∧ l.Pairwise (fun a b => a.freq ≤ b.freq) := by
  obtain ⟨k, -, heq, h1, h2⟩ := sort_insert_shape this pre post hs pre.length this (le_refl _)
    (by simp)
  rw [List.take_length, List.drop_length, List.nil_append] at heq
  refine ⟨pre.take k ++ this :: pre.drop k, ?_, ?_, ?_⟩
  · rw [heq]; simp
  · have h := @List.perm_middle _ this (pre.take k) (pre.drop k)
    rw [List.take_append_drop] at h
    exact h.trans (List.perm_append_singleton this pre).symm
  · have hsplit : pre = pre.take k ++ pre.drop k := (List.take_append_drop k pre).symm
    rw [hsplit, List.pairwise_append] at hs
    rw [List.pairwise_append]
    refine ⟨hs.1, ?_, ?_⟩
    · rw [List.pairwise_cons]
      exact ⟨fun x hx => (h2 x hx).le, hs.2.1⟩
    · intro a ha b hb
      rcases List.mem_cons.mp hb with h | h
      · rw [h]; exact h1 a ha
      · exact hs.2.2 a ha b h

theorem sort_points_loop (pts : List (wantpoint K)) (n : ℕ) (hn : n + 1 ≤ pts.length) :
    ∃ l, (List.range n).foldl sort_step pts = l ++ pts.drop (n + 1) ∧
      l.Perm (pts.take (n + 1)) ∧ l.Pairwise (fun a b => a.freq ≤ b.freq) := by
  induction n with
  | zero =>
    refine ⟨pts.take 1, ?_, List.Perm.refl _, ?_⟩
    · simp only [List.range_zero, List.foldl_nil]
      exact (List.take_append_drop 1 pts).symm
    · cases pts with
      | nil => simp
      | cons a t => simp
  | succ n ih =>
    obtain ⟨l, heq, hperm, hsorted⟩ := ih (by omega)
    rw [List.range_succ, List.foldl_append, List.foldl_cons, List.foldl_nil, heq]
    have hl : l.length = n + 1 := by
      rw [hperm.length_eq, List.length_take]; omega
    have hlt : n + 1 < pts.length := by omega
    have hdrop : pts.drop (n + 1) = pts[n + 1] :: pts.drop (n + 1 + 1) :=
      List.drop_eq_getElem_cons hlt
    have hget : (l ++ pts.drop (n + 1))[n + 1]? = some pts[n + 1] := by
      rw [List.getElem?_append_right (by omega), hl, Nat.sub_self, hdrop,
        List.getElem?_cons_zero]
    simp only [sort_step, hget]
    obtain ⟨l2, heq2, hperm2, hsorted2⟩ :=
      sort_insert_prefix pts[n + 1] l (pts.drop (n + 1 + 1)) hsorted
    rw [hl] at heq2
    rw [hdrop, heq2]
    refine ⟨l2, rfl, ?_, hsorted2⟩
    have htake : pts.take (n + 1 + 1) = pts.take (n + 1) ++ [pts[n + 1]] :=
      (List.take_concat_get' pts (n + 1) hlt).symm
    rw [htake]
    exact hperm2.trans (List.Perm.append_right _ hperm)

theorem sort_points_sorted_perm (pts : List (wantpoint K)) :
    (sort_points pts.length pts).Perm pts ∧
    (sort_points pts.length pts).Pairwise (fun a b => a.freq ≤ b.freq) := by
  unfold sort_points
  cases hlen : pts.length with
  | zero =>
    have : pts = [] := List.length_eq_zero.mp hlen
    subst this
    simp
  | succ m =>
    obtain ⟨l, heq, hperm, hsorted⟩ := sort_points_loop pts m (by omega)
    have hd : pts.drop (m + 1) = [] := by
      rw [List.drop_eq_nil_iff]; omega
    have ht : pts.take (m + 1) = pts := by
      rw [← hlen, List.take_length]
    rw [hd, List.append_nil] at heq
    rw [ht] at hperm
    rw [show m + 1 - 1 = m by omega, heq]
    exact ⟨hperm, hsorted⟩

end sort_lemmas

/-! ## Reading a curve from a text -/

section wantcurve_lemmas
variable {K : Type} [LinearOrderedField K]

theorem read_wantcurve_from_string_eq (lc : Libc K) (sr0 : ℤ) (str : List Char) :
    read_wantcurve_from_string lc sr0 str =
      if (read_points lc str 0 []).length = 0 then none
      else some { pts := sort_points (read_points lc str 0 []).length (read_points lc str 0 [])
                  ct := (read_points lc str 0 []).length
                  sr := (read_samplerate lc str 0 sr0 false).1
                  has_sr := (read_samplerate lc str 0 sr0 false).2 } := rfl

end wantcurve_lemmas

theorem read_points_example :
    read_points libcQ ['5', ' ', '2', ',', '5', ' ', '3'] 0 [] = [⟨5, 2⟩, ⟨5, 3⟩] := by
  simp [read_points, skip_entry, skip_while, skip_count, char_at, isspace, number_start,
    libcQ, digits_value]

theorem read_samplerate_example :
    read_samplerate libcQ ['5', ' ', '2', ',', '5', ' ', '3'] 0 0 false = (0, false) := by
  simp [read_samplerate]

theorem sort_points_example :
    sort_points 2 [(⟨5, 2⟩ : wantpoint ℚ), ⟨5, 3⟩] = [⟨5, 2⟩, ⟨5, 3⟩] := by
  simp [sort_points, sort_step, sort_insert, List.range_succ]

theorem read_wantcurve_example :
    read_wantcurve_from_string libcQ 0 ['5', ' ', '2', ',', '5', ' ', '3']
      = some ⟨[⟨5, 2⟩, ⟨5, 3⟩], 2, 0, false⟩ := by
  rw [read_wantcurve_from_string_eq, read_points_example, read_samplerate_example]
  simp only [List.length_cons, List.length_nil]
  rw [if_neg (by decide)]
  rw [show 0 + 1 + 1 = 2 from rfl, sort_points_example]

theorem read_points_comment :
    read_points libcQ ['#', ' ', '5', ' ', '2'] 0 [] = [] := by
  simp [read_points, skip_entry, skip_while, skip_count, char_at]

/-! ## The buffers handed to `spectral_inversion_td` -/

section inversion_arguments
variable {K : Type} [LinearOrderedField K]

theorem direct_convolution_sum (a b : audiobuf K) (hb : 1 ≤ b.len) :
    ∑ k ∈ range (a.len + b.len - 1), direct_convolution a b k
      = (∑ j ∈ range a.len, a.td.getD j 0) * ∑ l ∈ range b.len, b.td.getD l 0 := by
  unfold direct_convolution
  have h1 : ∀ k, (∑ j ∈ range a.len,
        if j ≤ k ∧ k - j < b.len then a.td.getD j 0 * b.td.getD (k - j) 0 else 0)
      = ∑ j ∈ range a.len, ∑ l ∈ range b.len,
          if j + l = k then a.td.getD j 0 * b.td.getD l 0 else 0 := by
    intro k
    refine Finset.sum_congr rfl fun j _ => ?_
    exact (sum_ite_add_eq (fun j => a.td.getD j 0) (fun l => b.td.getD l 0) b.len j k).symm
  simp only [h1]
  rw [Finset.sum_comm]
  rw [Finset.sum_mul_sum]
  refine Finset.sum_congr rfl fun j hj => ?_
  rw [Finset.sum_comm]
  refine Finset.sum_congr rfl fun l hl => ?_
  rw [Finset.sum_ite_eq, if_pos]
  rw [Finset.mem_range] at hj hl ⊢
  omega

theorem make_bandpass2_sum (env : Env K) (sr : ℤ) (freqlow freqhi : K) (len : ℕ) (w : window)
    (hlo : ∑ j ∈ range (apply_window env (make_sinc env sr freqlow (len / 2)) w).len,
      (apply_window env (make_sinc env sr freqlow (len / 2)) w).td.getD j 0 ≠ 0)
    (hw : IsPrimitiveRoot
      (env.twiddle (1 <<< Nat.clog 2 (odd_size (len / 2) + odd_size (len / 2))))
      (1 <<< Nat.clog 2 (odd_size (len / 2) + odd_size (len / 2)))) :
    ∃ bp, make_bandpass2 env sr freqlow freqhi len w = some bp ∧
      bp.type = audiobuf_td ∧ 2 ≤ bp.len ∧ bp.len ≤ bp.td.length ∧
      ∑ i ∈ range (bp.len - 1), bp.td.getD i 0 = 0 := by
  obtain ⟨bp, hbp, hlen, -, htype, hwf⟩ := make_bandpass2_shape env sr freqlow freqhi len w
  have hone := one_le_odd_size (len / 2)
  refine ⟨bp, hbp, htype, by omega, hwf, ?_⟩
  have hhl : (make_highpass env sr freqlow (len / 2) w).len = odd_size (len / 2) := by
    rw [make_highpass_len]
  have hll : (make_lowpass env sr freqhi (len / 2) w).len = odd_size (len / 2) := by
    rw [make_lowpass_len]
  have hconv : convolve env (make_highpass env sr freqlow (len / 2) w)
      (make_lowpass env sr freqhi (len / 2) w) = some bp := hbp
  have hget : ∀ i, i < bp.len - 1 → bp.td.getD i 0
      = direct_convolution (make_highpass env sr freqlow (len / 2) w)
          (make_lowpass env sr freqhi (len / 2) w) i := by
    intro i hi
    refine convolve_getD env _ _ (make_highpass_type env sr freqlow (len / 2) w)
      (make_lowpass_type env sr freqhi (len / 2) w) (by rw [hhl, hll]; exact hw) bp hconv i ?_
    rw [hhl, hll]
    have hpow : odd_size (len / 2) + odd_size (len / 2)
        ≤ 1 <<< Nat.clog 2 (odd_size (len / 2) + odd_size (len / 2)) := by
      rw [Nat.one_shiftLeft]
      exact Nat.le_pow_clog (by norm_num) _
    omega
  rw [Finset.sum_congr rfl fun i hi => hget i (Finset.mem_range.mp hi)]
  have hsum := direct_convolution_sum (make_highpass env sr freqlow (len / 2) w)
    (make_lowpass env sr freqhi (len / 2) w) (by rw [hll]; exact hone)
  rw [hhl, hll] at hsum
  rw [hlen, hsum]
  have h0 := make_highpass_sum env sr freqlow (len / 2) w hlo
  rw [hhl] at h0
  rw [h0, zero_mul]

theorem add_buf_type (env : Env K) (dst summand : audiobuf K) (hd : dst.type = audiobuf_td) :
    (add_buf env dst summand).type = audiobuf_td := by
  simp only [add_buf, convert_buf_td_self env dst hd, hd]

theorem add_buf_length (env : Env K) (dst summand : audiobuf K) (hd : dst.type = audiobuf_td) :
    (add_buf env dst summand).td.length = dst.td.length := by
  simp only [add_buf, convert_buf_td_self env dst hd, length_forEachIdx]

theorem make_bandstop_sum (env : Env K) (sr : ℤ) (freqlow freqhi : K) (len : ℕ) (w : window)
    (hlo : ∑ j ∈ range (apply_window env (make_sinc env sr freqlow len) w).len,
      (apply_window env (make_sinc env sr freqlow len) w).td.getD j 0 ≠ 0)
    (hhi : ∑ j ∈ range (apply_window env (make_sinc env sr freqhi len) w).len,
      (apply_window env (make_sinc env sr freqhi len) w).td.getD j 0 ≠ 0)
    (hlo2 : ∑ j ∈ range (apply_window env (make_sinc env sr freqlow (len / 2)) w).len,
      (apply_window env (make_sinc env sr freqlow (len / 2)) w).td.getD j 0 ≠ 0)
    (hw : IsPrimitiveRoot
      (env.twiddle (1 <<< Nat.clog 2 (odd_size (len / 2) + odd_size (len / 2))))
      (1 <<< Nat.clog 2 (odd_size (len / 2) + odd_size (len / 2)))) :
    ∃ bs, make_bandstop env sr freqlow freqhi len w = some bs ∧
      ∑ i ∈ range bs.len, bs.td.getD i 0 = 1 := by
  by_cases h : freqlow = freqhi
  · obtain ⟨bp, hbp, htype, hlen, hwf, hsum⟩ :=
      make_bandpass2_sum env sr freqlow freqhi len w hlo2 hw
    refine ⟨spectral_inversion_td env { bp with len := bp.len - 1 }, ?_, ?_⟩
    · unfold make_bandstop make_bandstop2
      rw [if_pos h, hbp]
      rfl
    · rw [spectral_inversion_td_sum env { bp with len := bp.len - 1 } htype
        (by show bp.len - 1 ≤ bp.td.length; omega) (by show 1 ≤ bp.len - 1; omega)]
      show 1 - ∑ i ∈ range (bp.len - 1), bp.td.getD i 0 = 1
      rw [hsum, sub_zero]
  · refine ⟨normalize_dc env (make_bandstop_added env sr freqlow freqhi len w), ?_, ?_⟩
    · unfold make_bandstop
      rw [if_neg h]
    · have hadd := make_bandstop_added_sum env sr freqlow freqhi len w hlo hhi
      have htype : (make_bandstop_added env sr freqlow freqhi len w).type = audiobuf_td :=
        add_buf_type env _ _ (make_lowpass_type env sr freqlow len w)
      have hwf : (make_bandstop_added env sr freqlow freqhi len w).len
          ≤ (make_bandstop_added env sr freqlow freqhi len w).td.length := by
        unfold make_bandstop_added
        rw [add_buf_len env _ _ (make_lowpass_type env sr freqlow len w),
          add_buf_length env _ _ (make_lowpass_type env sr freqlow len w),
          make_lowpass_len, make_lowpass_length]
      exact normalize_dc_sum env _ htype hwf (by rw [hadd]; exact one_ne_zero)

end inversion_arguments

theorem envQ_twiddle_two : IsPrimitiveRoot (envQ.twiddle 2) 2 := by
  have hw : envQ.twiddle 2 = (⟨-1, 0⟩ : kiss_fft_cpx ℚ) := rfl
  rw [hw]
  refine IsPrimitiveRoot.mk_of_lt _ (by norm_num) ?_ ?_
  · ext <;> simp [pow_succ]
  · intro l hl0 hl2 h
    have hr := congrArg kiss_fft_cpx.r h
    interval_cases l
    simp [pow_succ] at hr
    norm_num at hr

theorem fftsize_two : 1 <<< Nat.clog 2 (odd_size (2 / 2) + odd_size (2 / 2)) = 2 := by
  simp [odd_size, Nat.clog]

theorem envQ_rect_sinc_sum_three (freq : ℚ) (hf : freq ≠ 0) :
    ∑ j ∈ range (apply_window envQ (make_sinc envQ 44100 freq 2) window_rectangular).len,
      (apply_window envQ (make_sinc envQ 44100 freq 2) window_rectangular).td.getD j 0 ≠ 0 := by
  rw [windowed_sinc_sum]
  have h3 : odd_size 2 = 3 := by decide
  rw [h3]
  simp only [Finset.sum_range_succ, Finset.sum_range_zero, window_coeff, mul_one, zero_add]
  rw [make_sinc_getD envQ 44100 freq 2 0 (by decide), make_sinc_getD envQ 44100 freq 2 1 (by decide),
    make_sinc_getD envQ 44100 freq 2 2 (by decide)]
  simp only [h3]
  norm_num [envQ, PI]
  intro h
  exact hf (by linarith)

theorem envQ_rect_sinc_sum_one (freq : ℚ) (hf : freq ≠ 0) :
    ∑ j ∈ range (apply_window envQ (make_sinc envQ 44100 freq (2 / 2)) window_rectangular).len,
      (apply_window envQ (make_sinc envQ 44100 freq (2 / 2)) window_rectangular).td.getD j 0
        ≠ 0 := by
  rw [windowed_sinc_sum]
  have h1 : odd_size (2 / 2) = 1 := by decide
  rw [h1]
  simp only [Finset.sum_range_succ, Finset.sum_range_zero, window_coeff, mul_one, zero_add]
  rw [make_sinc_getD envQ 44100 freq (2 / 2) 0 (by decide)]
  simp only [h1]
  norm_num [PI]
  exact hf

theorem make_bandpass2_two_taps :
    make_bandpass2 envQ 44100 1000 2000 2 window_rectangular
      = some ⟨[0, 0], none, 2, audiobuf_td, 44100⟩ := by
  unfold make_bandpass2
  simp only
  rw [make_highpass_one_tap envQ 44100 1000 (2 / 2) (by decide) (by decide) (by norm_num),
    make_lowpass_one_tap envQ 44100 2000 (2 / 2) (by decide) (by decide) (by norm_num)]
  exact convolve_zero_one envQ 44100

/-! ## The passes of the depth search -/

section deep_passes_lemmas
variable {K : Type} [LinearOrderedField K]

end deep_passes_lemmas

theorem deep_init_example :
    deep_init envQ libmQ 44100 1000 1 window_rectangular
      = deep_outcome.running ⟨44, 44 / 3, ⟨[1], none, 1, audiobuf_td, 44100⟩, 1, 0, 0⟩ := by
  have hb : make_bandstop envQ 44100 ((1000 : ℚ) - 44) ((1000 : ℚ) + 44) 1 window_rectangular
      = some ⟨[1], none, 1, audiobuf_td, 44100⟩ :=
    make_bandstop_one_tap_ne envQ 44100 _ _ (by norm_num) (by norm_num) (by norm_num)
      (by norm_num)
  have hp : frequency_power envQ libmQ ⟨[1], none, 1, audiobuf_td, 44100⟩ 1000 = 1 :=
    frequency_power_one_tap_eq_one envQ libmQ _ 1000 ⟨rfl, rfl, rfl⟩ (by norm_num [libmQ])
      rfl (by norm_num [libmQ])
  unfold deep_init
  simp only [deep_width0_44100, deep_step0_44100, hb, hp]

section zero_bandwidth
variable {K : Type} [LinearOrderedField K]

theorem spectral_inversion_td_twice (env : Env K) (buf : audiobuf K)
    (htd : buf.type = audiobuf_td) (hwf : buf.len ≤ buf.td.length) (hlen : 1 ≤ buf.len) :
    (spectral_inversion_td env (spectral_inversion_td env buf)).len = buf.len ∧
    (spectral_inversion_td env (spectral_inversion_td env buf)).type = audiobuf_td ∧
    ∀ i, i < buf.len →
      (spectral_inversion_td env (spectral_inversion_td env buf)).td.getD i 0
        = buf.td.getD i 0 := by
  have htd1 := spectral_inversion_td_type env buf htd
  have hlen1 := spectral_inversion_td_len env buf htd
  have hlength1 := spectral_inversion_td_length env buf htd
  refine ⟨by rw [spectral_inversion_td_len env _ htd1, hlen1],
    spectral_inversion_td_type env _ htd1, fun i hi => ?_⟩
  rw [spectral_inversion_td_getD env _ htd1 (by rw [hlen1, hlength1]; exact hwf)
    (by rw [hlen1]; exact hlen) i (by rw [hlen1]; exact hi), hlen1,
    spectral_inversion_td_getD env buf htd hwf hlen i hi]
  split <;> ring

theorem make_bandpass_of_eq (env : Env K) (sr : ℤ) (freqlow freqhi : K) (len : ℕ) (w : window)
    (h : freqlow = freqhi) (bp : audiobuf K)
    (hbp : make_bandpass2 env sr freqlow freqhi len w = some bp) :
    make_bandpass env sr freqlow freqhi len w
      = some (spectral_inversion_td env
          (spectral_inversion_td env { bp with len := bp.len - 1 })) := by
  unfold make_bandpass make_bandstop make_bandstop2
  rw [if_pos h, hbp]
  rfl

end zero_bandwidth

/-! ## The bands of the depth search -/

section deep_bands
variable {K : Type} [LinearOrderedField K]

theorem deep_init_band (env : Env K) (lm : Libm K) (len : ℕ) (w : window) :
    deep_init env lm 44100 20 len w =
      match make_bandstop env 44100 (-24) 64 len w with
      | none => deep_outcome.aborted
      | some buf =>
        deep_outcome.running ⟨44, 44 / 3, buf, frequency_power env lm buf 20, 0, 0⟩ := by
  unfold deep_init
  simp only [deep_width0_44100, deep_step0_44100]
  have e1 : (20 : K) - 44 = -24 := by norm_num
  have e2 : (20 : K) + 44 = 64 := by norm_num
  rw [e1, e2]

theorem deep_trace_shrinks (env : Env K) (lm : Libm K) (hcos : lm.cos 0 = 1)
    (hsin : lm.sin 0 = 0) (hsqrt : lm.sqrt 1 = 1) (hlog : |lm.log 1 - lm.log 5| > 0.01)
    (n : ℕ) : ∀ (st : deep_state K) (k : ℕ), st.power = 1 → st.step = 44 / 3 →
      (st.lastdir = 0 ∨ st.lastdir = -1) → st.width = 44 - (k : K) * (44 / 3) →
      make_bandstop env 44100 (1000 - st.width) (1000 + st.width) 1 window_rectangular
        = some st.buf →
      ∃ tr last, deep_trace env lm 44100 1000 5 1 window_rectangular n st = some tr ∧
        tr.getLast? = some last ∧ last.width = 44 - ((k + n : ℕ) : K) * (44 / 3) ∧
        make_bandstop env 44100 (1000 - last.width) (1000 + last.width) 1 window_rectangular
          = some last.buf := by
  induction n with
  | zero =>
    intro st k _ _ _ hw hb
    exact ⟨[st], st, rfl, rfl, by rw [hw]; rfl, hb⟩
  | succ n ih =>
    intro st k hp hs hl hw _
    have htest : deep_test lm 5 st := by
      refine ⟨by rw [hp]; exact hlog, by rw [hs]; norm_num⟩
    have hk : (0 : K) ≤ (k : K) := Nat.cast_nonneg k
    have hlt : st.power < 5 := by rw [hp]; norm_num
    have hstep : (if st.lastdir ≠ 0 ∧ (if st.power < (5 : K) then (-1 : ℤ) else 1) ≠ st.lastdir
        then st.step * 0.5 else st.step) = 44 / 3 := by
      rw [if_pos hlt, if_neg, hs]
      rintro ⟨h0, h1⟩
      rcases hl with h | h
      · exact h0 h
      · exact h1 h.symm
    have hwidth : st.width - st.step = 44 - ((k + 1 : ℕ) : K) * (44 / 3) := by
      rw [hw, hs]; push_cast; ring
    have hguard : ¬ ((1000 : K) - (st.width - st.step) < 0
        ∨ (1000 : K) + (st.width - st.step) > ((Int.tdiv 44100 2 : ℤ) : K)) := by
      have h2 : ((Int.tdiv 44100 2 : ℤ) : K) = 22050 := by norm_num [Int.tdiv]
      rw [h2, hw, hs]
      rintro (h | h)
      · nlinarith
      · nlinarith
    have hlo : (1000 : K) - (st.width - st.step) ≠ 0 := by
      rw [hw, hs]
      intro h
      nlinarith
    have hhi : (1000 : K) + (st.width - st.step) ≠ 0 := by
      rw [hwidth]
      intro h
      have h1 : ((3132 : ℕ) : K) = ((44 * (k + 1) : ℕ) : K) := by
        push_cast
        push_cast at h
        linarith
      have h2 := Nat.cast_injective h1
      omega
    obtain ⟨buf, hbuf, hunit⟩ := make_bandstop_one_tap env 44100 _ _ (by norm_num) hlo hhi
    have hpow := frequency_power_one_tap_eq_one env lm buf 1000 hunit hcos hsin hsqrt
    have hbody : deep_body env lm 44100 1000 5 1 window_rectangular st
        = deep_outcome.running
            { width := st.width - st.step, step := 44 / 3, buf := buf, power := 1,
              lastdir := -1, dir := -1 } := by
      unfold deep_body
      simp only [hstep]
      simp only [if_pos hlt, if_neg hguard, hbuf, hpow]
    obtain ⟨tr1, last, htr1, hlast, hlw, hlb⟩ := ih
      { width := st.width - st.step, step := 44 / 3, buf := buf, power := 1,
        lastdir := -1, dir := -1 } (k + 1) rfl rfl (Or.inr rfl) hwidth hbuf
    refine ⟨st :: tr1, last, ?_, ?_, ?_, hlb⟩
    · unfold deep_trace
      rw [if_pos htest, hbody]
      simp only [htr1, Option.map_some']
    · cases tr1 with
      | nil => cases hlast
      | cons a rest => rw [List.getLast?_cons_cons]; exact hlast
    · rw [hlw]
      congr 2
      push_cast
      ring

end deep_bands

theorem deep_trace_negative_width :
    ∃ tr last, deep_trace envQ libmQ 44100 1000 5 1 window_rectangular 4
        ⟨44, 44 / 3, ⟨[1], none, 1, audiobuf_td, 44100⟩, 1, 0, 0⟩ = some tr ∧
      tr.getLast? = some last ∧ last.width = -(44 / 3) ∧
      make_bandstop envQ 44100 (1000 - last.width) (1000 + last.width) 1 window_rectangular
        = some last.buf := by
  obtain ⟨tr, last, h1, h2, h3, h4⟩ := deep_trace_shrinks envQ libmQ (by norm_num [libmQ]) rfl
    (by norm_num [libmQ]) (by norm_num [libmQ]) 4
    ⟨44, 44 / 3, ⟨[1], none, 1, audiobuf_td, 44100⟩, 1, 0, 0⟩ 0 rfl rfl (Or.inl rfl)
    (by norm_num)
    (make_bandstop_one_tap_ne envQ 44100 _ _ (by norm_num) (by norm_num) (by norm_num)
      (by norm_num))
  refine ⟨tr, last, h1, h2, ?_, h4⟩
  rw [h3]
  norm_num

/-! ## The symmetry of the windowed sinc -/

section symmetry
variable {K : Type} [LinearOrderedField K]

theorem make_lowpass_getD (env : Env K) (sr : ℤ) (freq : K) (len : ℕ) (w : window) (i : ℕ)
    (hi : i < odd_size len) :
    (make_lowpass env sr freq len w).td.getD i 0
      = (make_sinc env sr freq len).td.getD i 0 * window_coeff env w (odd_size len) i
        / ∑ j ∈ range (odd_size len),
            (make_sinc env sr freq len).td.getD j 0 * window_coeff env w (odd_size len) j := by
  have htd := make_sinc_type env sr freq len
  have hwf : (make_sinc env sr freq len).len ≤ (make_sinc env sr freq len).td.length := by
    rw [make_sinc_len, make_sinc_length]
  have hlen : (apply_window env (make_sinc env sr freq len) w).len = odd_size len := by
    rw [apply_window_len env _ w htd, make_sinc_len]
  show (normalize_dc env (apply_window env (make_sinc env sr freq len) w)).td.getD i 0 = _
  rw [normalize_dc_getD env _ (apply_window_type env _ w htd)
    (by rw [apply_window_len env _ w htd, apply_window_length env _ w htd]; exact hwf) i
    (by rw [hlen]; exact hi), windowed_sinc_sum,
    apply_window_getD env _ w htd hwf i (by rw [make_sinc_len]; exact hi), make_sinc_len]

theorem make_lowpass_barlett_three (env : Env K) (sr : ℤ) (freq : K) :
    (make_lowpass env sr freq 3 window_barlett).td.getD 0 0 = 0 ∧
    (make_lowpass env sr freq 3 window_barlett).td.getD 2 0
      = env.sinf (2 * PI * (freq / (sr : K))) * (2 / 3)
        / (2 * PI * (freq / (sr : K)) * (2 / 3)
            + env.sinf (2 * PI * (freq / (sr : K))) * (2 / 3)) := by
  have h3 : odd_size 3 = 3 := by decide
  constructor
  · rw [make_lowpass_getD env sr freq 3 window_barlett 0 (by decide)]
    have hw : window_coeff env window_barlett (odd_size 3) 0 = 0 := by
      simp only [window_coeff, h3]
      have e : (1.0 : K) - ((0 : ℕ) : K) / ((3 : ℕ) : K) * 2.0 = 1 := by norm_num
      rw [e, abs_one]
      norm_num
    rw [hw, mul_zero, zero_div]
  · rw [make_lowpass_getD env sr freq 3 window_barlett 2 (by decide), h3]
    simp only [Finset.sum_range_succ, Finset.sum_range_zero, zero_add]
    rw [make_sinc_getD env sr freq 3 0 (by decide), make_sinc_getD env sr freq 3 1 (by decide),
      make_sinc_getD env sr freq 3 2 (by decide)]
    simp only [h3]
    have hw0 : window_coeff env window_barlett 3 0 = 0 := by
      simp only [window_coeff]
      have e : (1.0 : K) - ((0 : ℕ) : K) / ((3 : ℕ) : K) * 2.0 = 1 := by norm_num
      rw [e, abs_one]
      norm_num
    have hw1 : window_coeff env window_barlett 3 1 = 2 / 3 := by
      simp only [window_coeff]
      have e : (1.0 : K) - ((1 : ℕ) : K) / ((3 : ℕ) : K) * 2.0 = 1 / 3 := by norm_num
      rw [e, abs_of_pos (by norm_num : (0 : K) < 1 / 3)]
      norm_num
    have hw2 : window_coeff env window_barlett 3 2 = 2 / 3 := by
      simp only [window_coeff]
      have e : (1.0 : K) - ((2 : ℕ) : K) / ((3 : ℕ) : K) * 2.0 = -(1 / 3) := by norm_num
      rw [e, abs_neg, abs_of_pos (by norm_num : (0 : K) < 1 / 3)]
      norm_num
    rw [hw0, hw1, hw2]
    norm_num

end symmetry

/-! ## The scan of `smoothresponse` -/

theorem process_states_example :
    process_states [(⟨1, 1⟩ : pt ℚ), ⟨2, 2⟩, ⟨3, 3⟩] 1 = [⟨2, 0, 1⟩, ⟨2, 0, 1⟩, ⟨1, 1, 1⟩] := by
  have h1 : scan_step [(⟨1, 1⟩ : pt ℚ), ⟨2, 2⟩, ⟨3, 3⟩] 1 ⟨1, 0, 0⟩ 0 = ⟨2, 0, 1⟩ := by
    unfold scan_step
    norm_num [pt_at]
    rw [scan_to, if_pos (by norm_num [pt_at]), scan_to, if_neg (by norm_num [pt_at])]
    rw [scan_from, if_neg (by norm_num [pt_at])]
    norm_num [pt_at]
  have h2 : scan_step [(⟨1, 1⟩ : pt ℚ), ⟨2, 2⟩, ⟨3, 3⟩] 1 ⟨2, 0, 1⟩ 1 = ⟨2, 0, 1⟩ := by
    unfold scan_step
    norm_num [pt_at]
    rw [scan_to, if_neg (by norm_num [pt_at])]
    rw [scan_from, if_neg (by norm_num [pt_at])]
    norm_num
  have h3 : scan_step [(⟨1, 1⟩ : pt ℚ), ⟨2, 2⟩, ⟨3, 3⟩] 1 ⟨2, 0, 1⟩ 2 = ⟨1, 1, 1⟩ := by
    unfold scan_step
    norm_num [pt_at]
    rw [scan_to, if_neg (by norm_num [pt_at])]
    rw [scan_from, if_pos (by norm_num [pt_at]), scan_from, if_neg (by norm_num [pt_at])]
    norm_num [pt_at]
  have hr : List.range ([(⟨1, 1⟩ : pt ℚ), ⟨2, 2⟩, ⟨3, 3⟩]).length = [0, 1, 2] := by decide
  have h0 : (pt_at [(⟨1, 1⟩ : pt ℚ), ⟨2, 2⟩, ⟨3, 3⟩] 0).amp = 1 := rfl
  unfold process_states
  rw [hr, h0]
  simp only [scan_states, h1, h2, h3]

theorem process_example :
    process [(⟨1, 1⟩ : pt ℚ), ⟨2, 2⟩, ⟨3, 3⟩] 1 = [(1, 1), (2, 1), (3, 1)] := by
  unfold process
  rw [process_states_example]
  have hr : List.range ([(⟨1, 1⟩ : pt ℚ), ⟨2, 2⟩, ⟨3, 3⟩]).length = [0, 1, 2] := by decide
  rw [hr]
  simp [pt_at]
  norm_num

/-! ## `float` comparisons and quotients -/

section cfloat_order
variable {K : Type} [LinearOrder K]

theorem cfloat_le_of_lt {a b : cfloat K} (h : a < b) : a ≤ b := by
  cases a <;> cases b <;> simp only [LT.lt, LE.le, cfloat.lt, cfloat.le] at h ⊢
  all_goals first
    | exact h.elim
    | trivial
    | exact LT.lt.le h

theorem cfloat_le_of_not_lt {a b : cfloat K} (ha : a ≠ cfloat.nan) (hb : b ≠ cfloat.nan)
    (h : ¬ b < a) : a ≤ b := by
  cases a <;> cases b <;> simp only [LT.lt, LE.le, cfloat.lt, cfloat.le] at h ⊢
  all_goals first
    | exact absurd rfl ha
    | exact absurd rfl hb
    | trivial
    | exact h trivial
    | exact not_lt.mp h

theorem cfloat_le_trans {a b c : cfloat K} (h1 : a ≤ b) (h2 : b ≤ c) : a ≤ c := by
  cases a <;> cases b <;> cases c <;> simp only [LE.le, cfloat.le] at h1 h2 ⊢
  all_goals first
    | exact h1.elim
    | exact h2.elim
    | trivial
    | exact le_trans h1 h2

theorem cfloat_not_lt_nan_left (b : cfloat K) : ¬ (cfloat.nan : cfloat K) < b := by
  cases b <;> simp only [LT.lt, cfloat.lt] <;> exact not_false

theorem cfloat_not_lt_nan_right (a : cfloat K) : ¬ a < (cfloat.nan : cfloat K) := by
  cases a <;> simp only [LT.lt, cfloat.lt] <;> exact not_false

end cfloat_order

section float_quotient_lemmas
variable {K : Type} [LinearOrderedField K]

theorem normalize_dc_float_length (env : Env K) (buf : audiobuf K)
    (htd : buf.type = audiobuf_td) : (normalize_dc_float env buf).length = buf.len := by
  simp only [normalize_dc_float, convert_buf_td_self env buf htd, List.length_map,
    List.length_range]

theorem normalize_dc_float_getElem (env : Env K) (buf : audiobuf K)
    (htd : buf.type = audiobuf_td) (i : ℕ) (hi : i < buf.len) :
    (normalize_dc_float env buf)[i]?
      = some (float_div (buf.td.getD i 0) (∑ j ∈ range buf.len, buf.td.getD j 0)) := by
  simp only [normalize_dc_float, convert_buf_td_self env buf htd, dc_total_eq_sum,
    List.getElem?_map, List.getElem?_range hi, Option.map_some']

theorem normalize_dc_float_example :
    normalize_dc_float envQ ⟨[1, -1], none, 2, audiobuf_td, 44100⟩
      = [cfloat.pinf, cfloat.ninf] := by
  simp [normalize_dc_float, convert_buf, dc_total, float_div, List.range_succ]

end float_quotient_lemmas

/-! ## The insertion sort on `float` frequencies -/

section sort_run
variable {F : Type} [LT F] [DecidableRel (fun a b : F => a < b)]

theorem sort_insert_run (this : wantpoint F) (pre post : List (wantpoint F)) :
    ∀ (j : ℕ) (c : wantpoint F), j ≤ pre.length → (∀ x ∈ pre.drop j, this.freq < x.freq) →
      ∃ k, k ≤ j ∧
        sort_insert this j (pre.take j ++ c :: (pre.drop j ++ post))
          = pre.take k ++ this :: (pre.drop k ++ post) ∧
        (k = 0 ∨ ∃ p, pre[k - 1]? = some p ∧ ¬ this.freq < p.freq) ∧
        (∀ x ∈ pre.drop k, this.freq < x.freq) := by
  intro j
  induction j with
  | zero =>
    intro c _ hgt
    refine ⟨0, le_refl _, ?_, Or.inl rfl, hgt⟩
    simp [sort_insert]
  | succ j ih =>
    intro c hj hgt
    have hjlt : j < pre.length := by omega
    have htake : pre.take (j + 1) = pre.take j ++ [pre[j]] :=
      (List.take_concat_get' pre j hjlt).symm
    have hdrop : pre.drop j = pre[j] :: pre.drop (j + 1) := List.drop_eq_getElem_cons hjlt
    have hlen : (pre.take (j + 1)).length = j + 1 := by
      rw [List.length_take]; omega
    have hget : (pre.take (j + 1) ++ c :: (pre.drop (j + 1) ++ post))[j]? = some pre[j] := by
      rw [List.getElem?_append_left (by omega), List.getElem?_take_of_lt (by omega),
        List.getElem?_eq_getElem hjlt]
    have hset : ∀ v, (pre.take (j + 1) ++ c :: (pre.drop (j + 1) ++ post)).set (j + 1) v
        = pre.take (j + 1) ++ v :: (pre.drop (j + 1) ++ post) := by
      intro v
      rw [List.set_append_right _ _ (by omega), hlen, Nat.sub_self, List.set_cons_zero]
    simp only [sort_insert, hget]
    by_cases hp : pre[j].freq > this.freq
    · rw [if_pos hp, hset]
      have hre : pre.take (j + 1) ++ pre[j] :: (pre.drop (j + 1) ++ post)
          = pre.take j ++ pre[j] :: (pre.drop j ++ post) := by
        rw [htake, hdrop]
        simp only [List.append_assoc, List.singleton_append, List.cons_append, List.nil_append]
      rw [hre]
      obtain ⟨k, hk, heq, h1, h2⟩ := ih pre[j] (by omega) (by
        intro x hx
        rw [hdrop] at hx
        rcases List.mem_cons.mp hx with h | h
        · rw [h]; exact hp
        · exact hgt x h)
      exact ⟨k, by omega, heq, h1, h2⟩
    · rw [if_neg hp, hset]
      refine ⟨j + 1, le_refl _, rfl, Or.inr ⟨pre[j], ?_, hp⟩, hgt⟩
      rw [Nat.add_sub_cancel, List.getElem?_eq_getElem hjlt]

theorem sort_insert_prefix_run (this : wantpoint F) (pre post : List (wantpoint F)) :
    ∃ k, k ≤ pre.length ∧
      sort_insert this pre.length (pre ++ this :: post)
        = (pre.take k ++ this :: pre.drop k) ++ post ∧
      (pre.take k ++ this :: pre.drop k).Perm (pre ++ [this]) ∧
      (k = 0 ∨ ∃ p, pre[k - 1]? = some p ∧ ¬ this.freq < p.freq) ∧
      (∀ x ∈ pre.drop k, this.freq < x.freq) := by
  obtain ⟨k, hk, heq, h1, h2⟩ := sort_insert_run this pre post pre.length this (le_refl _)
    (by simp)
  rw [List.take_length, List.drop_length, List.nil_append] at heq
  refine ⟨k, hk, ?_, ?_, h1, h2⟩
  · rw [heq]; simp
  · have h := @List.perm_middle _ this (pre.take k) (pre.drop k)
    rw [List.take_append_drop] at h
    exact h.trans (List.perm_append_singleton this pre).symm

end sort_run

section sort_float
variable {K : Type} [LinearOrder K]

theorem sort_insert_prefix_sorted (this : wantpoint (cfloat K))
    (pre : List (wantpoint (cfloat K))) (k : ℕ)
    (hs : pre.Pairwise (fun a b => a.freq ≤ b.freq))
    (hpre : ∀ x ∈ pre, x.freq ≠ cfloat.nan) (hthis : this.freq ≠ cfloat.nan)
    (h1 : k = 0 ∨ ∃ p, pre[k - 1]? = some p ∧ ¬ this.freq < p.freq)
    (h2 : ∀ x ∈ pre.drop k, this.freq < x.freq) :
    (pre.take k ++ this :: pre.drop k).Pairwise (fun a b => a.freq ≤ b.freq) := by
  have hsplit : pre = pre.take k ++ pre.drop k := (List.take_append_drop k pre).symm
  have hs2 := hs
  rw [hsplit, List.pairwise_append] at hs2
  rw [List.pairwise_append]
  refine ⟨hs2.1, ?_, ?_⟩
  · rw [List.pairwise_cons]
    exact ⟨fun x hx => cfloat_le_of_lt (h2 x hx), hs2.2.1⟩
  · intro a ha b hb
    rcases List.mem_cons.mp hb with h | h
    · rw [h]
      rcases h1 with h0 | ⟨p, hp, hnot⟩
      · rw [h0, List.take_zero] at ha
        cases ha
      · have hk0 : k ≠ 0 := by
          intro h0
          rw [h0, List.take_zero] at ha
          cases ha
        have hklt : k - 1 < pre.length := by
          by_contra hcon
          rw [List.getElem?_eq_none (by omega)] at hp
          cases hp
        have hpeq : pre[k - 1] = p := by
          rw [List.getElem?_eq_getElem hklt] at hp
          exact Option.some.inj hp
        have hpmem : p ∈ pre := by rw [← hpeq]; exact List.getElem_mem _
        have hple : p.freq ≤ this.freq := cfloat_le_of_not_lt (hpre p hpmem) hthis hnot
        have htk : pre.take k = pre.take (k - 1) ++ [p] := by
          rw [← hpeq, List.take_concat_get' pre (k - 1) hklt]
          congr 1
          omega
        rw [htk] at ha
        rcases List.mem_append.mp ha with h3 | h3
        · have hs3 := hs
          rw [(List.take_append_drop (k - 1) pre).symm, List.pairwise_append] at hs3
          have hpd : p ∈ pre.drop (k - 1) := by
            rw [List.drop_eq_getElem_cons hklt, hpeq]
            exact List.mem_cons_self _ _
          exact cfloat_le_trans (hs3.2.2 a h3 p hpd) hple
        · rw [List.mem_singleton] at h3
          rw [h3]
          exact hple
    · exact hs2.2.2 a ha b h

theorem sort_points_loop_float (pts : List (wantpoint (cfloat K))) (n : ℕ)
    (hn : n + 1 ≤ pts.length) :
    ∃ l, (List.range n).foldl sort_step pts = l ++ pts.drop (n + 1) ∧
      l.Perm (pts.take (n + 1)) ∧
      ((∀ x ∈ pts, x.freq ≠ cfloat.nan) → l.Pairwise (fun a b => a.freq ≤ b.freq)) := by
  induction n with
  | zero =>
    refine ⟨pts.take 1, ?_, List.Perm.refl _, fun _ => ?_⟩
    · simp only [List.range_zero, List.foldl_nil]
      exact (List.take_append_drop 1 pts).symm
    · cases pts with
      | nil => simp
      | cons a t => simp
  | succ n ih =>
    obtain ⟨l, heq, hperm, hsorted⟩ := ih (by omega)
    rw [List.range_succ, List.foldl_append, List.foldl_cons, List.foldl_nil, heq]
    have hl : l.length = n + 1 := by
      rw [hperm.length_eq, List.length_take]; omega
    have hlt : n + 1 < pts.length := by omega
    have hdrop : pts.drop (n + 1) = pts[n + 1] :: pts.drop (n + 1 + 1) :=
      List.drop_eq_getElem_cons hlt
    have hget : (l ++ pts.drop (n + 1))[n + 1]? = some pts[n + 1] := by
      rw [List.getElem?_append_right (by omega), hl, Nat.sub_self, hdrop,
        List.getElem?_cons_zero]
    simp only [sort_step, hget]
    obtain ⟨k, -, heq2, hperm2, h1, h2⟩ :=
      sort_insert_prefix_run pts[n + 1] l (pts.drop (n + 1 + 1))
    rw [hl] at heq2
    rw [hdrop, heq2]
    refine ⟨l.take k ++ pts[n + 1] :: l.drop k, rfl, ?_, fun hgood => ?_⟩
    · have htake : pts.take (n + 1 + 1) = pts.take (n + 1) ++ [pts[n + 1]] :=
        (List.take_concat_get' pts (n + 1) hlt).symm
      rw [htake]
      exact hperm2.trans (List.Perm.append_right _ hperm)
    · refine sort_insert_prefix_sorted pts[n + 1] l k (hsorted hgood) ?_
        (hgood _ (List.getElem_mem _)) h1 h2
      intro x hx
      exact hgood x (List.mem_of_mem_take ((hperm.mem_iff).mp hx))

theorem sort_points_float (pts : List (wantpoint (cfloat K))) :
    (sort_points pts.length pts).Perm pts ∧
    ((∀ x ∈ pts, x.freq ≠ cfloat.nan) →
      (sort_points pts.length pts).Pairwise (fun a b => a.freq ≤ b.freq)) := by
  unfold sort_points
  cases hlen : pts.length with
  | zero =>
    have : pts = [] := List.length_eq_zero.mp hlen
    subst this
    simp
  | succ m =>
    obtain ⟨l, heq, hperm, hsorted⟩ := sort_points_loop_float pts m (by omega)
    have hd : pts.drop (m + 1) = [] := by
      rw [List.drop_eq_nil_iff]; omega
    have ht : pts.take (m + 1) = pts := by
      rw [← hlen, List.take_length]
    rw [hd, List.append_nil] at heq
    rw [ht] at hperm
    rw [show m + 1 - 1 = m by omega, heq]
    exact ⟨hperm, hsorted⟩

end sort_float

/-! ## Reading a curve with `float` values -/

section wantcurve_float

theorem read_wantcurve_from_string_unfold {F : Type} [LT F]
    [DecidableRel (fun a b : F => a < b)] (lc : Libc F) (sr0 : ℤ) (str : List Char) :
    read_wantcurve_from_string lc sr0 str =
      if (read_points lc str 0 []).length = 0 then none
      else some { pts := sort_points (read_points lc str 0 []).length (read_points lc str 0 [])
                  ct := (read_points lc str 0 []).length
                  sr := (read_samplerate lc str 0 sr0 false).1
                  has_sr := (read_samplerate lc str 0 sr0 false).2 } := rfl

theorem cfloat_num_lt_iff {K : Type} [LinearOrder K] (x y : K) :
    (cfloat.num x < cfloat.num y) ↔ x < y := Iff.rfl

theorem cfloat_num_le_iff {K : Type} [LinearOrder K] (x y : K) :
    (cfloat.num x ≤ cfloat.num y) ↔ x ≤ y := Iff.rfl

theorem cfloat_not_num_le_nan {K : Type} [LinearOrder K] (x : K) :
    ¬ (cfloat.num x ≤ (cfloat.nan : cfloat K)) := fun h => h

theorem read_points_float_example :
    read_points libcF ['5', ' ', '2', ',', '5', ' ', '3'] 0 []
      = [⟨cfloat.num 5, cfloat.num 2⟩, ⟨cfloat.num 5, cfloat.num 3⟩] := by
  simp [read_points, skip_entry, skip_while, skip_count, char_at, isspace, number_start,
    libcF, digits_value]

theorem read_samplerate_float_example :
    read_samplerate libcF ['5', ' ', '2', ',', '5', ' ', '3'] 0 0 false = (0, false) := by
  simp [read_samplerate]

theorem sort_points_float_example :
    sort_points 2 [(⟨cfloat.num 5, cfloat.num 2⟩ : wantpoint (cfloat ℚ)),
        ⟨cfloat.num 5, cfloat.num 3⟩]
      = [⟨cfloat.num 5, cfloat.num 2⟩, ⟨cfloat.num 5, cfloat.num 3⟩] := by
  simp [sort_points, sort_step, sort_insert, List.range_succ, cfloat_num_lt_iff]

theorem read_wantcurve_float_example :
    read_wantcurve_from_string libcF 0 ['5', ' ', '2', ',', '5', ' ', '3']
      = some ⟨[⟨cfloat.num 5, cfloat.num 2⟩, ⟨cfloat.num 5, cfloat.num 3⟩], 2, 0, false⟩ := by
  rw [read_wantcurve_from_string_unfold, read_points_float_example,
    read_samplerate_float_example]
  simp only [List.length_cons, List.length_nil]
  rw [if_neg (by decide)]
  rw [show 0 + 1 + 1 = 2 from rfl, sort_points_float_example]

theorem read_points_nan_example :
    read_points libcF
        ['5', ' ', '1', ',', '+', 'n', 'a', 'n', ' ', '1', ',', '3', ' ', '1'] 0 []
      = [⟨cfloat.num 5, cfloat.num 1⟩, ⟨cfloat.nan, cfloat.num 1⟩,
          ⟨cfloat.num 3, cfloat.num 1⟩] := by
  simp [read_points, skip_entry, skip_while, skip_count, char_at, isspace, number_start,
    libcF, digits_value]

theorem read_samplerate_nan_example :
    read_samplerate libcF
        ['5', ' ', '1', ',', '+', 'n', 'a', 'n', ' ', '1', ',', '3', ' ', '1'] 0 0 false
      = (0, false) := by
  simp [read_samplerate]

theorem sort_points_nan_example :
    sort_points 3 [(⟨cfloat.num 5, cfloat.num 1⟩ : wantpoint (cfloat ℚ)),
        ⟨cfloat.nan, cfloat.num 1⟩, ⟨cfloat.num 3, cfloat.num 1⟩]
      = [⟨cfloat.num 5, cfloat.num 1⟩, ⟨cfloat.nan, cfloat.num 1⟩,
          ⟨cfloat.num 3, cfloat.num 1⟩] := by
  simp [sort_points, sort_step, sort_insert, List.range_succ, cfloat_not_lt_nan_left,
    cfloat_not_lt_nan_right]

theorem read_wantcurve_nan_example :
    read_wantcurve_from_string libcF 0
        ['5', ' ', '1', ',', '+', 'n', 'a', 'n', ' ', '1', ',', '3', ' ', '1']
      = some ⟨[⟨cfloat.num 5, cfloat.num 1⟩, ⟨cfloat.nan, cfloat.num 1⟩,
          ⟨cfloat.num 3, cfloat.num 1⟩], 3, 0, false⟩ := by
  rw [read_wantcurve_from_string_unfold, read_points_nan_example,
    read_samplerate_nan_example]
  simp only [List.length_cons, List.length_nil]
  rw [if_neg (by decide)]
  rw [show 0 + 1 + 1 + 1 = 3 from rfl, sort_points_nan_example]

end wantcurve_float

/-! ## Claims -/

section claims
variable {K : Type} [LinearOrderedField K]

/-- C1: for time-domain buffers `a`, `b` of equal sample rate and of lengths
`La, Lb >= 1`, with the transforms of kissfft taken as the exact discrete Fourier
transform (the twiddle factor of the transform size is a primitive root of
unity), the buffer returned by `convolve(a, b)` is the direct linear
convolution: `out[k] = sum_j a[j] * b[k-j]` for every `k < La + Lb - 1`, and the
extra last sample `out[La + Lb - 1]` is 0. -/
theorem convolve_eq_direct_convolution (env : Env K) (a b : audiobuf K)
    (ha : a.type = audiobuf_td) (hb : b.type = audiobuf_td) (hsr : a.sr = b.sr)
    (hla : 1 ≤ a.len) (hlb : 1 ≤ b.len)
    (hw : IsPrimitiveRoot (env.twiddle (1 <<< Nat.clog 2 (a.len + b.len)))
      (1 <<< Nat.clog 2 (a.len + b.len))) :
    ∃ out, convolve env a b = some out ∧
      (∀ k, k < a.len + b.len - 1 → out.td.getD k 0 = direct_convolution a b k) ∧
      out.td.getD (a.len + b.len - 1) 0 = 0 := by
  obtain ⟨out, h, -⟩ := convolve_shape env a b hsr
  have hle : a.len + b.len ≤ 1 <<< Nat.clog 2 (a.len + b.len) := by
    rw [Nat.shiftLeft_eq, one_mul]
    exact Nat.le_pow_clog (by norm_num) _
  refine ⟨out, h, fun k hk => convolve_getD env a b ha hb hw out h k (by omega), ?_⟩
  rw [convolve_getD env a b ha hb hw out h _ (by omega)]
  unfold direct_convolution
  refine Finset.sum_eq_zero fun j hj => ?_
  have := Finset.mem_range.mp hj
  rw [if_neg (by omega)]

/-- The buffers `[1, 2]` and `[3, 4]`, transformed at size 4. -/
theorem convolve_eq_direct_convolution_witness :
    ((⟨[1, 2], none, 2, audiobuf_td, 44100⟩ : audiobuf ℚ).type = audiobuf_td ∧
      (⟨[3, 4], none, 2, audiobuf_td, 44100⟩ : audiobuf ℚ).type = audiobuf_td ∧
      (⟨[1, 2], none, 2, audiobuf_td, 44100⟩ : audiobuf ℚ).sr
        = (⟨[3, 4], none, 2, audiobuf_td, 44100⟩ : audiobuf ℚ).sr ∧
      1 ≤ 2 ∧ 1 ≤ 2 ∧
      IsPrimitiveRoot (envQ.twiddle (1 <<< Nat.clog 2 (2 + 2))) (1 <<< Nat.clog 2 (2 + 2))) ∧
    ∃ out, convolve envQ ⟨[1, 2], none, 2, audiobuf_td, 44100⟩
        ⟨[3, 4], none, 2, audiobuf_td, 44100⟩ = some out ∧
      (∀ k, k < 2 + 2 - 1 → out.td.getD k 0
        = direct_convolution (⟨[1, 2], none, 2, audiobuf_td, 44100⟩ : audiobuf ℚ)
            ⟨[3, 4], none, 2, audiobuf_td, 44100⟩ k) ∧
      out.td.getD (2 + 2 - 1) 0 = 0 :=
  ⟨⟨rfl, rfl, rfl, by decide, by decide, by rw [fftsize_four]; exact envQ_twiddle_four⟩,
    convolve_eq_direct_convolution envQ ⟨[1, 2], none, 2, audiobuf_td, 44100⟩
      ⟨[3, 4], none, 2, audiobuf_td, 44100⟩ rfl rfl rfl (by decide) (by decide)
      (by rw [fftsize_four]; exact envQ_twiddle_four)⟩

/-- C2: for buffers of equal sample rate, `convolve(a, b)` returns a new
time-domain buffer whose length is exactly `a.len + b.len` (and so not
`a.len + b.len - 1`), whose sample rate is `a.sr` and whose frequency array is
`NULL`. -/
theorem convolve_length (env : Env K) (a b : audiobuf K) (hsr : a.sr = b.sr) :
    ∃ buf, convolve env a b = some buf ∧ buf.len = a.len + b.len ∧
      (1 ≤ a.len + b.len → buf.len ≠ a.len + b.len - 1) ∧
      buf.sr = a.sr ∧ buf.fd = none ∧ buf.type = audiobuf_td := by
  obtain ⟨buf, h, hlen, hs, hfd, htype, -⟩ := convolve_shape env a b hsr
  exact ⟨buf, h, hlen, fun h1 => by omega, hs, hfd, htype⟩

/-- Lengths 5 and 3 give length 8. -/
theorem convolve_length_witness :
    (⟨[1, 2, 3, 4, 5], none, 5, audiobuf_td, 44100⟩ : audiobuf ℚ).sr
        = (⟨[1, 1, 1], none, 3, audiobuf_td, 44100⟩ : audiobuf ℚ).sr ∧
    ∃ buf, convolve envQ ⟨[1, 2, 3, 4, 5], none, 5, audiobuf_td, 44100⟩
        ⟨[1, 1, 1], none, 3, audiobuf_td, 44100⟩ = some buf ∧ buf.len = 8 ∧
      (1 ≤ 5 + 3 → buf.len ≠ 5 + 3 - 1) ∧
      buf.sr = 44100 ∧ buf.fd = none ∧ buf.type = audiobuf_td :=
  ⟨rfl, convolve_length envQ ⟨[1, 2, 3, 4, 5], none, 5, audiobuf_td, 44100⟩
    ⟨[1, 1, 1], none, 3, audiobuf_td, 44100⟩ rfl⟩

/-- C3 fails on the code: the time-domain buffer `[1, 2]` of length 2 (already a
fast size, so `expand_buf` leaves it alone) is converted to the frequency domain
as the bins `3` and `-1`, and the conversion back to the time domain returns
`[2, 4]`, the original samples multiplied by `len = 2`: `convert_buf` does not
divide the output of the inverse transform by the transform size, which
`convolve` does. -/
theorem convert_buf_round_trip_scaled :
    convert_buf envQ ⟨[1, 2], none, 2, audiobuf_td, 44100⟩ audiobuf_fd
      = ⟨[1, 2], some [⟨3, 0⟩, ⟨-1, 0⟩], 2, audiobuf_fd, 44100⟩ ∧
    convert_buf envQ
        (convert_buf envQ ⟨[1, 2], none, 2, audiobuf_td, 44100⟩ audiobuf_fd) audiobuf_td
      = ⟨[2, 4], some [⟨3, 0⟩, ⟨-1, 0⟩], 2, audiobuf_td, 44100⟩ ∧
    (convert_buf envQ
        (convert_buf envQ ⟨[1, 2], none, 2, audiobuf_td, 44100⟩ audiobuf_fd) audiobuf_td).td
      ≠ [1, 2] := by
  have hfd : convert_buf envQ ⟨[1, 2], none, 2, audiobuf_td, 44100⟩ audiobuf_fd
      = ⟨[1, 2], some [⟨3, 0⟩, ⟨-1, 0⟩], 2, audiobuf_fd, 44100⟩ := by
    simp [convert_buf, expand_buf, convert_buf_td, envQ, kiss_fftr, dft, memWrite,
      Finset.sum_range_succ, List.range_succ, kiss_fft_cpx.ext_iff]
    norm_num
  have htd : convert_buf envQ
        (convert_buf envQ ⟨[1, 2], none, 2, audiobuf_td, 44100⟩ audiobuf_fd) audiobuf_td
      = ⟨[2, 4], some [⟨3, 0⟩, ⟨-1, 0⟩], 2, audiobuf_td, 44100⟩ := by
    rw [hfd]
    simp [convert_buf, envQ, kiss_fftri, hermitian, memWrite,
      Finset.sum_range_succ, List.range_succ, kiss_fft_cpx.ext_iff]
    norm_num
  refine ⟨hfd, htd, ?_⟩
  rw [htd]
  simp

/-- C4: whenever the windowed sinc has a non-zero sum, the taps of the kernel
returned by `make_lowpass` add up to exactly 1 (unity DC gain). -/
theorem make_lowpass_unity_dc (env : Env K) (sr : ℤ) (freq : K) (len : ℕ) (w : window)
    (hsum : ∑ j ∈ range (apply_window env (make_sinc env sr freq len) w).len,
      (apply_window env (make_sinc env sr freq len) w).td.getD j 0 ≠ 0) :
    ∑ i ∈ range (make_lowpass env sr freq len w).len,
      (make_lowpass env sr freq len w).td.getD i 0 = 1 :=
  make_lowpass_sum env sr freq len w hsum

/-- The kernel `make_lowpass(44100, 1000, 101, blackman)`. -/
theorem make_lowpass_unity_dc_witness :
    (∑ j ∈ range (apply_window envQ (make_sinc envQ 44100 1000 101) window_blackman).len,
      (apply_window envQ (make_sinc envQ 44100 1000 101) window_blackman).td.getD j 0 ≠ 0) ∧
    ∑ i ∈ range (make_lowpass envQ 44100 1000 101 window_blackman).len,
      (make_lowpass envQ 44100 1000 101 window_blackman).td.getD i 0 = 1 :=
  ⟨envQ_windowed_sinc_sum_ne_zero 1000 (by norm_num),
    make_lowpass_unity_dc envQ 44100 1000 101 window_blackman
      (envQ_windowed_sinc_sum_ne_zero 1000 (by norm_num))⟩

/-- C5: on a time-domain buffer of length `L >= 1`, `spectral_inversion_td`
replaces sample `i` by its negation for every `i != L/2`, replaces the center
sample `L/2` by 1 minus its old value, and leaves the length and the sample rate
unchanged. -/
theorem spectral_inversion_td_samples (env : Env K) (buf : audiobuf K)
    (htd : buf.type = audiobuf_td) (hwf : buf.len ≤ buf.td.length) (hlen : 1 ≤ buf.len) :
    (∀ i, i < buf.len → i ≠ buf.len / 2 →
      (spectral_inversion_td env buf).td.getD i 0 = -buf.td.getD i 0) ∧
    (spectral_inversion_td env buf).td.getD (buf.len / 2) 0 = 1 - buf.td.getD (buf.len / 2) 0 ∧
    (spectral_inversion_td env buf).len = buf.len ∧
    (spectral_inversion_td env buf).sr = buf.sr := by
  have hc : buf.len / 2 < buf.len := Nat.div_lt_self (by omega) (by norm_num)
  refine ⟨fun i hi hne => ?_, ?_, spectral_inversion_td_len env buf htd,
    spectral_inversion_td_sr env buf htd⟩
  · rw [spectral_inversion_td_getD env buf htd hwf hlen i hi, if_neg hne]
  · rw [spectral_inversion_td_getD env buf htd hwf hlen _ hc, if_pos rfl]

/-- The three-tap buffer `[1/2, 1/4, 1/4]`. -/
theorem spectral_inversion_td_samples_witness :
    ((⟨[1 / 2, 1 / 4, 1 / 4], none, 3, audiobuf_td, 44100⟩ : audiobuf ℚ).type = audiobuf_td ∧
      3 ≤ ([1 / 2, 1 / 4, 1 / 4] : List ℚ).length ∧ 1 ≤ 3) ∧
    (∀ i, i < 3 → i ≠ 3 / 2 →
      (spectral_inversion_td envQ ⟨[1 / 2, 1 / 4, 1 / 4], none, 3, audiobuf_td, 44100⟩).td.getD i 0
        = -([1 / 2, 1 / 4, 1 / 4] : List ℚ).getD i 0) ∧
    (spectral_inversion_td envQ ⟨[1 / 2, 1 / 4, 1 / 4], none, 3, audiobuf_td, 44100⟩).td.getD
        (3 / 2) 0 = 1 - ([1 / 2, 1 / 4, 1 / 4] : List ℚ).getD (3 / 2) 0 ∧
    (spectral_inversion_td envQ ⟨[1 / 2, 1 / 4, 1 / 4], none, 3, audiobuf_td, 44100⟩).len = 3 ∧
    (spectral_inversion_td envQ ⟨[1 / 2, 1 / 4, 1 / 4], none, 3, audiobuf_td, 44100⟩).sr = 44100 :=
  ⟨⟨rfl, by decide, by decide⟩,
    spectral_inversion_td_samples envQ ⟨[1 / 2, 1 / 4, 1 / 4], none, 3, audiobuf_td, 44100⟩
      rfl (by decide) (by decide)⟩

/-- C6: `spectral_inversion_td` is its own inverse: on a time-domain buffer of
length at least 1 (DC-normalized or not) applying it twice returns exactly the
original samples, and the original length. -/
theorem spectral_inversion_td_involutive (env : Env K) (buf : audiobuf K)
    (htd : buf.type = audiobuf_td) (hwf : buf.len ≤ buf.td.length) (hlen : 1 ≤ buf.len) :
    (spectral_inversion_td env (spectral_inversion_td env buf)).len = buf.len ∧
    ∀ i, i < buf.len →
      (spectral_inversion_td env (spectral_inversion_td env buf)).td.getD i 0
        = buf.td.getD i 0 := by
  have htd1 := spectral_inversion_td_type env buf htd
  have hlen1 := spectral_inversion_td_len env buf htd
  have hlength1 := spectral_inversion_td_length env buf htd
  refine ⟨by rw [spectral_inversion_td_len env _ htd1, hlen1], fun i hi => ?_⟩
  rw [spectral_inversion_td_getD env _ htd1 (by rw [hlen1, hlength1]; exact hwf)
    (by rw [hlen1]; exact hlen) i (by rw [hlen1]; exact hi), hlen1,
    spectral_inversion_td_getD env buf htd hwf hlen i hi]
  split <;> ring

/-- The DC-normalized three-tap buffer `[1/2, 1/4, 1/4]`. -/
theorem spectral_inversion_td_involutive_witness :
    ((⟨[1 / 2, 1 / 4, 1 / 4], none, 3, audiobuf_td, 44100⟩ : audiobuf ℚ).type = audiobuf_td ∧
      3 ≤ ([1 / 2, 1 / 4, 1 / 4] : List ℚ).length ∧ 1 ≤ 3) ∧
    (spectral_inversion_td envQ (spectral_inversion_td envQ
      ⟨[1 / 2, 1 / 4, 1 / 4], none, 3, audiobuf_td, 44100⟩)).len = 3 ∧
    ∀ i, i < 3 →
      (spectral_inversion_td envQ (spectral_inversion_td envQ
        ⟨[1 / 2, 1 / 4, 1 / 4], none, 3, audiobuf_td, 44100⟩)).td.getD i 0
        = ([1 / 2, 1 / 4, 1 / 4] : List ℚ).getD i 0 :=
  ⟨⟨rfl, by decide, by decide⟩,
    spectral_inversion_td_involutive envQ ⟨[1 / 2, 1 / 4, 1 / 4], none, 3, audiobuf_td, 44100⟩
      rfl (by decide) (by decide)⟩

/-- C7: `make_highpass(sr, freq, len, window)` returns the same buffer (samples,
length, sample rate, every field) as `spectral_inversion_td` applied to
`make_lowpass(sr, freq, len, window)`. -/
theorem make_highpass_eq_inversion_of_lowpass (env : Env K) (sr : ℤ) (freq : K) (len : ℕ)
    (w : window) :
    make_highpass env sr freq len w = spectral_inversion_td env (make_lowpass env sr freq len w) :=
  rfl

/-- C8, as the code has it: in `make_bandstop` with `freqlow != freqhi`, when the
two windowed sincs have non-zero sums, the lowpass kernel has taps of sum 1, the
highpass kernel has taps of sum 0 (spectral inversion turns unity DC gain into
zero DC gain), and the buffer that is passed to the final `normalize_dc`, their
element-wise sum, has taps of sum 1. -/
theorem make_bandstop_sum_before_normalize (env : Env K) (sr : ℤ) (freqlow freqhi : K)
    (len : ℕ) (w : window) (hne : freqlow ≠ freqhi)
    (hlo : ∑ j ∈ range (apply_window env (make_sinc env sr freqlow len) w).len,
      (apply_window env (make_sinc env sr freqlow len) w).td.getD j 0 ≠ 0)
    (hhi : ∑ j ∈ range (apply_window env (make_sinc env sr freqhi len) w).len,
      (apply_window env (make_sinc env sr freqhi len) w).td.getD j 0 ≠ 0) :
    make_bandstop env sr freqlow freqhi len w
      = some (normalize_dc env (make_bandstop_added env sr freqlow freqhi len w)) ∧
    ∑ i ∈ range (make_lowpass env sr freqlow len w).len,
      (make_lowpass env sr freqlow len w).td.getD i 0 = 1 ∧
    ∑ i ∈ range (make_highpass env sr freqhi len w).len,
      (make_highpass env sr freqhi len w).td.getD i 0 = 0 ∧
    ∑ i ∈ range (make_bandstop_added env sr freqlow freqhi len w).len,
      (make_bandstop_added env sr freqlow freqhi len w).td.getD i 0 = 1 := by
  refine ⟨?_, make_lowpass_sum env sr freqlow len w hlo,
    make_highpass_sum env sr freqhi len w hhi,
    make_bandstop_added_sum env sr freqlow freqhi len w hlo hhi⟩
  unfold make_bandstop
  rw [if_neg hne]

/-- The band 1000 Hz to 2000 Hz, 101 taps, Blackman window. -/
theorem make_bandstop_sum_before_normalize_witness :
    ((1000 : ℚ) ≠ 2000 ∧
      (∑ j ∈ range (apply_window envQ (make_sinc envQ 44100 1000 101) window_blackman).len,
        (apply_window envQ (make_sinc envQ 44100 1000 101) window_blackman).td.getD j 0 ≠ 0) ∧
      (∑ j ∈ range (apply_window envQ (make_sinc envQ 44100 2000 101) window_blackman).len,
        (apply_window envQ (make_sinc envQ 44100 2000 101) window_blackman).td.getD j 0 ≠ 0)) ∧
    (make_bandstop envQ 44100 1000 2000 101 window_blackman
      = some (normalize_dc envQ (make_bandstop_added envQ 44100 1000 2000 101 window_blackman)) ∧
    ∑ i ∈ range (make_lowpass envQ 44100 1000 101 window_blackman).len,
      (make_lowpass envQ 44100 1000 101 window_blackman).td.getD i 0 = 1 ∧
    ∑ i ∈ range (make_highpass envQ 44100 2000 101 window_blackman).len,
      (make_highpass envQ 44100 2000 101 window_blackman).td.getD i 0 = 0 ∧
    ∑ i ∈ range (make_bandstop_added envQ 44100 1000 2000 101 window_blackman).len,
      (make_bandstop_added envQ 44100 1000 2000 101 window_blackman).td.getD i 0 = 1) :=
  ⟨⟨by norm_num, envQ_windowed_sinc_sum_ne_zero 1000 (by norm_num),
      envQ_windowed_sinc_sum_ne_zero 2000 (by norm_num)⟩,
    make_bandstop_sum_before_normalize envQ 44100 1000 2000 101 window_blackman (by norm_num)
      (envQ_windowed_sinc_sum_ne_zero 1000 (by norm_num))
      (envQ_windowed_sinc_sum_ne_zero 2000 (by norm_num))⟩

/-- C8 as stated fails: for the band 1000 Hz to 2000 Hz at 44100 Hz with one tap
and the rectangular window, the lowpass kernel is `[1]`, the highpass kernel is
`[0]` (the inversion of `[1]`), and the buffer before the final `normalize_dc`
is `[1]`, of sum 1 and not 2. -/
theorem make_bandstop_sum_before_normalize_ne_two :
    (1000 : ℚ) ≠ 2000 ∧
    make_bandstop envQ 44100 1000 2000 1 window_rectangular
      = some (normalize_dc envQ (make_bandstop_added envQ 44100 1000 2000 1 window_rectangular)) ∧
    make_lowpass envQ 44100 1000 1 window_rectangular = ⟨[1], none, 1, audiobuf_td, 44100⟩ ∧
    make_highpass envQ 44100 2000 1 window_rectangular = ⟨[0], none, 1, audiobuf_td, 44100⟩ ∧
    make_bandstop_added envQ 44100 1000 2000 1 window_rectangular
      = ⟨[1], none, 1, audiobuf_td, 44100⟩ ∧
    ∑ i ∈ range (make_bandstop_added envQ 44100 1000 2000 1 window_rectangular).len,
      (make_bandstop_added envQ 44100 1000 2000 1 window_rectangular).td.getD i 0 ≠ 2 := by
  have hlp : make_lowpass envQ 44100 1000 1 window_rectangular
      = ⟨[1], none, 1, audiobuf_td, 44100⟩ := by
    simp [make_lowpass, make_sinc, odd_size, apply_window, normalize_dc, convert_buf, dc_total,
      forEachIdx, PI, List.range_succ]
    norm_num
  have hhp : make_highpass envQ 44100 2000 1 window_rectangular
      = ⟨[0], none, 1, audiobuf_td, 44100⟩ := by
    simp [make_highpass, make_sinc, odd_size, apply_window, normalize_dc, convert_buf, dc_total,
      spectral_inversion_td, forEachIdx, PI, List.range_succ]
    norm_num
  have hadd : make_bandstop_added envQ 44100 1000 2000 1 window_rectangular
      = ⟨[1], none, 1, audiobuf_td, 44100⟩ := by
    unfold make_bandstop_added
    rw [hlp, hhp]
    simp [add_buf, convert_buf, forEachIdx, List.range_succ]
  refine ⟨by norm_num, ?_, hlp, hhp, hadd, ?_⟩
  · unfold make_bandstop
    rw [if_neg (by norm_num)]
  · rw [hadd]
    simp [Finset.sum_range_succ]

/-- C9: `make_bandstop2` returns a buffer one sample shorter than the result of
`make_bandpass2`; with `L` the forced-odd `len/2`, its length is `2*L - 1`, which
is odd, and its center index `length/2` is the sum of the center indices of the
two convolved kernels (the highpass and the lowpass of `make_bandpass2`). -/
theorem make_bandstop2_length (env : Env K) (sr : ℤ) (freqlow freqhi : K) (len : ℕ)
    (w : window) :
    ∃ bp bs, make_bandpass2 env sr freqlow freqhi len w = some bp ∧
      make_bandstop2 env sr freqlow freqhi len w = some bs ∧
      bs.len + 1 = bp.len ∧
      bs.len = 2 * odd_size (len / 2) - 1 ∧
      bs.len % 2 = 1 ∧
      bs.len / 2 = (make_highpass env sr freqlow (len / 2) w).len / 2
        + (make_lowpass env sr freqhi (len / 2) w).len / 2 := by
  obtain ⟨bp, hbp, hlen, -, htype, -⟩ := make_bandpass2_shape env sr freqlow freqhi len w
  have hodd := odd_size_odd (len / 2)
  have hbs : (spectral_inversion_td env { bp with len := bp.len - 1 }).len = bp.len - 1 :=
    spectral_inversion_td_len env _ htype
  refine ⟨bp, spectral_inversion_td env { bp with len := bp.len - 1 }, hbp, ?_, ?_, ?_, ?_, ?_⟩
  · unfold make_bandstop2
    rw [hbp]
    rfl
  · rw [hbs]; omega
  · rw [hbs]; omega
  · rw [hbs]; omega
  · rw [hbs, make_highpass_len, make_lowpass_len]; omega

/-- C10: `normalize_dc` is idempotent: on a time-domain buffer whose samples
have a non-zero sum, the samples add up to exactly 1 after one application, and
a second application returns the same buffer, every sample unchanged. -/
theorem normalize_dc_idempotent (env : Env K) (buf : audiobuf K)
    (htd : buf.type = audiobuf_td) (hwf : buf.len ≤ buf.td.length)
    (hsum : ∑ j ∈ range buf.len, buf.td.getD j 0 ≠ 0) :
    ∑ i ∈ range (normalize_dc env buf).len, (normalize_dc env buf).td.getD i 0 = 1 ∧
    normalize_dc env (normalize_dc env buf) = normalize_dc env buf := by
  have h1 := normalize_dc_sum env buf htd hwf hsum
  refine ⟨h1, ?_⟩
  have htd1 := normalize_dc_type env buf htd
  have ht : dc_total (normalize_dc env buf) = 1 := by rw [dc_total_eq_sum, h1]
  rw [normalize_dc_eq env (normalize_dc env buf) htd1, ht,
    forEachIdx_id _ _ _ (fun _ x => div_one x)]

/-- The buffer `[1, 2, 1]`, of sum 4. -/
theorem normalize_dc_idempotent_witness :
    ((⟨[1, 2, 1], none, 3, audiobuf_td, 44100⟩ : audiobuf ℚ).type = audiobuf_td ∧
      3 ≤ ([1, 2, 1] : List ℚ).length ∧
      ∑ j ∈ range 3, ([1, 2, 1] : List ℚ).getD j 0 ≠ 0) ∧
    ∑ i ∈ range (normalize_dc envQ ⟨[1, 2, 1], none, 3, audiobuf_td, 44100⟩).len,
      (normalize_dc envQ ⟨[1, 2, 1], none, 3, audiobuf_td, 44100⟩).td.getD i 0 = 1 ∧
    normalize_dc envQ (normalize_dc envQ ⟨[1, 2, 1], none, 3, audiobuf_td, 44100⟩)
      = normalize_dc envQ ⟨[1, 2, 1], none, 3, audiobuf_td, 44100⟩ :=
  ⟨⟨rfl, by decide, by simp [Finset.sum_range_succ]; norm_num⟩,
    normalize_dc_idempotent envQ ⟨[1, 2, 1], none, 3, audiobuf_td, 44100⟩ rfl (by decide)
      (by simp [Finset.sum_range_succ]; norm_num)⟩

/-- C11, as the code has it: `normalize_dc` makes no check of the sum and has no
fatal exit. On every time-domain buffer it returns the buffer with the same
length, sample rate and type. When the samples have a non-zero sum, sample `i`
is the old sample divided by the sum. When they sum to zero, sample `i` is the
`float` quotient by zero of the old sample: `+inf` for a positive sample,
`-inf` for a negative one, NaN for a zero one. -/
theorem normalize_dc_no_check (env : Env K) (buf : audiobuf K)
    (htd : buf.type = audiobuf_td) (hwf : buf.len ≤ buf.td.length) :
    (normalize_dc env buf).len = buf.len ∧
    (normalize_dc env buf).sr = buf.sr ∧
    (normalize_dc env buf).type = audiobuf_td ∧
    (normalize_dc_float env buf).length = buf.len ∧
    (∑ j ∈ range buf.len, buf.td.getD j 0 ≠ 0 →
      ∀ i, i < buf.len →
        (normalize_dc env buf).td.getD i 0
          = buf.td.getD i 0 / ∑ j ∈ range buf.len, buf.td.getD j 0 ∧
        (normalize_dc_float env buf)[i]?
          = some (cfloat.num (buf.td.getD i 0 / ∑ j ∈ range buf.len, buf.td.getD j 0))) ∧
    (∑ j ∈ range buf.len, buf.td.getD j 0 = 0 →
      ∀ i, i < buf.len →
        (normalize_dc_float env buf)[i]?
          = some (if 0 < buf.td.getD i 0 then cfloat.pinf
              else if buf.td.getD i 0 < 0 then cfloat.ninf else cfloat.nan)) := by
  refine ⟨normalize_dc_len env buf htd, normalize_dc_sr env buf htd,
    normalize_dc_type env buf htd, normalize_dc_float_length env buf htd,
    fun hne i hi => ⟨normalize_dc_getD env buf htd hwf i hi, ?_⟩, fun hz i hi => ?_⟩
  · rw [normalize_dc_float_getElem env buf htd i hi, float_div, if_neg hne]
  · rw [normalize_dc_float_getElem env buf htd i hi, float_div, if_pos hz]

/-- The zero-sum buffer `[1, -1]`. -/
theorem normalize_dc_no_check_witness :
    ((⟨[1, -1], none, 2, audiobuf_td, 44100⟩ : audiobuf ℚ).type = audiobuf_td ∧
      2 ≤ ([1, -1] : List ℚ).length) ∧
    (normalize_dc envQ ⟨[1, -1], none, 2, audiobuf_td, 44100⟩).len = 2 ∧
    (normalize_dc envQ ⟨[1, -1], none, 2, audiobuf_td, 44100⟩).sr = 44100 ∧
    (normalize_dc envQ ⟨[1, -1], none, 2, audiobuf_td, 44100⟩).type = audiobuf_td ∧
    (normalize_dc_float envQ ⟨[1, -1], none, 2, audiobuf_td, 44100⟩).length = 2 :=
  ⟨⟨rfl, by decide⟩,
    (normalize_dc_no_check envQ ⟨[1, -1], none, 2, audiobuf_td, 44100⟩ rfl (by decide)).1,
    (normalize_dc_no_check envQ ⟨[1, -1], none, 2, audiobuf_td, 44100⟩ rfl (by decide)).2.1,
    (normalize_dc_no_check envQ ⟨[1, -1], none, 2, audiobuf_td, 44100⟩ rfl (by decide)).2.2.1,
    (normalize_dc_no_check envQ ⟨[1, -1], none, 2, audiobuf_td, 44100⟩ rfl
      (by decide)).2.2.2.1⟩

/-- C11 as stated fails: the samples of the buffer `[1, -1]` sum to zero, and
`normalize_dc` returns a buffer all the same, of length 2 in the time domain,
with the samples `+inf` and `-inf`. -/
theorem normalize_dc_zero_sum_returns :
    ∑ j ∈ range 2, ([1, -1] : List ℚ).getD j 0 = 0 ∧
    (normalize_dc envQ ⟨[1, -1], none, 2, audiobuf_td, 44100⟩).len = 2 ∧
    (normalize_dc envQ ⟨[1, -1], none, 2, audiobuf_td, 44100⟩).type = audiobuf_td ∧
    normalize_dc_float envQ ⟨[1, -1], none, 2, audiobuf_td, 44100⟩
      = [cfloat.pinf, cfloat.ninf] := by
  refine ⟨by simp [Finset.sum_range_succ], rfl, rfl, normalize_dc_float_example⟩

/-- C12 fails on the code: over the reals, with the functions of the C math
library, the call `make_bandstopdeep(44100, 1000, 5, 1, rectangular)` never
returns. The one-tap kernel has power 1 at every width, below the depth 5, so
every pass shrinks the width by the step `44/3`, the direction never reverses,
the step is never halved, and the guard `low < 0 || hi > sr/2` never holds for
the widths `44 - k * 44/3`: no number of loop tests ends the loop. -/
theorem make_bandstopdeep_never_returns (env : Env ℝ) (fuel : ℕ) :
    make_bandstopdeep env ⟨Real.cos, Real.sin, Real.sqrt, Real.log⟩ 44100 1000 5 1
      window_rectangular fuel = none := by
  apply make_bandstopdeep_diverges env _ Real.cos_zero Real.sin_zero Real.sqrt_one
  show |Real.log 1 - Real.log 5| > 0.01
  have h1 : Real.log 2 < Real.log 5 := Real.log_lt_log (by norm_num) (by norm_num)
  have h2 := Real.log_two_gt_d9
  rw [Real.log_one, zero_sub, abs_neg, abs_of_pos (by linarith)]
  norm_num at h2 ⊢
  linarith

/-- C14 fails on the code: `double width = sr/1000;` divides two `int`s, so for
`sr = 44100` the search starts with the width 44, not 44.1, and with the step
`44/3`, not `44.1/3`. -/
theorem make_bandstopdeep_initial_width :
    (deep_width0 44100 : ℚ) = 44 ∧ (deep_width0 44100 : ℚ) ≠ 44.1 ∧
    (deep_step0 44100 : ℚ) = 44 / 3 ∧ (deep_step0 44100 : ℚ) ≠ 44.1 / 3 ∧
    ∃ st, deep_init envQ libmQ 44100 1000 2001 window_blackman = deep_outcome.running st ∧
      st.width = 44 ∧ st.step = 44 / 3 := by
  refine ⟨deep_width0_44100, by rw [deep_width0_44100]; norm_num, deep_step0_44100,
    by rw [deep_step0_44100]; norm_num, ?_⟩
  obtain ⟨st, hst, hw, hs, -⟩ := deep_init_running envQ libmQ 44100 1000 2001 window_blackman
  exact ⟨st, hst, by rw [hw, deep_width0_44100], by rw [hs, deep_step0_44100]⟩

/-- C15 fails on the code: at 8000 Hz with three taps (transform size 8) and the
sorted curve `(0, 1), (2000, 0), (4000, 0)`, bin 7 has the reflected frequency
1000 Hz, between the first two points, where the piecewise-linear interpolation
is `1/2`; the code stores 0 in `in[7].r`. The cursor `pti` is never moved back,
so after the bins of the rising half it stands on the segment from 2000 to
4000 Hz, which is used for the bins of the falling half. -/
theorem custom_spectrum_bin_not_interpolated :
    ∃ fin, custom_spectrum (⟨fun _ => ⟨0, 0⟩, fun _ => 0⟩ : malloc_cells ℚ) 8000
        ⟨[⟨0, 1⟩, ⟨2000, 0⟩, ⟨4000, 0⟩], 3, 8000, false⟩ 3 = some fin ∧
      (bin_freq 8000 (custom_fftsize 3) 7 : ℚ) = 1000 ∧
      piecewise_linear [(⟨0, 1⟩ : wantpoint ℚ), ⟨2000, 0⟩, ⟨4000, 0⟩] 1000 = some (1 / 2) ∧
      (fin.getD 7 0).r = 0 := by
  refine ⟨_, custom_spectrum_three 0, ?_, piecewise_linear_example, rfl⟩
  rw [custom_fftsize_three]
  norm_num [bin_freq, Int.tdiv]

/-- C16 fails on the code: for the same curve and size, bin 1 and its mirror
image, bin `fftsize - 1 = 7`, have the same frequency 1000 Hz, and the code
stores `1/2` in bin 1 and 0 in bin 7. -/
theorem custom_spectrum_not_symmetric :
    ∃ fin, custom_spectrum (⟨fun _ => ⟨0, 0⟩, fun _ => 0⟩ : malloc_cells ℚ) 8000
        ⟨[⟨0, 1⟩, ⟨2000, 0⟩, ⟨4000, 0⟩], 3, 8000, false⟩ 3 = some fin ∧
      (bin_freq 8000 (custom_fftsize 3) 1 : ℚ) = bin_freq 8000 (custom_fftsize 3) 7 ∧
      (fin.getD 1 0).r = 1 / 2 ∧
      (fin.getD (custom_fftsize 3 - 1) 0).r = 0 := by
  refine ⟨_, custom_spectrum_three 0, ?_, rfl, ?_⟩
  · rw [custom_fftsize_three]
    norm_num [bin_freq, Int.tdiv]
  · rw [custom_fftsize_three]
    rfl

/-- C17 fails on the code: with one tap (transform size 2) and the flat curve
`(0, 1), (4000, 1)` at 8000 Hz, bin 1 of the spectrum has the imaginary part `g`
that its cell held before the call: the loop that clears the imaginary parts
runs over `i < len = 1`, not over the `fftsize = 2` bins. -/
theorem custom_spectrum_imag_not_cleared (g : ℚ) :
    ∃ fin, custom_spectrum ⟨fun _ => ⟨g, g⟩, fun _ => g⟩ 8000
        ⟨[⟨0, 1⟩, ⟨4000, 1⟩], 2, 8000, false⟩ 1 = some fin ∧
      custom_fftsize 1 = 2 ∧ (fin.getD 0 0).i = 0 ∧ (fin.getD 1 0).i = g :=
  ⟨_, custom_spectrum_flat g, custom_fftsize_one, rfl, rfl⟩

/-- C18 fails on the code: with one tap, `center = 0` and neither copy loop runs,
so the only sample of the buffer is the value `g` that the cell `audio[0]` held
before the call, whereas `out[0].r / fftsize` is 1 (flat curve `(0, 1),
(4000, 1)` at 8000 Hz, transform size 2). -/
theorem custom_kernel_last_sample_not_written (g : ℚ) :
    custom_kernel envQ ⟨fun _ => ⟨g, g⟩, fun _ => g⟩ 8000
        ⟨[⟨0, 1⟩, ⟨4000, 1⟩], 2, 8000, false⟩ 1
      = some ⟨[g], none, 1, audiobuf_td, 8000⟩ ∧
    ((kiss_fft_inverse (envQ.twiddle 2) 2 [⟨1, 0⟩, ⟨1, g⟩]).getD 0 0).r / 2 = 1 := by
  refine ⟨custom_kernel_flat g, ?_⟩
  simp [kiss_fft_inverse, Finset.sum_range_succ, List.range_succ]

/-- C19 fails on the code: for the flat curve `(0, 1), (4000, 1)` of power 1, at
8000 Hz with one tap and the rectangular window, `make_custom` returns the
one-sample kernel `[g]`, where `g` is the value that the cell `audio[0]` held
when `malloc` returned it: the sample at the center index 0 is never written,
so it is `p = 1` only by accident, and it is 0 in zeroed memory. -/
theorem make_custom_flat_not_impulse (g : ℚ) :
    make_custom envQ ⟨fun _ => ⟨g, g⟩, fun _ => g⟩ 8000
        ⟨[⟨0, 1⟩, ⟨4000, 1⟩], 2, 8000, false⟩ 1 window_rectangular
      = some ⟨[g], none, 1, audiobuf_td, 8000⟩ ∧
    make_custom envQ (⟨fun _ => ⟨0, 0⟩, fun _ => 0⟩ : malloc_cells ℚ) 8000
        ⟨[⟨0, 1⟩, ⟨4000, 1⟩], 2, 8000, false⟩ 1 window_rectangular
      ≠ some ⟨[1], none, 1, audiobuf_td, 8000⟩ := by
  refine ⟨make_custom_flat g, ?_⟩
  rw [make_custom_flat 0]
  simp

/-- C20 fails on the code: for the one-point curve `(0, 1)` at 8000 Hz, bin 0 has
the frequency 0, which is neither below nor above the point, so the loop
`while ( curve->pts[pti+1].freq < f )` reads `pts[1]` with `ct = 1`. -/
theorem custom_bin_reads_past_ct (cells : malloc_cells ℚ) :
    (bin_freq 8000 (custom_fftsize 1) 0 : ℚ) = 0 ∧
    pts_at (⟨[⟨0, 1⟩], 1, 8000, false⟩ : wantcurve ℚ) (0 + 1) = none ∧
    advance_pti (⟨[⟨0, 1⟩], 1, 8000, false⟩ : wantcurve ℚ) 0 0 = none ∧
    custom_bin (⟨[⟨0, 1⟩], 1, 8000, false⟩ : wantcurve ℚ) 0 0 = none ∧
    make_custom envQ cells 8000 ⟨[⟨0, 1⟩], 1, 8000, false⟩ 1 window_rectangular = none := by
  refine ⟨?_, rfl, ?_, custom_bin_one_point, ?_⟩
  · norm_num [bin_freq, Int.tdiv]
  · simp [advance_pti]
  · unfold make_custom custom_kernel
    have h1 : odd_size 1 = 1 := by decide
    simp only [h1, custom_spectrum_one_point cells]
    rfl

/-- C21: for `sr != 0`, `make_sinc(sr, freq, size)` returns a time-domain buffer
with sample rate `sr` whose length is `size` when `size` is odd and `size + 1`
when it is even, with exactly that many allocated samples, and whose sample `i`
is `2*PI*fc` at `i = center = length/2` and
`sinf(2*PI*fc*(i-center))/(i-center)` elsewhere, where `fc = freq/sr` (the
number with `fc * sr = freq`) and `PI` is the constant of the source. -/
theorem make_sinc_samples (env : Env K) (sr : ℤ) (freq : K) (size : ℕ) (hsr : sr ≠ 0) :
    ∃ fc : K, fc * (sr : K) = freq ∧
      (make_sinc env sr freq size).type = audiobuf_td ∧
      (make_sinc env sr freq size).sr = sr ∧
      (make_sinc env sr freq size).len = (if size % 2 = 1 then size else size + 1) ∧
      (make_sinc env sr freq size).td.length = (make_sinc env sr freq size).len ∧
      ∀ i, i < (make_sinc env sr freq size).len →
        (make_sinc env sr freq size).td.getD i 0 =
          if i = (make_sinc env sr freq size).len / 2 then 2 * PI * fc
          else env.sinf (2 * PI * fc
                  * ((i : K) - (((make_sinc env sr freq size).len / 2 : ℕ) : K)))
                / ((i : K) - (((make_sinc env sr freq size).len / 2 : ℕ) : K)) := by
  have hsrK : (sr : K) ≠ 0 := by exact_mod_cast hsr
  refine ⟨freq / (sr : K), div_mul_cancel₀ freq hsrK, make_sinc_type env sr freq size,
    make_sinc_sr env sr freq size, ?_, ?_, ?_⟩
  · rw [make_sinc_len]
    unfold odd_size
    by_cases h : size % 2 = 0
    · rw [if_pos h, if_neg (by omega)]
    · rw [if_neg h, if_pos (by omega)]
  · rw [make_sinc_length, make_sinc_len]
  · intro i hi
    rw [make_sinc_len] at hi ⊢
    rw [make_sinc_getD env sr freq size i hi]
    simp only [Int.cast_sub, Int.cast_natCast]

/-- The call `make_sinc(44100, 1000, 4)`: five samples. -/
theorem make_sinc_samples_witness :
    (44100 : ℤ) ≠ 0 ∧ (make_sinc envQ 44100 1000 4).len = 5 ∧
      (make_sinc envQ 44100 1000 4).td.length = 5 := by
  obtain ⟨_, -, -, -, hlen, hlength, -⟩ := make_sinc_samples envQ 44100 1000 4 (by decide)
  refine ⟨by decide, ?_, ?_⟩
  · rw [hlen]; rfl
  · rw [hlength, hlen]; rfl

/-- C22, as the code has it: `add_buf` has no check of the lengths and no fatal
exit. For time-domain operands of one sample rate of which `summand` holds at
least `dst->len` samples, whatever the length of `summand`, it adds sample `i`
of `summand` to sample `i` of `dst` for every `i < dst->len` and leaves the
length, the sample rate and the type of `dst` as they are; for operands of
equal length that is the element-wise sum. -/
theorem add_buf_no_check (env : Env K) (dst summand : audiobuf K)
    (hd : dst.type = audiobuf_td) (hs : summand.type = audiobuf_td)
    (hsr : dst.sr = summand.sr)
    (hwf : dst.len ≤ dst.td.length) (hsum : dst.len ≤ summand.td.length) :
    (add_buf env dst summand).len = dst.len ∧
    (add_buf env dst summand).sr = summand.sr ∧
    (add_buf env dst summand).type = audiobuf_td ∧
    (add_buf env dst summand).td.length = dst.td.length ∧
    ∀ i, i < dst.len → ∃ x y, dst.td[i]? = some x ∧ summand.td[i]? = some y ∧
      (add_buf env dst summand).td[i]? = some (x + y) := by
  have hconv : convert_buf env dst audiobuf_td = dst := convert_buf_td_self env dst hd
  have hconvs : convert_buf env summand audiobuf_td = summand :=
    convert_buf_td_self env summand hs
  refine ⟨add_buf_len env dst summand hd, ?_, ?_, ?_, ?_⟩
  · simp only [add_buf, hconv, hsr]
  · simp only [add_buf, hconv, hd]
  · simp only [add_buf, hconv, length_forEachIdx]
  · intro i hi
    have h1 : i < dst.td.length := by omega
    have h2 : i < summand.td.length := by omega
    refine ⟨dst.td[i], summand.td[i], List.getElem?_eq_getElem h1,
      List.getElem?_eq_getElem h2, ?_⟩
    simp only [add_buf, hconv, hconvs, getElem?_forEachIdx, if_pos hi,
      List.getElem?_eq_getElem h1, Option.map_some', List.getD_eq_getElem?_getD,
      List.getElem?_eq_getElem h2, Option.getD_some]

/-- A destination of two samples and a summand of three samples, both at
44100 Hz. -/
theorem add_buf_no_check_witness :
    ((⟨[1, 2], none, 2, audiobuf_td, 44100⟩ : audiobuf ℚ).type = audiobuf_td ∧
      (⟨[10, 20, 30], none, 3, audiobuf_td, 44100⟩ : audiobuf ℚ).type = audiobuf_td ∧
      (44100 : ℤ) = 44100 ∧
      2 ≤ ([1, 2] : List ℚ).length ∧ 2 ≤ ([10, 20, 30] : List ℚ).length) ∧
    (add_buf envQ ⟨[1, 2], none, 2, audiobuf_td, 44100⟩
      ⟨[10, 20, 30], none, 3, audiobuf_td, 44100⟩).len = 2 ∧
    (add_buf envQ ⟨[1, 2], none, 2, audiobuf_td, 44100⟩
      ⟨[10, 20, 30], none, 3, audiobuf_td, 44100⟩).sr = 44100 :=
  ⟨⟨rfl, rfl, rfl, by decide, by decide⟩,
    (add_buf_no_check envQ ⟨[1, 2], none, 2, audiobuf_td, 44100⟩
      ⟨[10, 20, 30], none, 3, audiobuf_td, 44100⟩ rfl rfl rfl (by decide) (by decide)).1,
    (add_buf_no_check envQ ⟨[1, 2], none, 2, audiobuf_td, 44100⟩
      ⟨[10, 20, 30], none, 3, audiobuf_td, 44100⟩ rfl rfl rfl (by decide) (by decide)).2.1⟩

/-- C22 as stated fails: for a destination `[1, 2]` and a summand
`[10, 20, 30]` of another length, both at 44100 Hz, `add_buf` ends normally and
has changed the destination to `[11, 22]`. -/
theorem add_buf_mismatch_modifies :
    (2 : ℕ) ≠ 3 ∧
    add_buf envQ ⟨[1, 2], none, 2, audiobuf_td, 44100⟩
        ⟨[10, 20, 30], none, 3, audiobuf_td, 44100⟩
      = ⟨[11, 22], none, 2, audiobuf_td, 44100⟩ ∧
    add_buf envQ ⟨[1, 2], none, 2, audiobuf_td, 44100⟩
        ⟨[10, 20, 30], none, 3, audiobuf_td, 44100⟩
      ≠ ⟨[1, 2], none, 2, audiobuf_td, 44100⟩ := by
  have h : add_buf envQ ⟨[1, 2], none, 2, audiobuf_td, 44100⟩
        ⟨[10, 20, 30], none, 3, audiobuf_td, 44100⟩
      = ⟨[11, 22], none, 2, audiobuf_td, 44100⟩ := by
    simp [add_buf, convert_buf, forEachIdx, List.range_succ]
    norm_num
  refine ⟨by decide, h, ?_⟩
  rw [h]
  intro h2
  have h3 := congrArg (fun b => b.td.getD 0 0) h2
  norm_num at h3

/-- C23 fails on the code: start from the time-domain buffer `[1, 2]` without a
frequency array and call `convert_buf(buf, audiobuf_fd)`,
`convert_buf(buf, audiobuf_td)`, `expand_buf(buf, 4)` and
`convert_buf(buf, audiobuf_fd)`. After every one of the first three calls the
invariant of `audiobuf.h` holds; after the fourth the buffer has type
`audiobuf_fd` and `len = 4`, and its frequency array is still the allocation of
`2/2 + 1 = 2` bins made by the first call, not one of `4/2 + 1 = 3` bins:
`convert_buf` allocates only when `fd` is `NULL`, and `expand_buf` leaves `fd`
as it is. -/
theorem convert_buf_reuses_stale_fd :
    fd_sized (⟨[1, 2], none, 2, audiobuf_td, 44100⟩ : audiobuf ℚ) ∧
    fd_sized (convert_buf envQ ⟨[1, 2], none, 2, audiobuf_td, 44100⟩ audiobuf_fd) ∧
    fd_sized (convert_buf envQ
      (convert_buf envQ ⟨[1, 2], none, 2, audiobuf_td, 44100⟩ audiobuf_fd) audiobuf_td) ∧
    fd_sized (expand_buf envQ (convert_buf envQ
      (convert_buf envQ ⟨[1, 2], none, 2, audiobuf_td, 44100⟩ audiobuf_fd) audiobuf_td) 4) ∧
    (convert_buf envQ (expand_buf envQ (convert_buf envQ
      (convert_buf envQ ⟨[1, 2], none, 2, audiobuf_td, 44100⟩ audiobuf_fd) audiobuf_td) 4)
      audiobuf_fd).type = audiobuf_fd ∧
    (convert_buf envQ (expand_buf envQ (convert_buf envQ
      (convert_buf envQ ⟨[1, 2], none, 2, audiobuf_td, 44100⟩ audiobuf_fd) audiobuf_td) 4)
      audiobuf_fd).len = 4 ∧
    (∃ fd, (convert_buf envQ (expand_buf envQ (convert_buf envQ
      (convert_buf envQ ⟨[1, 2], none, 2, audiobuf_td, 44100⟩ audiobuf_fd) audiobuf_td) 4)
      audiobuf_fd).fd = some fd ∧ fd.length = 2) ∧
    ¬ fd_sized (convert_buf envQ (expand_buf envQ (convert_buf envQ
      (convert_buf envQ ⟨[1, 2], none, 2, audiobuf_td, 44100⟩ audiobuf_fd) audiobuf_td) 4)
      audiobuf_fd) := by
  have h1 : convert_buf envQ ⟨[1, 2], none, 2, audiobuf_td, 44100⟩ audiobuf_fd
      = ⟨[1, 2], some [⟨3, 0⟩, ⟨-1, 0⟩], 2, audiobuf_fd, 44100⟩ := by
    simp [convert_buf, expand_buf, convert_buf_td, envQ, memWrite, kiss_fftr, dft,
      Finset.sum_range_succ, List.range_succ, kiss_fft_cpx.ext_iff]
    norm_num
  have h2 : convert_buf envQ ⟨[1, 2], some [⟨3, 0⟩, ⟨-1, 0⟩], 2, audiobuf_fd, 44100⟩
      audiobuf_td = ⟨[2, 4], some [⟨3, 0⟩, ⟨-1, 0⟩], 2, audiobuf_td, 44100⟩ := by
    simp [convert_buf, envQ, memWrite, kiss_fftri, hermitian, Finset.sum_range_succ,
      List.range_succ, kiss_fft_cpx.ext_iff]
    norm_num
  have h3 : expand_buf envQ ⟨[2, 4], some [⟨3, 0⟩, ⟨-1, 0⟩], 2, audiobuf_td, 44100⟩ 4
      = ⟨[2, 4, 0, 0], some [⟨3, 0⟩, ⟨-1, 0⟩], 4, audiobuf_td, 44100⟩ := by
    simp [expand_buf, convert_buf_td, envQ, List.replicate]
  have h4 : convert_buf envQ ⟨[2, 4, 0, 0], some [⟨3, 0⟩, ⟨-1, 0⟩], 4, audiobuf_td, 44100⟩
      audiobuf_fd = ⟨[2, 4, 0, 0], some [⟨6, 0⟩, ⟨2, -4⟩], 4, audiobuf_fd, 44100⟩ := by
    simp [convert_buf, expand_buf, convert_buf_td, envQ, memWrite, kiss_fftr, dft,
      Finset.sum_range_succ, List.range_succ, kiss_fft_cpx.ext_iff]
    norm_num
  rw [h1, h2, h3, h4]
  refine ⟨?_, ?_, ?_, ?_, rfl, rfl, ⟨_, rfl, rfl⟩, ?_⟩
  · intro h; exact absurd h (by decide)
  · intro _; exact ⟨_, rfl, rfl⟩
  · intro h; exact absurd h (by decide)
  · intro h; exact absurd h (by decide)
  · intro h
    obtain ⟨fd, hfd, hlen⟩ := h rfl
    simp only [Option.some.injEq] at hfd
    rw [← hfd] at hlen
    exact absurd hlen (by decide)

/-- C24: on a time-domain buffer of length `L` (with at least `L` allocated
samples), when the next fast size of `n` is at least `n`, `expand_buf(buf,
minsize)` leaves the buffer in the time domain with the new length
`L1 = max(L, next_fast_size(max(L, minsize))) >= max(L, minsize)` and at least
`L1` allocated samples, keeps the samples `0..L-1`, sets the samples
`L..L1-1` to 0 and does not change the sample rate. -/
theorem expand_buf_grows_with_zeros (env : Env K) (buf : audiobuf K) (minsize : ℕ)
    (htd : buf.type = audiobuf_td) (hwf : buf.len ≤ buf.td.length)
    (hfast : ∀ n, n ≤ env.next_fast_size_real n) :
    (expand_buf env buf minsize).type = audiobuf_td ∧
    (expand_buf env buf minsize).len
      = max buf.len (env.next_fast_size_real (max buf.len minsize)) ∧
    max buf.len minsize ≤ (expand_buf env buf minsize).len ∧
    (expand_buf env buf minsize).len ≤ (expand_buf env buf minsize).td.length ∧
    (∀ i, i < buf.len → (expand_buf env buf minsize).td[i]? = buf.td[i]?) ∧
    (∀ i, buf.len ≤ i → i < (expand_buf env buf minsize).len →
      (expand_buf env buf minsize).td[i]? = some 0) ∧
    (expand_buf env buf minsize).sr = buf.sr := by
  have hmax : (if buf.len > minsize then buf.len else minsize) = max buf.len minsize := by
    by_cases h : buf.len > minsize
    · rw [if_pos h, max_eq_left h.le]
    · rw [if_neg h, max_eq_right (not_lt.mp h)]
  have hge := hfast (max buf.len minsize)
  by_cases h : buf.len < env.next_fast_size_real (if buf.len > minsize then buf.len else minsize)
  · rw [expand_buf_grow env buf minsize htd h]
    rw [hmax] at h ⊢
    refine ⟨htd, (max_eq_right h.le).symm, hge, ?_, ?_, ?_, rfl⟩
    · simp only [List.length_append, List.length_take, List.length_replicate]
      omega
    · intro i hi
      show (buf.td.take buf.len ++ _)[i]? = _
      rw [List.getElem?_append_left (by simp only [List.length_take]; omega),
        List.getElem?_take_of_lt hi]
    · intro i hi1 hi2
      have hi3 : i < env.next_fast_size_real (max buf.len minsize) := hi2
      show (buf.td.take buf.len ++ _)[i]? = _
      have hl : (buf.td.take buf.len).length = buf.len := by
        simp only [List.length_take]; omega
      rw [List.getElem?_append_right (by omega), hl, List.getElem?_replicate,
        if_pos (by omega)]
  · rw [expand_buf_keep env buf minsize htd h]
    rw [hmax] at h
    have hle : env.next_fast_size_real (max buf.len minsize) ≤ buf.len := not_lt.mp h
    refine ⟨htd, (max_eq_left hle).symm, le_trans hge hle, hwf, fun _ _ => rfl, ?_, rfl⟩
    intro i hi1 hi2
    omega

/-- The buffer `[1, 2, 3]` expanded to at least five samples, with the next even
number as the next fast size. -/
theorem expand_buf_grows_with_zeros_witness :
    ((⟨[1, 2, 3], none, 3, audiobuf_td, 44100⟩ : audiobuf ℚ).type = audiobuf_td ∧
      3 ≤ ([1, 2, 3] : List ℚ).length ∧ ∀ n, n ≤ envQ.next_fast_size_real n) ∧
    (expand_buf envQ ⟨[1, 2, 3], none, 3, audiobuf_td, 44100⟩ 5).len = 6 := by
  have hfast : ∀ n, n ≤ envQ.next_fast_size_real n := by
    intro n; show n ≤ 2 * ((n + 1) / 2); omega
  refine ⟨⟨rfl, by decide, hfast⟩, ?_⟩
  rw [(expand_buf_grows_with_zeros envQ ⟨[1, 2, 3], none, 3, audiobuf_td, 44100⟩ 5 rfl
    (by decide) hfast).2.1]
  decide

/-- C25: over the reals (`cosf` the real cosine), for every window kind and
every time-domain buffer of length `L >= 1` whose samples are all 1,
`apply_window` keeps the length and yields samples that all lie in `[0, 1]`,
so the peak does not exceed the peak 1 of the input. For the rectangular kind
`apply_window` is the conversion to the time domain and nothing else: every
time-domain buffer is left as it is. -/
theorem apply_window_constant_one (env : Env ℝ) (hcos : env.cosf = Real.cos) (w : window)
    (buf : audiobuf ℝ) (htd : buf.type = audiobuf_td) (hwf : buf.len ≤ buf.td.length)
    (hL : 1 ≤ buf.len) (hone : ∀ i, i < buf.len → buf.td.getD i 0 = 1) :
    (apply_window env buf w).len = buf.len ∧
    (∃ i, i < buf.len ∧ |buf.td.getD i 0| = 1) ∧
    (∀ i, i < buf.len → 0 ≤ (apply_window env buf w).td.getD i 0 ∧
      (apply_window env buf w).td.getD i 0 ≤ 1 ∧
      |(apply_window env buf w).td.getD i 0| ≤ 1) ∧
    (∀ b : audiobuf ℝ, apply_window env b window_rectangular = convert_buf env b audiobuf_td) ∧
    (∀ b : audiobuf ℝ, b.type = audiobuf_td → apply_window env b window_rectangular = b) := by
  refine ⟨apply_window_len env buf w htd, ⟨0, by omega, by rw [hone 0 (by omega), abs_one]⟩,
    ?_, fun b => rfl, fun b hb => ?_⟩
  · intro i hi
    rw [apply_window_getD env buf w htd hwf i hi, hone i hi, one_mul]
    have h := window_coeff_real_mem env hcos w buf.len i hi
    exact ⟨h.1, h.2, abs_le.mpr ⟨by linarith [h.1], h.2⟩⟩
  · show convert_buf env b audiobuf_td = b
    exact convert_buf_td_self env b hb

/-- The Blackman window on three samples equal to 1, at the sample of index 1. -/
theorem apply_window_constant_one_witness :
    (1 ≤ 3 ∧ 1 < 3) ∧
    0 ≤ (apply_window (⟨Real.sin, Real.cos, fun _ => 1, id⟩ : Env ℝ)
      ⟨[1, 1, 1], none, 3, audiobuf_td, 44100⟩ window_blackman).td.getD 1 0 ∧
    (apply_window (⟨Real.sin, Real.cos, fun _ => 1, id⟩ : Env ℝ)
      ⟨[1, 1, 1], none, 3, audiobuf_td, 44100⟩ window_blackman).td.getD 1 0 ≤ 1 ∧
    |(apply_window (⟨Real.sin, Real.cos, fun _ => 1, id⟩ : Env ℝ)
      ⟨[1, 1, 1], none, 3, audiobuf_td, 44100⟩ window_blackman).td.getD 1 0| ≤ 1 :=
  ⟨⟨by decide, by decide⟩,
    (apply_window_constant_one (⟨Real.sin, Real.cos, fun _ => 1, id⟩ : Env ℝ) rfl
      window_blackman ⟨[1, 1, 1], none, 3, audiobuf_td, 44100⟩ rfl (by simp) (by decide)
      (by intro i hi; interval_cases i <;> simp)).2.2.1 1 (by decide)⟩

/-- C26: on a time-domain buffer, `normalize_peak_if_clipped` leaves the buffer
as it is (and prints no warning) when every sample has absolute value at most
1; otherwise the maximum absolute sample `|td[j]|` exceeds 1 and every sample
is divided by it (and the warning carries the scale `1/|td[j]|`). In both cases
the length and the sample rate are kept and every sample of the result has
absolute value at most 1. -/
theorem normalize_peak_if_clipped_bounded (env : Env K) (buf : audiobuf K)
    (htd : buf.type = audiobuf_td) (hwf : buf.len ≤ buf.td.length) :
    ((∀ i, i < buf.len → |buf.td.getD i 0| ≤ 1) →
      normalize_peak_if_clipped env buf = (buf, none)) ∧
    ((∃ i, i < buf.len ∧ 1 < |buf.td.getD i 0|) →
      ∃ j, j < buf.len ∧ 1 < |buf.td.getD j 0| ∧
        (∀ i, i < buf.len → |buf.td.getD i 0| ≤ |buf.td.getD j 0|) ∧
        (∀ i, i < buf.len → (normalize_peak_if_clipped env buf).1.td.getD i 0
          = buf.td.getD i 0 / |buf.td.getD j 0|) ∧
        (normalize_peak_if_clipped env buf).2 = some (1 / |buf.td.getD j 0|)) ∧
    (normalize_peak_if_clipped env buf).1.len = buf.len ∧
    (normalize_peak_if_clipped env buf).1.sr = buf.sr ∧
    (normalize_peak_if_clipped env buf).1.type = audiobuf_td ∧
    (normalize_peak_if_clipped env buf).1.td.length = buf.td.length ∧
    ∀ i, i < buf.len → |(normalize_peak_if_clipped env buf).1.td.getD i 0| ≤ 1 := by
  by_cases hmax : peak_max buf ≤ 1
  · have hall : ∀ i, i < buf.len → |buf.td.getD i 0| ≤ 1 :=
      fun i hi => le_trans (peak_max_ge buf i hi) hmax
    rw [normalize_peak_if_clipped_of_le env buf htd hmax]
    refine ⟨fun _ => rfl, ?_, rfl, rfl, htd, rfl, hall⟩
    rintro ⟨i, hi, hgt⟩
    exact absurd (hall i hi) (not_le.mpr hgt)
  · have hgt : 1 < peak_max buf := not_le.mp hmax
    have hpos : 0 < peak_max buf := lt_trans zero_lt_one hgt
    rw [normalize_peak_if_clipped_of_gt env buf htd hgt]
    have hget : ∀ i, i < buf.len →
        (forEachIdx buf.len (fun _ x => x / peak_max buf) buf.td).getD i 0
          = buf.td.getD i 0 / peak_max buf := by
      intro i hi
      rw [getD_forEachIdx, if_pos ⟨hi, by omega⟩]
    refine ⟨?_, ?_, rfl, rfl, htd, length_forEachIdx _ _ _, ?_⟩
    · intro hall
      obtain h0 | ⟨j, hj, hj2⟩ := peak_max_attained buf
      · rw [h0] at hgt; exact absurd hgt (by norm_num)
      · rw [hj2] at hgt; exact absurd (hall j hj) (not_le.mpr hgt)
    · intro _
      obtain h0 | ⟨j, hj, hj2⟩ := peak_max_attained buf
      · rw [h0] at hgt; exact absurd hgt (by norm_num)
      · refine ⟨j, hj, by rw [← hj2]; exact hgt, fun i hi => ?_, fun i hi => ?_, ?_⟩
        · rw [← hj2]; exact peak_max_ge buf i hi
        · show (forEachIdx buf.len (fun _ x => x / peak_max buf) buf.td).getD i 0 = _
          rw [hget i hi, hj2]
        · show some (1 / peak_max buf) = _
          rw [hj2]
    · intro i hi
      show |(forEachIdx buf.len (fun _ x => x / peak_max buf) buf.td).getD i 0| ≤ 1
      rw [hget i hi, abs_div, abs_of_pos hpos, div_le_one hpos]
      exact peak_max_ge buf i hi

/-- The buffer `[1, -4, 2]`, whose peak 4 exceeds 1. -/
theorem normalize_peak_if_clipped_bounded_witness :
    ((⟨[1, -4, 2], none, 3, audiobuf_td, 44100⟩ : audiobuf ℚ).type = audiobuf_td ∧
      3 ≤ ([1, -4, 2] : List ℚ).length) ∧
    ∀ i, i < 3 →
      |(normalize_peak_if_clipped envQ ⟨[1, -4, 2], none, 3, audiobuf_td, 44100⟩).1.td.getD i 0|
        ≤ 1 :=
  ⟨⟨rfl, by decide⟩,
    (normalize_peak_if_clipped_bounded envQ ⟨[1, -4, 2], none, 3, audiobuf_td, 44100⟩ rfl
      (by decide)).2.2.2.2.2.2⟩

/-- C27, as the code has it, with the `float` values of `strtof` that are not
numbers included (`strtof` returns the NaN for the text `+nan`, which passes the
test for the start of a number): whenever `read_wantcurve_from_string` returns
a curve, its `ct` points are a permutation of the points read from the text,
and when no frequency read is the NaN they are non-decreasing by frequency. The
insertion sort moves a point only past points of a greater frequency, and
points read with equal frequencies all stay in the list. -/
theorem read_wantcurve_sorted_perm (lc : Libc (cfloat K)) (sr0 : ℤ) (str : List Char)
    (curve : wantcurve (cfloat K))
    (h : read_wantcurve_from_string lc sr0 str = some curve) :
    curve.pts.Perm (read_points lc str 0 []) ∧
    ((∀ p ∈ read_points lc str 0 [], p.freq ≠ cfloat.nan) →
      curve.pts.Pairwise (fun a b => a.freq ≤ b.freq)) ∧
    curve.ct = curve.pts.length ∧ 1 ≤ curve.ct := by
  rw [read_wantcurve_from_string_unfold] at h
  by_cases h0 : (read_points lc str 0 []).length = 0
  · rw [if_pos h0] at h; cases h
  · rw [if_neg h0] at h
    simp only [Option.some.injEq] at h
    subst h
    obtain ⟨hperm, hsorted⟩ := sort_points_float (read_points lc str 0 [])
    exact ⟨hperm, hsorted, hperm.length_eq.symm,
      by show 1 ≤ (read_points lc str 0 []).length; omega⟩

/-- The text `5 2,5 3`, read with conversions that take runs of digits: no
frequency read is the NaN, and the list returned is non-decreasing. -/
theorem read_wantcurve_sorted_perm_witness :
    read_wantcurve_from_string libcF 0 ['5', ' ', '2', ',', '5', ' ', '3']
      = some ⟨[⟨cfloat.num 5, cfloat.num 2⟩, ⟨cfloat.num 5, cfloat.num 3⟩], 2, 0, false⟩ ∧
    (∀ p ∈ read_points libcF ['5', ' ', '2', ',', '5', ' ', '3'] 0 [],
      p.freq ≠ cfloat.nan) ∧
    List.Pairwise (fun a b : wantpoint (cfloat ℚ) => a.freq ≤ b.freq)
      [⟨cfloat.num 5, cfloat.num 2⟩, ⟨cfloat.num 5, cfloat.num 3⟩] :=
  have hgood : ∀ p ∈ read_points libcF ['5', ' ', '2', ',', '5', ' ', '3'] 0 [],
      p.freq ≠ cfloat.nan := by
    rw [read_points_float_example]
    intro p hp
    simp only [List.mem_cons, List.mem_singleton, List.not_mem_nil, or_false] at hp
    rcases hp with hp | hp <;> rw [hp] <;> exact fun hn => cfloat.noConfusion hn
  ⟨read_wantcurve_float_example, hgood,
    (read_wantcurve_sorted_perm libcF 0 ['5', ' ', '2', ',', '5', ' ', '3']
      ⟨[⟨cfloat.num 5, cfloat.num 2⟩, ⟨cfloat.num 5, cfloat.num 3⟩], 2, 0, false⟩
      read_wantcurve_float_example).2.1 hgood⟩

/-- C27 as stated fails, in two ways. From the text `5 2,5 3` the two points
`(5, 2)` and `(5, 3)` are read, and the returned list `(5, 2), (5, 3)` is not
strictly increasing by frequency. From the text `5 1,+nan 1,3 1` the points of
frequencies 5, NaN and 3 are read and are returned in that order, since no
comparison with the NaN holds: that list is not even non-decreasing. -/
theorem read_wantcurve_equal_frequencies :
    (read_points libcF ['5', ' ', '2', ',', '5', ' ', '3'] 0 []
        = [⟨cfloat.num 5, cfloat.num 2⟩, ⟨cfloat.num 5, cfloat.num 3⟩] ∧
      read_wantcurve_from_string libcF 0 ['5', ' ', '2', ',', '5', ' ', '3']
        = some ⟨[⟨cfloat.num 5, cfloat.num 2⟩, ⟨cfloat.num 5, cfloat.num 3⟩], 2, 0, false⟩ ∧
      ¬ List.Pairwise (fun a b : wantpoint (cfloat ℚ) => a.freq < b.freq)
        [⟨cfloat.num 5, cfloat.num 2⟩, ⟨cfloat.num 5, cfloat.num 3⟩]) ∧
    (read_points libcF
          ['5', ' ', '1', ',', '+', 'n', 'a', 'n', ' ', '1', ',', '3', ' ', '1'] 0 []
        = [⟨cfloat.num 5, cfloat.num 1⟩, ⟨cfloat.nan, cfloat.num 1⟩,
            ⟨cfloat.num 3, cfloat.num 1⟩] ∧
      read_wantcurve_from_string libcF 0
          ['5', ' ', '1', ',', '+', 'n', 'a', 'n', ' ', '1', ',', '3', ' ', '1']
        = some ⟨[⟨cfloat.num 5, cfloat.num 1⟩, ⟨cfloat.nan, cfloat.num 1⟩,
            ⟨cfloat.num 3, cfloat.num 1⟩], 3, 0, false⟩ ∧
      ¬ List.Pairwise (fun a b : wantpoint (cfloat ℚ) => a.freq ≤ b.freq)
        [⟨cfloat.num 5, cfloat.num 1⟩, ⟨cfloat.nan, cfloat.num 1⟩,
          ⟨cfloat.num 3, cfloat.num 1⟩]) := by
  refine ⟨⟨read_points_float_example, read_wantcurve_float_example, ?_⟩,
    ⟨read_points_nan_example, read_wantcurve_nan_example, ?_⟩⟩
  · intro hp
    have h1 := (List.pairwise_cons.mp hp).1 ⟨cfloat.num 5, cfloat.num 3⟩
      (List.mem_singleton.mpr rfl)
    exact absurd ((cfloat_num_lt_iff (5 : ℚ) 5).mp h1) (lt_irrefl _)
  · intro hp
    have h1 := (List.pairwise_cons.mp hp).1 ⟨cfloat.nan, cfloat.num 1⟩
      (List.mem_cons_self _ _)
    exact cfloat_not_num_le_nan (5 : ℚ) h1

/-- C28: `read_wantcurve_from_string` ends with its fatal error exactly when the
loop over the text has read no point, and every curve that it returns has
`ct >= 1`, with `ct` the number of points read and of points in the list. -/
theorem read_wantcurve_empty_iff (lc : Libc K) (sr0 : ℤ) (str : List Char) :
    (read_wantcurve_from_string lc sr0 str = none ↔ read_points lc str 0 [] = []) ∧
    ∀ curve, read_wantcurve_from_string lc sr0 str = some curve →
      1 ≤ curve.ct ∧ curve.ct = (read_points lc str 0 []).length ∧
        curve.ct = curve.pts.length := by
  rw [read_wantcurve_from_string_eq]
  by_cases h0 : (read_points lc str 0 []).length = 0
  · rw [if_pos h0]
    refine ⟨⟨fun _ => List.length_eq_zero.mp h0, fun _ => rfl⟩, ?_⟩
    intro curve h
    cases h
  · rw [if_neg h0]
    refine ⟨⟨fun h => (by cases h), fun h => absurd (by rw [h]; rfl) h0⟩, ?_⟩
    intro curve h
    simp only [Option.some.injEq] at h
    subst h
    refine ⟨by show 1 ≤ (read_points lc str 0 []).length; omega, rfl, ?_⟩
    exact (sort_points_sorted_perm (read_points lc str 0 [])).1.length_eq.symm

/-- The text `# 5 2`, a comment, from which no point is read, and the text
`5 2,5 3`, from which two points are read. -/
theorem read_wantcurve_empty_iff_witness :
    read_wantcurve_from_string libcQ 0 ['#', ' ', '5', ' ', '2'] = none ∧
    (1 ≤ 2 ∧ 2 = (read_points libcQ ['5', ' ', '2', ',', '5', ' ', '3'] 0 []).length ∧
      2 = ([⟨5, 2⟩, ⟨5, 3⟩] : List (wantpoint ℚ)).length) :=
  ⟨(read_wantcurve_empty_iff libcQ 0 ['#', ' ', '5', ' ', '2']).1.mpr read_points_comment,
    (read_wantcurve_empty_iff libcQ 0 ['5', ' ', '2', ',', '5', ' ', '3']).2
      ⟨[⟨5, 2⟩, ⟨5, 3⟩], 2, 0, false⟩ read_wantcurve_example⟩

/-- C29, as the code has it: when the windowed sincs have non-zero sums and the
transform of `convolve` is exact, the buffer on which `make_highpass` calls
`spectral_inversion_td` (the kernel of `make_lowpass`) and the buffer on which
`make_bandpass` calls it (the kernel of `make_bandstop`) have taps that sum to
1; the buffer on which `make_bandstop2` calls it (the kernel of
`make_bandpass2` with `len` decremented) has taps that sum to 0, the DC gain of
a bandpass. -/
theorem spectral_inversion_td_arguments (env : Env K) (sr : ℤ) (freq freqlow freqhi : K)
    (len : ℕ) (w : window)
    (hf : ∑ j ∈ range (apply_window env (make_sinc env sr freq len) w).len,
      (apply_window env (make_sinc env sr freq len) w).td.getD j 0 ≠ 0)
    (hlo : ∑ j ∈ range (apply_window env (make_sinc env sr freqlow len) w).len,
      (apply_window env (make_sinc env sr freqlow len) w).td.getD j 0 ≠ 0)
    (hhi : ∑ j ∈ range (apply_window env (make_sinc env sr freqhi len) w).len,
      (apply_window env (make_sinc env sr freqhi len) w).td.getD j 0 ≠ 0)
    (hlo2 : ∑ j ∈ range (apply_window env (make_sinc env sr freqlow (len / 2)) w).len,
      (apply_window env (make_sinc env sr freqlow (len / 2)) w).td.getD j 0 ≠ 0)
    (hw : IsPrimitiveRoot
      (env.twiddle (1 <<< Nat.clog 2 (odd_size (len / 2) + odd_size (len / 2))))
      (1 <<< Nat.clog 2 (odd_size (len / 2) + odd_size (len / 2)))) :
    (make_highpass env sr freq len w
        = spectral_inversion_td env (make_lowpass env sr freq len w) ∧
      ∑ i ∈ range (make_lowpass env sr freq len w).len,
        (make_lowpass env sr freq len w).td.getD i 0 = 1) ∧
    (∃ bs, make_bandstop env sr freqlow freqhi len w = some bs ∧
      make_bandpass env sr freqlow freqhi len w = some (spectral_inversion_td env bs) ∧
      ∑ i ∈ range bs.len, bs.td.getD i 0 = 1) ∧
    (∃ bp, make_bandpass2 env sr freqlow freqhi len w = some bp ∧
      make_bandstop2 env sr freqlow freqhi len w
        = some (spectral_inversion_td env { bp with len := bp.len - 1 }) ∧
      ∑ i ∈ range (bp.len - 1), bp.td.getD i 0 = 0) := by
  refine ⟨⟨rfl, make_lowpass_sum env sr freq len w hf⟩, ?_, ?_⟩
  · obtain ⟨bs, hbs, hsum⟩ := make_bandstop_sum env sr freqlow freqhi len w hlo hhi hlo2 hw
    refine ⟨bs, hbs, ?_, hsum⟩
    unfold make_bandpass
    rw [hbs]
    rfl
  · obtain ⟨bp, hbp, -, -, -, hsum⟩ := make_bandpass2_sum env sr freqlow freqhi len w hlo2 hw
    refine ⟨bp, hbp, ?_, hsum⟩
    unfold make_bandstop2
    rw [hbp]
    rfl

/-- The composers at 44100 Hz with the cutoffs 1000 Hz and 2000 Hz, `len = 2` and
the rectangular window. -/
theorem spectral_inversion_td_arguments_witness :
    ∃ bp, make_bandpass2 envQ 44100 1000 2000 2 window_rectangular = some bp ∧
      make_bandstop2 envQ 44100 1000 2000 2 window_rectangular
        = some (spectral_inversion_td envQ { bp with len := bp.len - 1 }) ∧
      ∑ i ∈ range (bp.len - 1), bp.td.getD i 0 = 0 :=
  (spectral_inversion_td_arguments envQ 44100 1000 1000 2000 2 window_rectangular
    (envQ_rect_sinc_sum_three 1000 (by norm_num)) (envQ_rect_sinc_sum_three 1000 (by norm_num))
    (envQ_rect_sinc_sum_three 2000 (by norm_num)) (envQ_rect_sinc_sum_one 1000 (by norm_num))
    (by rw [fftsize_two]; exact envQ_twiddle_two)).2.2

/-- C29 as stated fails: in `make_bandstop2(44100, 1000, 2000, 2, rectangular)`
the kernel of `make_bandpass2` is `[0, 0]` with `len = 2`, and
`spectral_inversion_td` is called on it with `len = 1`: its taps sum to 0, not
to 1. -/
theorem make_bandstop2_inverts_zero_sum :
    make_bandpass2 envQ 44100 1000 2000 2 window_rectangular
      = some ⟨[0, 0], none, 2, audiobuf_td, 44100⟩ ∧
    make_bandstop2 envQ 44100 1000 2000 2 window_rectangular
      = some (spectral_inversion_td envQ ⟨[0, 0], none, 2 - 1, audiobuf_td, 44100⟩) ∧
    ∑ i ∈ range (2 - 1), ([0, 0] : List ℚ).getD i 0 = 0 ∧
    ∑ i ∈ range (2 - 1), ([0, 0] : List ℚ).getD i 0 ≠ 1 := by
  refine ⟨make_bandpass2_two_taps, ?_, by simp, by simp⟩
  unfold make_bandstop2
  rw [make_bandpass2_two_taps]
  rfl

/-- C31: for `freqlow == freqhi`, `make_bandpass` returns a buffer whose length
is one less than the length of the result of `make_bandpass2` and whose samples
are those of `make_bandpass2` at every index below that length: it is the
kernel of `make_bandpass2` with `len` decremented, inverted by `make_bandstop2`
and inverted again by `make_bandpass`. -/
theorem make_bandpass_zero_bandwidth (env : Env K) (sr : ℤ) (freqlow freqhi : K) (len : ℕ)
    (w : window) (h : freqlow = freqhi) :
    ∃ bp out, make_bandpass2 env sr freqlow freqhi len w = some bp ∧
      make_bandpass env sr freqlow freqhi len w = some out ∧
      out = spectral_inversion_td env (spectral_inversion_td env { bp with len := bp.len - 1 }) ∧
      out.len + 1 = bp.len ∧ out.type = audiobuf_td ∧
      ∀ i, i < out.len → out.td.getD i 0 = bp.td.getD i 0 := by
  obtain ⟨bp, hbp, hlen, -, htype, hwf⟩ := make_bandpass2_shape env sr freqlow freqhi len w
  have hone := one_le_odd_size (len / 2)
  obtain ⟨h1, h2, h3⟩ := spectral_inversion_td_twice env { bp with len := bp.len - 1 } htype
    (by show bp.len - 1 ≤ bp.td.length; omega) (by show 1 ≤ bp.len - 1; omega)
  refine ⟨bp, _, hbp, make_bandpass_of_eq env sr freqlow freqhi len w h bp hbp, rfl, ?_, h2, ?_⟩
  · rw [h1]; show bp.len - 1 + 1 = bp.len; omega
  · intro i hi
    rw [h1] at hi
    exact h3 i hi

/-- The call `make_bandpass(44100, 1000, 1000, 2, rectangular)`. -/
theorem make_bandpass_zero_bandwidth_witness :
    (1000 : ℚ) = 1000 ∧
    ∃ bp out, make_bandpass2 envQ 44100 1000 1000 2 window_rectangular = some bp ∧
      make_bandpass envQ 44100 1000 1000 2 window_rectangular = some out ∧
      out = spectral_inversion_td envQ
        (spectral_inversion_td envQ { bp with len := bp.len - 1 }) ∧
      out.len + 1 = bp.len ∧ out.type = audiobuf_td ∧
      ∀ i, i < out.len → out.td.getD i 0 = bp.td.getD i 0 :=
  ⟨rfl, make_bandpass_zero_bandwidth envQ 44100 1000 1000 2 window_rectangular rfl⟩

/-- C32 fails on the code: for `sr = 44100` and `freq = 20`, inside
`0 <= freq <= sr/2`, the build before the loop passes the band
`[freq - 44, freq + 44] = [-24, 64]` to `make_bandstop`, with `lo < 0`: the
guard `low < 0 || hi > sr/2` stands only in the loop. And the guard does not
test the width: in `make_bandstopdeep(44100, 1000, 5, 1, rectangular)` the
fourth pass has the width `-44/3` and passes the band
`[1000 + 44/3, 1000 - 44/3]`, with `lo > hi`. -/
theorem make_bandstopdeep_band_outside (env : Env K) (lm : Libm K) (len : ℕ) (w : window) :
    ((0 : K) ≤ 20 ∧ (20 : K) ≤ ((Int.tdiv 44100 2 : ℤ) : K) ∧
      deep_init env lm 44100 20 len w =
        (match make_bandstop env 44100 (-24) 64 len w with
        | none => deep_outcome.aborted
        | some buf =>
          deep_outcome.running ⟨44, 44 / 3, buf, frequency_power env lm buf 20, 0, 0⟩) ∧
      (-24 : K) < 0) ∧
    (deep_init envQ libmQ 44100 1000 1 window_rectangular
        = deep_outcome.running ⟨44, 44 / 3, ⟨[1], none, 1, audiobuf_td, 44100⟩, 1, 0, 0⟩ ∧
      ∃ tr last, deep_trace envQ libmQ 44100 1000 5 1 window_rectangular 4
          ⟨44, 44 / 3, ⟨[1], none, 1, audiobuf_td, 44100⟩, 1, 0, 0⟩ = some tr ∧
        tr.getLast? = some last ∧ last.width = -(44 / 3) ∧
        make_bandstop envQ 44100 (1000 - last.width) (1000 + last.width) 1 window_rectangular
          = some last.buf ∧
        1000 + last.width < 1000 - last.width) := by
  refine ⟨⟨by norm_num, by norm_num [Int.tdiv], deep_init_band env lm len w, by norm_num⟩,
    deep_init_example, ?_⟩
  obtain ⟨tr, last, h1, h2, h3, h4⟩ := deep_trace_negative_width
  exact ⟨tr, last, h1, h2, h3, h4, by rw [h3]; norm_num⟩

/-- C33 fails on the code: the kernel of `make_lowpass(44100, 1000, 3, barlett)`
has three taps, of which tap 0 is 0 and its mirror image, tap `L-1-0 = 2`, is
not: `1/2` when `sinf` is the identity, and positive when `sinf` is the real
sine. `apply_window` divides by `l = len`, not by `len - 1`, so the window
coefficients are `0, 2/3, 2/3`, symmetric about `len/2` and not about the
center tap `(len-1)/2`. -/
theorem make_lowpass_not_symmetric (cosf : ℝ → ℝ) (tw : ℕ → kiss_fft_cpx ℝ) (nfs : ℕ → ℕ) :
    (make_lowpass envQ 44100 1000 3 window_barlett).len = 3 ∧
    (make_lowpass envQ 44100 1000 3 window_barlett).td.getD 0 0 = 0 ∧
    (make_lowpass envQ 44100 1000 3 window_barlett).td.getD (3 - 1 - 0) 0 = 1 / 2 ∧
    (make_lowpass (⟨Real.sin, cosf, tw, nfs⟩ : Env ℝ) 44100 1000 3 window_barlett).len = 3 ∧
    (make_lowpass (⟨Real.sin, cosf, tw, nfs⟩ : Env ℝ) 44100 1000 3 window_barlett).td.getD 0 0
      = 0 ∧
    0 < (make_lowpass (⟨Real.sin, cosf, tw, nfs⟩ : Env ℝ) 44100 1000 3
      window_barlett).td.getD (3 - 1 - 0) 0 := by
  obtain ⟨hq0, hq2⟩ := make_lowpass_barlett_three envQ 44100 1000
  obtain ⟨hr0, hr2⟩ := make_lowpass_barlett_three (⟨Real.sin, cosf, tw, nfs⟩ : Env ℝ) 44100 1000
  refine ⟨by rw [make_lowpass_len]; decide, hq0, ?_, by rw [make_lowpass_len]; decide, hr0, ?_⟩
  · show (make_lowpass envQ 44100 1000 3 window_barlett).td.getD 2 0 = 1 / 2
    rw [hq2]
    norm_num [envQ, PI]
  · show 0 < (make_lowpass (⟨Real.sin, cosf, tw, nfs⟩ : Env ℝ) 44100 1000 3
      window_barlett).td.getD 2 0
    rw [hr2]
    have ha0 : (0 : ℝ) < 2 * PI * (1000 / ((44100 : ℤ) : ℝ)) := by norm_num [PI]
    have ha1 : 2 * PI * (1000 / ((44100 : ℤ) : ℝ)) < 1 := by norm_num [PI]
    have hs : 0 < Real.sin (2 * PI * (1000 / ((44100 : ℤ) : ℝ))) :=
      Real.sin_pos_of_pos_of_lt_pi ha0 (by linarith [Real.pi_gt_three])
    exact div_pos (mul_pos hs (by norm_num))
      (add_pos (mul_pos ha0 (by norm_num)) (mul_pos hs (by norm_num)))

/-- C34 fails on the code: for the sorted points `(1, 1), (2, 2), (3, 3)` and
`width = 1`, at the first print the variables are `sum = 2`, `from = 0`,
`to = 1`, while the amplitudes of the run `pts[0..1]` add up to 3; the printed
amplitude is `2/2 = 1`, not the mean `3/2`. The loop
`sum += pts[to++].amp` adds the amplitude of the old `pts[to]`, which is in the
sum already, and not the amplitude of the point that joins the run. -/
theorem process_sum_not_run_sum :
    List.Pairwise (fun a b : pt ℚ => a.freq ≤ b.freq) [⟨1, 1⟩, ⟨2, 2⟩, ⟨3, 3⟩] ∧
    process_states [(⟨1, 1⟩ : pt ℚ), ⟨2, 2⟩, ⟨3, 3⟩] 1
      = [⟨2, 0, 1⟩, ⟨2, 0, 1⟩, ⟨1, 1, 1⟩] ∧
    process [(⟨1, 1⟩ : pt ℚ), ⟨2, 2⟩, ⟨3, 3⟩] 1 = [(1, 1), (2, 1), (3, 1)] ∧
    ∑ k ∈ Finset.Icc 0 1, (pt_at [(⟨1, 1⟩ : pt ℚ), ⟨2, 2⟩, ⟨3, 3⟩] k).amp = 3 ∧
    run_mean [(⟨1, 1⟩ : pt ℚ), ⟨2, 2⟩, ⟨3, 3⟩] 0 1 = 3 / 2 := by
  have hs : ∑ k ∈ Finset.Icc 0 1, (pt_at [(⟨1, 1⟩ : pt ℚ), ⟨2, 2⟩, ⟨3, 3⟩] k).amp = 3 := by
    rw [show Finset.Icc 0 1 = ({0, 1} : Finset ℕ) by decide]
    simp [pt_at]
    norm_num
  refine ⟨by simp; norm_num, process_states_example, process_example, hs, ?_⟩
  unfold run_mean
  rw [hs]
  norm_num

end claims

end Mkfilter
